import Mathlib

/-!
# IBM Model 1 EM trainer (`src/alignment_models/model1.cpp`)

A shallow embedding of `Model1::InitDataStructures`, `Model1::ScorePair`,
`Model1::ClearExpectedCounts`, `Model1::EStep` and `Model1::MStep`.

* Word identifiers are C++ `int`s, embedded as `Int`.
* The two sparse tables (`TTable`, an `unordered_map<pair<int,int>, double>`) are
  association lists with at most one entry per key; the iteration order of the hash
  containers is fixed to insertion order (no result proved below depends on it).
* `double` is abstracted: every function takes the arithmetic it runs on as a record
  `Arith α` of exactly the operations the source uses.  Structural results hold for
  every such arithmetic; numeric results are stated for `ideal`, exact arithmetic on
  extended reals in which the sentinel `-numeric_limits<double>::max()` is `log 0 = ⊥`.
* The helper `lookup` is declared in `alignment_models/model1.h`, which is not among the
  sources.  It is embedded as `lookup`, the read of the spec that leaves the table as it
  is, and as `lookupRef`, the reference into the table that lines 42 and 49 assign
  through, which creates the slot it refers to.  `EStep` is built on the first and
  `EStepRef` on the second; they return the same value and the same counts when a
  created slot holds the sentinel.
-/

namespace Model1

/-! ## Sparse tables -/

/-- Key of a table: (source word id, target word id). -/
abbrev Key := Int × Int

/-- The type `TTable`: entries of an `unordered_map<pair<int,int>, double>`. -/
abbrev TTable (α : Type) := List (Key × α)

/-- The keys of a table, in iteration order. -/
def keys {α : Type} (tb : TTable α) : List Key := tb.map Prod.fst

/-- Entry stored under a key (`unordered_map::find`). -/
def find {α : Type} : TTable α → Key → Option α
  | [], _ => none
  | (k', v) :: rest, k => if k' = k then some v else find rest k

/-- Store a value under a key, `table[key] = v`: overwrite the entry when the key is
present, insert a new entry otherwise. -/
def assign {α : Type} : TTable α → Key → α → TTable α
  | [], k, v => [(k, v)]
  | (k', v') :: rest, k, v =>
      if k' = k then (k', v) :: rest else (k', v') :: assign rest k v

/-! ## Arithmetic on `double` -/

/-- The operations on `double` that `model1.cpp` uses. -/
structure Arith (α : Type) where
  /-- the literal `0.0` (also the value-initialised `double` of `operator[]`) -/
  zero : α
  /-- the sentinel `-std::numeric_limits<double>::max()` -/
  negMax : α
  /-- `x + y` -/
  add : α → α → α
  /-- `x - y` -/
  sub : α → α → α
  /-- `log(1.0 / n)` for an integer `n` -/
  logInv : Int → α
  /-- `MathUtil::LogAdd(x, y)` (declared in `util/math_util.h`) -/
  LogAdd : α → α → α

/-- Modelled from the spec: the helper `lookup(table, s, t)` is declared in
`alignment_models/model1.h`, which is not among the sources.  Read as a value, a key
that is absent yields the representation of probability 0 (the sentinel that
`ClearExpectedCounts` stores) and the table is left as it is; used as the target of an
assignment, `lookup(table, s, t) = v` is `assign table (s, t) v`. -/
def lookup {α : Type} (A : Arith α) (tb : TTable α) (s t : Int) : α :=
  (find tb (s, t)).getD A.negMax

/-- Modelled from the spec: `MathUtil::LogAdd` is declared in `util/math_util.h`, which
is not among the sources; the spec gives it as `log(exp(a) + exp(b))`, returning the
other operand when one is `-∞`.  On extended reals that is this expression. -/
noncomputable def idealLogAdd (a b : EReal) : EReal :=
  ENNReal.log (EReal.exp a + EReal.exp b)

/-- Exact arithmetic on extended reals, with the sentinel read as `log 0 = -∞`.
`log(1.0 / 0)` is `log(+∞) = +∞`.  A negative argument, where the machine yields a NaN,
arises only as `target_vocab_size_ - 1` for an empty vocabulary, and the value is then
never stored.  Where both operands of a subtraction are the sentinel, the difference is
`⊥` here and `0.0` on the machine; the results on the terms `T[s,t] - D` of lines 112 and
116 are therefore stated for tables whose looked-up entries hold real values. -/
noncomputable def ideal : Arith EReal where
  zero := 0
  negMax := ⊥
  add := fun x y => x + y
  sub := fun x y => x - y
  logInv := fun n => if n = 0 then ⊤ else ((Real.log (1 / (n : ℝ)) : ℝ) : EReal)
  LogAdd := idealLogAdd

/-! ## Corpus and model state -/

/-- A sentence: `vector<int>` of word ids. -/
abbrev Sentence := List Int

/-- A document pair: (source sentences, target sentences). -/
abbrev DocumentPair := List Sentence × List Sentence

/-- The part of `ParallelCorpus` that `InitDataStructures` reads. -/
structure ParallelCorpus where
  /-- `source_vocab().size()` -/
  source_vocab_size : Nat
  /-- `target_vocab().size()` -/
  target_vocab_size : Nat
  /-- the document pairs, `GetDocPair(0)`, ..., `GetDocPair(size() - 1)` -/
  docs : List DocumentPair

end Model1

/-- The data members of `class Model1`. -/
structure Model1 (α : Type) where
  source_vocab_size_ : Nat
  target_vocab_size_ : Nat
  t_table_ : Model1.TTable α
  expected_counts_ : Model1.TTable α

namespace Model1

/-- Modelled from the spec: the constructor is declared in `alignment_models/model1.h`,
which is not among the sources; a newly constructed model has both tables empty. -/
def new {α : Type} : Model1 α := ⟨0, 0, [], []⟩

/-! ## `Model1::InitDataStructures` -/

/-- The call `unordered_set<int>::insert`. -/
def insertWord (set : List Int) (w : Int) : List Int :=
  if w ∈ set then set else set ++ [w]

/-- Lines 21-31: the set of all words of the sentences of one side of a document pair. -/
def wordSet (sents : List Sentence) : List Int :=
  sents.foldl (fun acc sent => sent.foldl insertWord acc) []

/-- Line 35, `targets_per_source[s].insert(t)`: indexing the vector outside its bounds is
undefined behaviour, modelled as `none`. -/
def recordTarget (tps : List (List Int)) (s t : Int) : Option (List (List Int)) :=
  if 0 ≤ s ∧ s.toNat < tps.length then
    some (tps.set s.toNat (insertWord (tps.getD s.toNat []) t))
  else none

/-- Lines 33-37: the cross product of the two word sets of a document pair. -/
def recordDoc (tps : List (List Int)) (d : DocumentPair) : Option (List (List Int)) :=
  (wordSet d.1).foldlM
    (fun acc s => (wordSet d.2).foldlM (fun acc2 t => recordTarget acc2 s t) acc) tps

/-- Lines 15-38: `targets_per_source` after the loop over the document pairs. -/
def targetsPerSource (pc : ParallelCorpus) : Option (List (List Int)) :=
  pc.docs.foldlM recordDoc (List.replicate pc.source_vocab_size [])

/-- Lines 41-43: the row of the null word. -/
def initNull {α : Type} (A : Arith α) (tvs : Nat) (T : TTable α) : TTable α :=
  ((List.range (tvs - 1)).map (fun i => ((i + 1 : Nat) : Int))).foldl
    (fun T t => assign T (0, t) (A.logInv ((tvs : Int) - 1))) T

/-- Lines 45-50: the row of source word `s`. -/
def initRow {α : Type} (A : Arith α) (s : Int) (targets : List Int) (T : TTable α) :
    TTable α :=
  targets.foldl (fun T t => assign T (s, t) (A.logInv (targets.length : Int))) T

/-- Lines 44-51: the rows of the source words `1, ..., source_vocab_size_ - 1`. -/
def initRows {α : Type} (A : Arith α) (svs : Nat) (tps : List (List Int))
    (T : TTable α) : TTable α :=
  ((List.range (svs - 1)).map (fun i => i + 1)).foldl
    (fun T s => initRow A ((s : Nat) : Int) (tps.getD s []) T) T

/-- `Model1::InitDataStructures`. -/
def InitDataStructures {α : Type} (A : Arith α) (pc : ParallelCorpus) (m : Model1 α) :
    Option (Model1 α) :=
  match targetsPerSource pc with
  | none => none
  | some tps =>
      some { source_vocab_size_ := pc.source_vocab_size
             target_vocab_size_ := pc.target_vocab_size
             t_table_ := initRows A pc.source_vocab_size tps
               (initNull A pc.target_vocab_size m.t_table_)
             expected_counts_ := m.expected_counts_ }

/-! ## `Model1::ScorePair` -/

/-- Lines 61-65 (and 100-104): `t_prob` for one target word. -/
def wordProb {α : Type} (A : Arith α) (T : TTable α) (source : Sentence) (t : Int) : α :=
  source.foldl (fun t_prob s => A.LogAdd t_prob (lookup A T s t)) (lookup A T 0 t)

/-- `Model1::ScorePair`, a `const` member: the returned value and the model after the
call. -/
def ScorePair {α : Type} (A : Arith α) (m : Model1 α) (source target : Sentence) :
    α × Model1 α :=
  (target.foldl
    (fun result t =>
      A.add result (A.add (wordProb A m.t_table_ source t) (A.logInv (target.length : Int))))
    A.zero, m)

/-! ## `Model1::ClearExpectedCounts` -/

/-- `Model1::ClearExpectedCounts`. -/
def ClearExpectedCounts {α : Type} (A : Arith α) (m : Model1 α) : Model1 α :=
  let C1 := ((List.range m.source_vocab_size_).map (fun s => ((s : Nat) : Int))).foldl
    (fun C s => assign C (s, 0) A.negMax) m.expected_counts_
  let C2 := m.t_table_.foldl (fun C e => assign C e.1 A.negMax) C1
  { m with expected_counts_ := C2 }

/-! ## `Model1::EStep` -/

/-- Lines 88-93: the weight is combined into `c(0)` and into `c(s)` for every source
position. -/
def updateDenominators {α : Type} (A : Arith α) (C : TTable α) (source : Sentence)
    (weight : α) : TTable α :=
  source.foldl (fun C s => assign C (s, 0) (A.LogAdd (lookup A C s 0) weight))
    (assign C (0, 0) (A.LogAdd (lookup A C 0 0) weight))

/-- Lines 110-117: the expected counts of one target position, `t_prob` being the
denominator. -/
def updateCounts {α : Type} (A : Arith α) (T : TTable α) (source : Sentence) (t : Int)
    (t_prob weight : α) (C : TTable α) : TTable α :=
  source.foldl
    (fun C s => assign C (s, t)
      (A.LogAdd (lookup A C s t) (A.add (A.sub (lookup A T s t) t_prob) weight)))
    (assign C (0, t)
      (A.LogAdd (lookup A C 0 t) (A.add (A.sub (lookup A T 0 t) t_prob) weight)))

/-- Lines 97-118: one round of the loop over the target positions, on the pair
(`result`, `expected_counts_`). -/
def eStepWord {α : Type} (A : Arith α) (T : TTable α) (source : Sentence)
    (alignment_prob weight : α) (st : α × TTable α) (t : Int) : α × TTable α :=
  let t_prob := wordProb A T source t
  (A.add st.1 (A.add t_prob alignment_prob),
   updateCounts A T source t t_prob weight st.2)

/-- `Model1::EStep`: the returned value and the model after the call, every read of
`t_table_` leaving the table as it is (the `lookup` of the spec).  `EStepRef` below keeps
the slots that the reads create; the returned value and the count table are the same
(`EStepRef_eq_EStep`). -/
def EStep {α : Type} (A : Arith α) (m : Model1 α) (source target : Sentence) (weight : α) :
    α × Model1 α :=
  let C1 := updateDenominators A m.expected_counts_ source weight
  let r := target.foldl
    (eStepWord A m.t_table_ source (A.logInv (target.length : Int)) weight) (A.zero, C1)
  (r.1, { m with expected_counts_ := r.2 })

/-! ## `Model1::EStep`, with the slots that its `lookup` calls create -/

/-- The `lookup(&table, s, t)` of a member function that is not `const`, where `&table`
is a `TTable*`: lines 42 and 49 assign through it to create the entries of `t_table_`, so
it yields a reference to the slot of `(s, t)` and creates that slot when the table has
none.  `d` is the value a created slot holds, which `alignment_models/model1.h` decides.
The value read through the reference and the table after the call. -/
def lookupRef {α : Type} (d : α) (tb : TTable α) (s t : Int) : α × TTable α :=
  match find tb (s, t) with
  | some v => (v, tb)
  | none => (d, assign tb (s, t) d)

/-- The table after `lookupRef` was applied to every key of a list, in order. -/
def touchAll {α : Type} (d : α) (tb : TTable α) (ks : List Key) : TTable α :=
  ks.foldl (fun T k => (lookupRef d T k.1 k.2).2) tb

/-- Lines 88-93, every `lookup` creating the slot it refers to. -/
def updateDenominatorsRef {α : Type} (A : Arith α) (d : α) (C : TTable α) (source : Sentence)
    (weight : α) : TTable α :=
  source.foldl
    (fun C s => assign (lookupRef d C s 0).2 (s, 0) (A.LogAdd (lookupRef d C s 0).1 weight))
    (assign (lookupRef d C 0 0).2 (0, 0) (A.LogAdd (lookupRef d C 0 0).1 weight))

/-- Lines 100-104 inside `EStep`: `t_prob` for one target word, and `t_table_` after the
reads. -/
def wordProbRef {α : Type} (A : Arith α) (d : α) (T : TTable α) (source : Sentence)
    (t : Int) : α × TTable α :=
  source.foldl
    (fun st s => (A.LogAdd st.1 (lookupRef d st.2 s t).1, (lookupRef d st.2 s t).2))
    (lookupRef d T 0 t)

/-- Lines 110-112 (`s = 0`) and 114-116: the count of one generator `s` of the target
word `t`, on the pair (`t_table_`, `expected_counts_`). -/
def updateCountRef {α : Type} (A : Arith α) (d : α) (t : Int) (t_prob weight : α)
    (st : TTable α × TTable α) (s : Int) : TTable α × TTable α :=
  ((lookupRef d st.1 s t).2,
   assign (lookupRef d st.2 s t).2 (s, t)
     (A.LogAdd (lookupRef d st.2 s t).1
       (A.add (A.sub (lookupRef d st.1 s t).1 t_prob) weight)))

/-- Lines 97-118: one round of the loop over the target positions, on the triple
(`result`, `t_table_`, `expected_counts_`). -/
def eStepWordRef {α : Type} (A : Arith α) (d : α) (source : Sentence)
    (alignment_prob weight : α) (st : α × TTable α × TTable α) (t : Int) :
    α × TTable α × TTable α :=
  let tp := wordProbRef A d st.2.1 source t
  (A.add st.1 (A.add tp.1 alignment_prob),
   source.foldl (updateCountRef A d t tp.1 weight)
     (updateCountRef A d t tp.1 weight (tp.2, st.2.2) 0))

/-- `Model1::EStep` with the slots that its `lookup` calls create: the returned value and
the model after the call. -/
def EStepRef {α : Type} (A : Arith α) (d : α) (m : Model1 α) (source target : Sentence)
    (weight : α) : α × Model1 α :=
  let C1 := updateDenominatorsRef A d m.expected_counts_ source weight
  let r := target.foldl
    (eStepWordRef A d source (A.logInv (target.length : Int)) weight)
    (A.zero, m.t_table_, C1)
  (r.1, { m with t_table_ := r.2.1, expected_counts_ := r.2.2 })

/-! ## `Model1::MStep` -/

/-- The read `expected_counts_[key]` (`unordered_map::operator[]`): a key that is absent
is first inserted with the value-initialised `double`, `0.0`. -/
def index {α : Type} (A : Arith α) (C : TTable α) (k : Key) : α × TTable α :=
  match find C k with
  | some v => (v, C)
  | none => (A.zero, assign C k A.zero)

/-- Lines 124-128: the loop over the entries of `t_table_`; the second argument is
`expected_counts_`.  The operands of the subtraction are evaluated left to right. -/
def mStepLoop {α : Type} (A : Arith α) : TTable α → TTable α → TTable α × TTable α
  | [], C => ([], C)
  | (k, _) :: rest, C =>
      let c := index A C k
      let v := A.sub c.1 (lookup A c.2 k.1 0)
      let r := mStepLoop A rest c.2
      ((k, v) :: r.1, r.2)

/-- `Model1::MStep`. -/
def MStep {α : Type} (A : Arith α) (m : Model1 α) : Model1 α :=
  let r := mStepLoop A m.t_table_ m.expected_counts_
  { m with t_table_ := r.1, expected_counts_ := r.2 }

/-! ## Notions used to state the results -/

/-- Every word id of the source side indexes into the source vocabulary, which is what
line 35 needs to stay inside `targets_per_source`. -/
def sourceIdsInRange (pc : ParallelCorpus) : Prop :=
  ∀ d ∈ pc.docs, ∀ sent ∈ d.1, ∀ s ∈ sent, 0 ≤ s ∧ s < (pc.source_vocab_size : Int)

instance (pc : ParallelCorpus) : Decidable (sourceIdsInRange pc) := by
  unfold sourceIdsInRange; infer_instance

/-- The reachable targets of a source word: `reach pc s t` when some document pair has
`s` in one of its source sentences and `t` in one of its target sentences. -/
def reach (pc : ParallelCorpus) (s t : Int) : Prop :=
  ∃ d ∈ pc.docs, (∃ sent ∈ d.1, s ∈ sent) ∧ (∃ sent ∈ d.2, t ∈ sent)

/-- Every row of `targets_per_source` is without repetition, as the rows are
`unordered_set`s. -/
def RowsNodup (tps : List (List Int)) : Prop := ∀ i : Nat, (tps.getD i []).Nodup

/-- A corpus of two document pairs, source vocabulary of size 3 and target vocabulary of
size 4, on which the results are run. -/
def exampleCorpus : ParallelCorpus :=
  ⟨3, 4, [([[1, 2], [1]], [[3, 1], [2]]), ([[2]], [[1]])]⟩

/-- The corpus of the concrete scenario: one document pair, source sentence `[1]`, target
sentence `[1]`, vocabulary sizes 2 and 2. -/
def scenarioCorpus : ParallelCorpus := ⟨2, 2, [([[1]], [[1]])]⟩

/-- The probability a table of log-values holds under a key, an absent entry counting
as probability 0. -/
noncomputable def prob (tb : TTable EReal) (k : Key) : ENNReal :=
  match find tb k with
  | none => 0
  | some v => EReal.exp v

/-- Modelled from the spec: the trainer loop is not among the sources.  The E-step pass of
one EM iteration is `ClearExpectedCounts` followed by `EStep` on every weighted sentence
pair (source, target, weight). -/
def eStepPass {α : Type} (A : Arith α) (m : Model1 α)
    (pairs : List (Sentence × Sentence × α)) : Model1 α :=
  pairs.foldl (fun m p => (EStep A m p.1 p.2.1 p.2.2).2) (ClearExpectedCounts A m)

/-- Modelled from the spec: one EM iteration is the E-step pass followed by `MStep`. -/
def emIteration {α : Type} (A : Arith α) (m : Model1 α)
    (pairs : List (Sentence × Sentence × α)) : Model1 α :=
  MStep A (eStepPass A m pairs)

/-- Total corpus log-likelihood: the sum of `ScorePair` over the sentence pairs. -/
def corpusLogLikelihood {α : Type} (A : Arith α) (m : Model1 α)
    (pairs : List (Sentence × Sentence × α)) : α :=
  pairs.foldl (fun acc p => A.add acc (ScorePair A m p.1 p.2.1).1) A.zero

/-- The generators of a target word: the null word followed by the source positions. -/
def generators (source : Sentence) : List Int := (0 : Int) :: source

/-- The summed probability of the generators of target word `t`, whose logarithm is
`t_prob`. -/
noncomputable def genProbSum (T : TTable EReal) (source : Sentence) (t : Int) : ENNReal :=
  ((generators source).map (fun g => prob T (g, t))).sum

/-- The target positions of a list of sentence pairs: every pair with each of its target
words. -/
def blocks {α : Type} (pairs : List (Sentence × Sentence × α)) :
    List ((Sentence × Sentence × α) × Int) :=
  pairs.flatMap (fun p => p.2.1.map (fun t => (p, t)))

/-- The increment, in probabilities, that `EStep` adds to the count of generator `g` at
the target position `b`: `exp (T[g,t] - t_prob + weight)`. -/
noncomputable def increment (T : TTable EReal) (b : (Sentence × Sentence × EReal) × Int)
    (g : Int) : ENNReal :=
  EReal.exp (lookup ideal T g b.2 - wordProb ideal T b.1.1 b.2 + b.1.2.2)

/-- Every (slot, increment) that an E-step pass over the pairs adds to the joint counts. -/
noncomputable def positions (T : TTable EReal) (pairs : List (Sentence × Sentence × EReal)) :
    List (Key × ENNReal) :=
  (blocks pairs).flatMap
    (fun b => (generators b.1.1).map (fun g => ((g, b.2), increment T b g)))

/-- The joint slots of a translation table: its keys `(s, t)` with `t > 0`. -/
def jointKeys {α : Type} (T : TTable α) : Finset Key :=
  (keys T).toFinset.filter (fun k => 0 < k.2)

/-- Sentence pairs an exact E-step pass can be analysed on: every weight is 0, every target
word is an id `> 0`, and every looked-up pair is present in the table with a real value. -/
structure Trainable (T : TTable EReal) (pairs : List (Sentence × Sentence × EReal)) :
    Prop where
  weight_zero : ∀ p ∈ pairs, p.2.2 = 0
  target_pos : ∀ p ∈ pairs, ∀ t ∈ p.2.1, 0 < t
  present : ∀ p ∈ pairs, ∀ t ∈ p.2.1, ∀ g ∈ generators p.1,
    ∃ r : ℝ, find T (g, t) = some (r : EReal)

/-- A corpus in which source word 2 occurs only in a document pair without target
sentences, so that it co-occurs with no target word. -/
def sparseCorpus : ParallelCorpus := ⟨3, 2, [([[1]], [[1]]), ([[2]], [])]⟩

/-- A corpus whose only target sentence repeats its word three times. -/
def repeatCorpus : ParallelCorpus := ⟨2, 2, [([[1]], [[1, 1, 1]])]⟩

/-- Exact arithmetic in which the sentinel keeps its numeric value: the double
`-numeric_limits<double>::max()` is the real number `-(2 ^ 1024 - 2 ^ 971)`. -/
noncomputable def finiteSentinel : Arith EReal :=
  { ideal with negMax := ((-((2 : ℝ) ^ 1024 - (2 : ℝ) ^ 971) : ℝ) : EReal) }

/-- The sentence pairs with every weight shifted by the constant `c`. -/
noncomputable def shiftWeights (c : ℝ) (pairs : List (Sentence × Sentence × EReal)) :
    List (Sentence × Sentence × EReal) :=
  pairs.map (fun p => (p.1, p.2.1, p.2.2 + (c : EReal)))

/-- Expressions over the operations of `Arith`. -/
inductive Sym where
  | zero
  | negMax
  | add (a b : Sym)
  | sub (a b : Sym)
  | logInv (n : Int)
  | logAdd (a b : Sym)
  deriving DecidableEq, Repr

/-- The arithmetic that records the expression computed, for running the model on
concrete inputs. -/
def symArith : Arith Sym := ⟨Sym.zero, Sym.negMax, Sym.add, Sym.sub, Sym.logInv, Sym.logAdd⟩

/-! ## Lemmas on tables -/

section Tables
variable {α : Type}

theorem find_assign (tb : TTable α) (k k' : Key) (v : α) :
    find (assign tb k v) k' = if k = k' then some v else find tb k' := by
  induction tb with
  | nil => simp [assign, find]
  | cons e rest ih =>
    obtain ⟨k0, v0⟩ := e
    by_cases h0 : k0 = k
    · subst h0
      by_cases h1 : k0 = k' <;> simp [assign, find, h1]
    · by_cases h1 : k0 = k'
      · subst h1
        have : ¬ k = k0 := fun h => h0 h.symm
        simp [assign, find, h0, this]
      · simp [assign, find, h0, h1, ih]

theorem find_assign_self (tb : TTable α) (k : Key) (v : α) :
    find (assign tb k v) k = some v := by
  simp [find_assign]

theorem find_assign_of_ne (tb : TTable α) {k k' : Key} (v : α) (h : k ≠ k') :
    find (assign tb k v) k' = find tb k' := by
  simp [find_assign, h]

theorem find_eq_none_iff (tb : TTable α) (k : Key) : find tb k = none ↔ k ∉ keys tb := by
  induction tb with
  | nil => simp [find, keys]
  | cons e rest ih =>
    obtain ⟨k0, v0⟩ := e
    by_cases h0 : k0 = k
    · simp [find, keys, h0]
    · have h1 : ¬ k = k0 := fun h => h0 h.symm
      simpa [find, keys, h0, h1] using ih

theorem find_isSome_iff (tb : TTable α) (k : Key) : (find tb k).isSome ↔ k ∈ keys tb := by
  rw [← not_iff_not, ← find_eq_none_iff]
  cases find tb k <;> simp

theorem mem_keys_iff (tb : TTable α) (k : Key) : k ∈ keys tb ↔ ∃ v, find tb k = some v := by
  rw [← find_isSome_iff, Option.isSome_iff_exists]

theorem mem_keys_assign (tb : TTable α) (k k' : Key) (v : α) :
    k' ∈ keys (assign tb k v) ↔ k' = k ∨ k' ∈ keys tb := by
  rw [mem_keys_iff, mem_keys_iff, find_assign]
  by_cases h : k = k'
  · simp [h]
  · have : ¬ k' = k := fun e => h e.symm
    simp [h, this]

/-- Storing one value under each key of a list. -/
theorem find_foldl_assign_const {β : Type} (f : β → Key) (v : α) (l : List β)
    (tb : TTable α) (k : Key) :
    find (l.foldl (fun T b => assign T (f b) v) tb) k =
      if k ∈ l.map f then some v else find tb k := by
  induction l generalizing tb with
  | nil => simp
  | cons b rest ih =>
    rw [List.foldl_cons, ih, find_assign]
    by_cases h1 : k ∈ rest.map f
    · simp [h1]
    · by_cases h2 : f b = k
      · simp [h2]
      · have : ¬ k = f b := fun e => h2 e.symm
        simp [h1, h2, this]

end Tables

/-! ## Lemmas on `InitDataStructures` -/

theorem mem_insertWord (set : List Int) (w x : Int) :
    x ∈ insertWord set w ↔ x ∈ set ∨ x = w := by
  unfold insertWord
  by_cases h : w ∈ set
  · simp only [h, if_true]
    constructor
    · exact Or.inl
    · rintro (h1 | h1)
      · exact h1
      · exact h1 ▸ h
  · simp [h]

theorem nodup_insertWord (set : List Int) (w : Int) (h : set.Nodup) :
    (insertWord set w).Nodup := by
  unfold insertWord
  by_cases hw : w ∈ set
  · simpa [hw] using h
  · simp only [hw, if_false]
    rw [List.nodup_append]
    refine ⟨h, List.nodup_singleton w, ?_⟩
    intro a ha hb
    simp only [List.mem_singleton] at hb
    exact hw (hb ▸ ha)

theorem mem_foldl_insertWord (sent : List Int) (acc : List Int) (x : Int) :
    x ∈ sent.foldl insertWord acc ↔ x ∈ acc ∨ x ∈ sent := by
  induction sent generalizing acc with
  | nil => simp
  | cons w rest ih =>
    rw [List.foldl_cons, ih, mem_insertWord]
    simp only [List.mem_cons]
    tauto

theorem mem_wordSet_aux (sents : List Sentence) (acc : List Int) (x : Int) :
    x ∈ sents.foldl (fun acc sent => sent.foldl insertWord acc) acc ↔
      x ∈ acc ∨ ∃ sent ∈ sents, x ∈ sent := by
  induction sents generalizing acc with
  | nil => simp
  | cons sent rest ih =>
    rw [List.foldl_cons, ih, mem_foldl_insertWord]
    simp only [List.mem_cons, exists_eq_or_imp]
    tauto

theorem mem_wordSet (sents : List Sentence) (x : Int) :
    x ∈ wordSet sents ↔ ∃ sent ∈ sents, x ∈ sent := by
  unfold wordSet
  rw [mem_wordSet_aux]
  simp

theorem recordTarget_spec (tps : List (List Int)) (s t : Int)
    (hs : 0 ≤ s ∧ s.toNat < tps.length) :
    ∃ tps2, recordTarget tps s t = some tps2 ∧ tps2.length = tps.length ∧
      (RowsNodup tps → RowsNodup tps2) ∧
      ∀ (i : Nat) (x : Int),
        x ∈ tps2.getD i [] ↔ x ∈ tps.getD i [] ∨ (i = s.toNat ∧ x = t) := by
  have hdef : recordTarget tps s t =
      some (tps.set s.toNat (insertWord (tps.getD s.toNat []) t)) := by
    unfold recordTarget
    rw [if_pos hs]
  refine ⟨_, hdef, by simp, ?_, ?_⟩
  · intro hnd i
    by_cases hi : s.toNat = i
    · subst hi
      simp only [List.getD_eq_getElem?_getD, List.getElem?_set_self hs.2, Option.getD_some]
      exact nodup_insertWord _ _ (by simpa using hnd s.toNat)
    · have := hnd i
      simpa [List.getD_eq_getElem?_getD, List.getElem?_set_ne hi] using this
  · intro i x
    by_cases hi : s.toNat = i
    · subst hi
      simp [List.getD_eq_getElem?_getD, List.getElem?_set_self hs.2, mem_insertWord]
    · have hi2 : ¬ i = s.toNat := fun e => hi e.symm
      simp [List.getD_eq_getElem?_getD, List.getElem?_set_ne hi, hi2]

theorem recordTargets_spec (s : Int) (ts : List Int) (tps : List (List Int))
    (hs : 0 ≤ s ∧ s.toNat < tps.length) :
    ∃ tps2, ts.foldlM (fun acc2 t => recordTarget acc2 s t) tps = some tps2 ∧
      tps2.length = tps.length ∧ (RowsNodup tps → RowsNodup tps2) ∧
      ∀ (i : Nat) (x : Int),
        x ∈ tps2.getD i [] ↔ x ∈ tps.getD i [] ∨ (i = s.toNat ∧ x ∈ ts) := by
  induction ts generalizing tps with
  | nil => exact ⟨tps, by simp, rfl, id, by simp⟩
  | cons t rest ih =>
    obtain ⟨tps1, h1, hlen1, hnd1, hmem1⟩ := recordTarget_spec tps s t hs
    obtain ⟨tps2, h2, hlen2, hnd2, hmem2⟩ := ih tps1 (by rw [hlen1]; exact hs)
    refine ⟨tps2, ?_, by rw [hlen2, hlen1], fun h => hnd2 (hnd1 h), ?_⟩
    · rw [List.foldlM_cons, h1]; exact h2
    · intro i x
      rw [hmem2, hmem1]
      simp only [List.mem_cons]
      tauto

theorem recordSources_spec (ts : List Int) (ss : List Int) (tps : List (List Int))
    (hs : ∀ s ∈ ss, 0 ≤ s ∧ s.toNat < tps.length) :
    ∃ tps2, ss.foldlM
        (fun acc s => ts.foldlM (fun acc2 t => recordTarget acc2 s t) acc) tps = some tps2 ∧
      tps2.length = tps.length ∧ (RowsNodup tps → RowsNodup tps2) ∧
      ∀ (i : Nat) (x : Int),
        x ∈ tps2.getD i [] ↔ x ∈ tps.getD i [] ∨ ((∃ s ∈ ss, i = s.toNat) ∧ x ∈ ts) := by
  induction ss generalizing tps with
  | nil => exact ⟨tps, by simp, rfl, id, by simp⟩
  | cons s rest ih =>
    obtain ⟨tps1, h1, hlen1, hnd1, hmem1⟩ :=
      recordTargets_spec s ts tps (hs s (List.mem_cons_self _ _))
    obtain ⟨tps2, h2, hlen2, hnd2, hmem2⟩ := ih tps1 (by
      intro s2 hs2; rw [hlen1]; exact hs s2 (List.mem_cons_of_mem _ hs2))
    refine ⟨tps2, ?_, by rw [hlen2, hlen1], fun h => hnd2 (hnd1 h), ?_⟩
    · rw [List.foldlM_cons, h1]; exact h2
    · intro i x
      rw [hmem2, hmem1]
      simp only [List.mem_cons, exists_eq_or_imp]
      tauto

theorem recordDocs_spec (n : Nat) (docs : List DocumentPair) (tps : List (List Int))
    (hlen : tps.length = n)
    (hs : ∀ d ∈ docs, ∀ sent ∈ d.1, ∀ s ∈ sent, 0 ≤ s ∧ s < (n : Int)) :
    ∃ tps2, docs.foldlM recordDoc tps = some tps2 ∧
      tps2.length = n ∧ (RowsNodup tps → RowsNodup tps2) ∧
      ∀ (i : Nat) (x : Int),
        x ∈ tps2.getD i [] ↔ x ∈ tps.getD i [] ∨
          ∃ d ∈ docs, (∃ sent ∈ d.1, ∃ s ∈ sent, i = s.toNat) ∧ ∃ sent ∈ d.2, x ∈ sent := by
  induction docs generalizing tps with
  | nil => exact ⟨tps, by simp, hlen, id, by simp⟩
  | cons d rest ih =>
    have hd : ∀ s ∈ wordSet d.1, 0 ≤ s ∧ s.toNat < tps.length := by
      intro s hs1
      obtain ⟨sent, hsent, hmem⟩ := (mem_wordSet _ _).1 hs1
      have := hs d (List.mem_cons_self _ _) sent hsent s hmem
      rw [hlen]
      omega
    obtain ⟨tps1, h1, hlen1, hnd1, hmem1⟩ := recordSources_spec (wordSet d.2) (wordSet d.1) tps hd
    obtain ⟨tps2, h2, hlen2, hnd2, hmem2⟩ := ih tps1 (by rw [hlen1, hlen])
      (fun d2 hd2 => hs d2 (List.mem_cons_of_mem _ hd2))
    refine ⟨tps2, ?_, hlen2, fun h => hnd2 (hnd1 h), ?_⟩
    · rw [List.foldlM_cons]
      show (recordDoc tps d).bind _ = _
      unfold recordDoc
      rw [h1]; exact h2
    · intro i x
      rw [hmem2, hmem1]
      simp only [List.mem_cons, exists_eq_or_imp, mem_wordSet]
      constructor
      · rintro ((h | ⟨⟨s, ⟨sent, hsent, hs1⟩, hi⟩, hx⟩) | h)
        · exact Or.inl h
        · exact Or.inr (Or.inl ⟨⟨sent, hsent, s, hs1, hi⟩, hx⟩)
        · exact Or.inr (Or.inr h)
      · rintro (h | ⟨⟨sent, hsent, s, hs1, hi⟩, hx⟩ | h)
        · exact Or.inl (Or.inl h)
        · exact Or.inl (Or.inr ⟨⟨s, ⟨sent, hsent, hs1⟩, hi⟩, hx⟩)
        · exact Or.inr h

/-- On a corpus whose source ids index into the source vocabulary the first loop is
defined, and row `s` of `targets_per_source` lists the reachable targets of `s` once
each. -/
theorem targetsPerSource_spec (pc : ParallelCorpus) (h : sourceIdsInRange pc) :
    ∃ tps, targetsPerSource pc = some tps ∧ tps.length = pc.source_vocab_size ∧
      RowsNodup tps ∧
      ∀ (i : Nat) (x : Int), x ∈ tps.getD i [] ↔ reach pc (i : Int) x := by
  obtain ⟨tps, h1, hlen, hnd, hmem⟩ :=
    recordDocs_spec pc.source_vocab_size pc.docs (List.replicate pc.source_vocab_size [])
      (by simp) h
  refine ⟨tps, h1, hlen, hnd (fun i => ?_), ?_⟩
  · by_cases hi : i < pc.source_vocab_size <;> simp [List.getD_eq_getElem?_getD, hi]
  · intro i x
    rw [hmem]
    have h0 : x ∉ (List.replicate pc.source_vocab_size ([] : List Int)).getD i [] := by
      by_cases hi : i < pc.source_vocab_size <;> simp [List.getD_eq_getElem?_getD, hi]
    unfold reach
    constructor
    · rintro (h2 | ⟨d, hd, ⟨sent, hsent, s, hs, hi⟩, hx⟩)
      · exact absurd h2 h0
      · refine ⟨d, hd, ⟨sent, hsent, ?_⟩, hx⟩
        have := (h d hd sent hsent s hs).1
        have e : (i : Int) = s := by omega
        rw [e]; exact hs
    · rintro ⟨d, hd, ⟨sent, hsent, hs⟩, hx⟩
      exact Or.inr ⟨d, hd, ⟨sent, hsent, (i : Int), hs, by simp⟩, hx⟩

section InitTable
variable {α : Type}

theorem find_initNull (A : Arith α) (tvs : Nat) (T : TTable α) (k : Key) :
    find (initNull A tvs T) k =
      if k.1 = 0 ∧ 1 ≤ k.2 ∧ k.2 < (tvs : Int) then some (A.logInv ((tvs : Int) - 1))
      else find T k := by
  unfold initNull
  rw [find_foldl_assign_const (fun t : Int => ((0 : Int), t))]
  have hmem : k ∈ ((List.range (tvs - 1)).map (fun i => ((i + 1 : Nat) : Int))).map
        (fun t : Int => ((0 : Int), t)) ↔ k.1 = 0 ∧ 1 ≤ k.2 ∧ k.2 < (tvs : Int) := by
    obtain ⟨a, b⟩ := k
    simp only [List.mem_map, List.mem_range, Prod.mk.injEq, exists_exists_and_eq_and]
    constructor
    · rintro ⟨i, hi, h0, hb⟩
      refine ⟨h0.symm, ?_, ?_⟩ <;> omega
    · rintro ⟨h0, h1, h2⟩
      exact ⟨(b - 1).toNat, by omega, h0.symm, by omega⟩
  by_cases h : k.1 = 0 ∧ 1 ≤ k.2 ∧ k.2 < (tvs : Int)
  · rw [if_pos (hmem.2 h), if_pos h]
  · rw [if_neg (fun h2 => h (hmem.1 h2)), if_neg h]

theorem find_initRow (A : Arith α) (s : Int) (targets : List Int) (T : TTable α) (k : Key) :
    find (initRow A s targets T) k =
      if k.1 = s ∧ k.2 ∈ targets then some (A.logInv (targets.length : Int))
      else find T k := by
  unfold initRow
  rw [find_foldl_assign_const (fun t : Int => (s, t))]
  have hmem : k ∈ targets.map (fun t : Int => (s, t)) ↔ k.1 = s ∧ k.2 ∈ targets := by
    obtain ⟨a, b⟩ := k
    simp only [List.mem_map, Prod.mk.injEq]
    constructor
    · rintro ⟨t, ht, h1, h2⟩
      exact ⟨h1.symm, h2 ▸ ht⟩
    · rintro ⟨h1, h2⟩
      exact ⟨b, h2, h1.symm, rfl⟩
  by_cases h : k.1 = s ∧ k.2 ∈ targets
  · rw [if_pos (hmem.2 h), if_pos h]
  · rw [if_neg (fun h2 => h (hmem.1 h2)), if_neg h]

theorem find_initRows_aux (A : Arith α) (tps : List (List Int)) (l : List Nat)
    (T : TTable α) (k : Key) :
    find (l.foldl (fun T s => initRow A ((s : Nat) : Int) (tps.getD s []) T) T) k =
      if (∃ s ∈ l, k.1 = ((s : Nat) : Int)) ∧ k.2 ∈ tps.getD k.1.toNat [] then
        some (A.logInv ((tps.getD k.1.toNat []).length : Int))
      else find T k := by
  induction l generalizing T with
  | nil => simp
  | cons s rest ih =>
    rw [List.foldl_cons, ih, find_initRow]
    by_cases h1 : (∃ s2 ∈ rest, k.1 = ((s2 : Nat) : Int)) ∧ k.2 ∈ tps.getD k.1.toNat []
    · have h2 : (∃ s2 ∈ s :: rest, k.1 = ((s2 : Nat) : Int)) ∧ k.2 ∈ tps.getD k.1.toNat [] := by
        obtain ⟨⟨s2, hs2, e⟩, hk⟩ := h1
        exact ⟨⟨s2, List.mem_cons_of_mem _ hs2, e⟩, hk⟩
      rw [if_pos h1, if_pos h2]
    · rw [if_neg h1]
      by_cases h3 : k.1 = (s : Int) ∧ k.2 ∈ tps.getD s []
      · have e : k.1.toNat = s := by rw [h3.1]; simp
        have h2 : (∃ s2 ∈ s :: rest, k.1 = ((s2 : Nat) : Int)) ∧
            k.2 ∈ tps.getD k.1.toNat [] :=
          ⟨⟨s, List.mem_cons_self _ _, h3.1⟩, by rw [e]; exact h3.2⟩
        rw [if_pos h3, if_pos h2, e]
      · have h2 : ¬ ((∃ s2 ∈ s :: rest, k.1 = ((s2 : Nat) : Int)) ∧
            k.2 ∈ tps.getD k.1.toNat []) := by
          rintro ⟨⟨s2, hs2, e⟩, hk⟩
          rcases List.mem_cons.1 hs2 with h | h
          · subst h
            apply h3
            refine ⟨e, ?_⟩
            have e2 : k.1.toNat = s2 := by rw [e]; simp
            rw [e2] at hk; exact hk
          · exact h1 ⟨⟨s2, h, e⟩, hk⟩
        rw [if_neg h3, if_neg h2]

theorem find_initRows (A : Arith α) (svs : Nat) (tps : List (List Int))
    (T : TTable α) (k : Key) :
    find (initRows A svs tps T) k =
      if (1 ≤ k.1 ∧ k.1 < (svs : Int)) ∧ k.2 ∈ tps.getD k.1.toNat [] then
        some (A.logInv ((tps.getD k.1.toNat []).length : Int))
      else find T k := by
  unfold initRows
  rw [find_initRows_aux]
  have hmem : (∃ s ∈ (List.range (svs - 1)).map (fun i => i + 1), k.1 = ((s : Nat) : Int)) ↔
      (1 ≤ k.1 ∧ k.1 < (svs : Int)) := by
    simp only [List.mem_map, List.mem_range, exists_exists_and_eq_and]
    constructor
    · rintro ⟨i, hi, e⟩
      omega
    · rintro ⟨h1, h2⟩
      exact ⟨(k.1 - 1).toNat, by omega, by omega⟩
  exact if_congr (and_congr hmem Iff.rfl) rfl rfl

/-- A defined run of `InitDataStructures` builds the table from some `targets_per_source`
of the right length. -/
theorem InitDataStructures_eq_some (A : Arith α) (pc : ParallelCorpus) (m m2 : Model1 α)
    (h : InitDataStructures A pc m = some m2) :
    ∃ tps, targetsPerSource pc = some tps ∧
      m2 = { source_vocab_size_ := pc.source_vocab_size
             target_vocab_size_ := pc.target_vocab_size
             t_table_ := initRows A pc.source_vocab_size tps
               (initNull A pc.target_vocab_size m.t_table_)
             expected_counts_ := m.expected_counts_ } := by
  unfold InitDataStructures at h
  cases htps : targetsPerSource pc with
  | none => rw [htps] at h; exact absurd h (by simp)
  | some tps =>
    rw [htps] at h
    exact ⟨tps, rfl, (Option.some.inj h).symm⟩

theorem InitDataStructures_defined (A : Arith α) (pc : ParallelCorpus) (m : Model1 α)
    (h : sourceIdsInRange pc) : ∃ m2, InitDataStructures A pc m = some m2 := by
  obtain ⟨tps, h1, _⟩ := targetsPerSource_spec pc h
  unfold InitDataStructures
  rw [h1]
  exact ⟨_, rfl⟩

theorem find_null_row (A : Arith α) (pc : ParallelCorpus) (m m2 : Model1 α)
    (h : InitDataStructures A pc m = some m2) (t : Int) (h1 : 1 ≤ t)
    (h2 : t < (pc.target_vocab_size : Int)) :
    find m2.t_table_ (0, t) = some (A.logInv ((pc.target_vocab_size : Int) - 1)) := by
  obtain ⟨tps, _, rfl⟩ := InitDataStructures_eq_some A pc m m2 h
  show find (initRows A pc.source_vocab_size tps _) (0, t) = _
  rw [find_initRows, if_neg (by simp), find_initNull, if_pos ⟨rfl, h1, h2⟩]

end InitTable

theorem ideal_logInv_of_ne_zero (n : Int) (h : n ≠ 0) :
    ideal.logInv n = ((Real.log (1 / (n : ℝ)) : ℝ) : EReal) := by
  simp [ideal, h]

/-! ## C1 -/

/-- C1: for every corpus and every arithmetic, whenever `InitDataStructures` is defined
(which it is as soon as the source ids index into the source vocabulary) the translation
table holds under the key `(0, t)`, for every target id `1 ≤ t < target_vocab_size`, the
value `log(1.0 / (target_vocab_size - 1))`; in exact arithmetic this is the real number
`log (1 / (target_vocab_size - 1))`, a uniform distribution over the real target words. -/
theorem C1_null_row_uniform {α : Type} (A : Arith α) (pc : ParallelCorpus)
    (m : Model1 α) (mi : Model1 EReal) :
    (sourceIdsInRange pc → ∃ m2, InitDataStructures A pc m = some m2) ∧
    (∀ m2, InitDataStructures A pc m = some m2 →
      ∀ t : Int, 1 ≤ t → t < (pc.target_vocab_size : Int) →
        find m2.t_table_ (0, t) = some (A.logInv ((pc.target_vocab_size : Int) - 1))) ∧
    (∀ m2, InitDataStructures ideal pc mi = some m2 →
      ∀ t : Int, 1 ≤ t → t < (pc.target_vocab_size : Int) →
        find m2.t_table_ (0, t) =
          some ((Real.log (1 / ((pc.target_vocab_size : ℝ) - 1)) : ℝ) : EReal)) := by
  refine ⟨InitDataStructures_defined A pc m, find_null_row A pc m, ?_⟩
  intro m2 h t h1 h2
  rw [find_null_row ideal pc mi m2 h t h1 h2, ideal_logInv_of_ne_zero _ (by omega)]
  push_cast
  rfl

/-- C1 on a corpus of two document pairs with a target vocabulary of size 4. -/
theorem C1_null_row_uniform_witness :
    sourceIdsInRange exampleCorpus ∧
    ∃ m2, InitDataStructures symArith exampleCorpus new = some m2 ∧
      find m2.t_table_ (0, 3) = some (Sym.logInv 3) :=
  ⟨by decide,
   ((C1_null_row_uniform symArith exampleCorpus new new).1 (by decide)).elim
     (fun m2 h => ⟨m2, h,
       (C1_null_row_uniform symArith exampleCorpus new new).2.1 m2 h 3
         (by decide) (by decide)⟩)⟩

/-! ## C2 -/

theorem length_eq_ncard_reach (pc : ParallelCorpus) (s : Int) (row : List Int)
    (hnd : row.Nodup) (hmem : ∀ x, x ∈ row ↔ reach pc s x) :
    row.length = Set.ncard {x | reach pc s x} := by
  have e : {x | reach pc s x} = ((row.toFinset : Finset Int) : Set Int) := by
    ext x
    simp [hmem]
  rw [e, Set.ncard_coe_Finset, List.toFinset_card_of_nodup hnd]

theorem ncard_reach_pos (pc : ParallelCorpus) (h : sourceIdsInRange pc) (s t : Int)
    (hr : reach pc s t) : 0 < Set.ncard {x | reach pc s x} := by
  obtain ⟨tps, _, _, hnd, hmem⟩ := targetsPerSource_spec pc h
  have hs : 0 ≤ s := by
    obtain ⟨d, hd, ⟨sent, hsent, hmem2⟩, _⟩ := hr
    exact (h d hd sent hsent s hmem2).1
  have hs2 : ((s.toNat : Nat) : Int) = s := by omega
  have hrow : ∀ x, x ∈ tps.getD s.toNat [] ↔ reach pc s x := by
    intro x
    rw [hmem, hs2]
  rw [← length_eq_ncard_reach pc s _ (hnd s.toNat) hrow]
  exact List.length_pos_of_mem ((hrow t).2 hr)

theorem find_row {α : Type} (A : Arith α) (pc : ParallelCorpus)
    (h : sourceIdsInRange pc) :
    ∃ m2, InitDataStructures A pc new = some m2 ∧
      ∀ s : Int, 1 ≤ s → ∀ t : Int,
        (reach pc s t → find m2.t_table_ (s, t) =
          some (A.logInv ((Set.ncard {x | reach pc s x} : Nat) : Int))) ∧
        (¬ reach pc s t → find m2.t_table_ (s, t) = none) := by
  obtain ⟨tps, h1, hlen, hnd, hmem⟩ := targetsPerSource_spec pc h
  refine ⟨_, by unfold InitDataStructures; rw [h1], ?_⟩
  intro s hs t
  have hfind : ∀ α2 (B : Arith α2), find (initRows B pc.source_vocab_size tps
      (initNull B pc.target_vocab_size (new : Model1 α2).t_table_)) (s, t) =
      if (1 ≤ s ∧ s < (pc.source_vocab_size : Int)) ∧ t ∈ tps.getD s.toNat [] then
        some (B.logInv ((tps.getD s.toNat []).length : Int)) else none := by
    intro α2 B
    rw [find_initRows, find_initNull]
    have : ¬ ((s, t).1 = 0 ∧ 1 ≤ (s, t).2 ∧ (s, t).2 < (pc.target_vocab_size : Int)) := by
      simp only; omega
    rw [if_neg this]
    rfl
  have hs2 : ((s.toNat : Nat) : Int) = s := by omega
  have hrow : ∀ x, x ∈ tps.getD s.toNat [] ↔ reach pc s x := by
    intro x
    rw [hmem, hs2]
  constructor
  · intro hr
    have hin : s < (pc.source_vocab_size : Int) := by
      obtain ⟨d, hd, ⟨sent, hsent, hmem2⟩, _⟩ := hr
      exact (h d hd sent hsent s hmem2).2
    show find (initRows A pc.source_vocab_size tps _) (s, t) = _
    rw [hfind, if_pos ⟨⟨hs, hin⟩, (hrow t).2 hr⟩,
      length_eq_ncard_reach pc s _ (hnd s.toNat) hrow]
  · intro hr
    show find (initRows A pc.source_vocab_size tps _) (s, t) = _
    rw [hfind, if_neg (fun hc => hr ((hrow t).1 hc.2))]

/-- C2: on a newly constructed model and a corpus whose source ids index into the source
vocabulary, `InitDataStructures` is defined and, for every source word `s ≥ 1` with
reachable-target set `R(s) = {t | reach pc s t}`, the table holds `log(1.0 / |R(s)|)`
under `(s, t)` for every `t ∈ R(s)` and has no entry `(s, t)` for `t ∉ R(s)` (so none at
all when `R(s)` is empty); in exact arithmetic the value is the real `log (1 / |R(s)|)`. -/
theorem C2_rows_uniform_over_reachable {α : Type} (A : Arith α) (pc : ParallelCorpus)
    (h : sourceIdsInRange pc) :
    (∃ m2, InitDataStructures A pc new = some m2 ∧
      ∀ s : Int, 1 ≤ s → ∀ t : Int,
        (reach pc s t → find m2.t_table_ (s, t) =
          some (A.logInv ((Set.ncard {x | reach pc s x} : Nat) : Int))) ∧
        (¬ reach pc s t → find m2.t_table_ (s, t) = none)) ∧
    (∃ m2, InitDataStructures ideal pc new = some m2 ∧
      ∀ s : Int, 1 ≤ s → ∀ t : Int,
        (reach pc s t → find m2.t_table_ (s, t) =
          some ((Real.log (1 / (Set.ncard {x | reach pc s x} : ℝ)) : ℝ) : EReal)) ∧
        (¬ reach pc s t → find m2.t_table_ (s, t) = none)) := by
  refine ⟨find_row A pc h, ?_⟩
  obtain ⟨m2, h1, h2⟩ := find_row ideal pc h
  refine ⟨m2, h1, fun s hs t => ⟨fun hr => ?_, (h2 s hs t).2⟩⟩
  rw [(h2 s hs t).1 hr, ideal_logInv_of_ne_zero]
  · push_cast; rfl
  · exact_mod_cast Nat.pos_iff_ne_zero.1 (ncard_reach_pos pc h s t hr)

/-- C2 on a corpus of two document pairs: source word 2 reaches the targets 3, 1, 2. -/
theorem C2_rows_uniform_over_reachable_witness :
    (∃ m2, InitDataStructures symArith exampleCorpus new = some m2 ∧
      ∀ s : Int, 1 ≤ s → ∀ t : Int,
        (reach exampleCorpus s t → find m2.t_table_ (s, t) =
          some (Sym.logInv ((Set.ncard {x | reach exampleCorpus s x} : Nat) : Int))) ∧
        (¬ reach exampleCorpus s t → find m2.t_table_ (s, t) = none)) :=
  (C2_rows_uniform_over_reachable symArith exampleCorpus (by decide)).1

/-! ## Exact arithmetic -/

@[simp] theorem ideal_zero : ideal.zero = 0 := rfl
@[simp] theorem ideal_negMax : ideal.negMax = ⊥ := rfl
@[simp] theorem ideal_add (x y : EReal) : ideal.add x y = x + y := rfl
@[simp] theorem ideal_sub (x y : EReal) : ideal.sub x y = x - y := rfl
@[simp] theorem ideal_LogAdd (x y : EReal) :
    ideal.LogAdd x y = ENNReal.log (EReal.exp x + EReal.exp y) := rfl

theorem exp_lookup (tb : TTable EReal) (s t : Int) :
    EReal.exp (lookup ideal tb s t) = prob tb (s, t) := by
  unfold lookup prob
  cases find tb (s, t) <;> simp

theorem wordProb_ideal_aux (T : TTable EReal) (t : Int) (source : Sentence) (acc : EReal) :
    source.foldl (fun t_prob s => ideal.LogAdd t_prob (lookup ideal T s t)) acc =
      ENNReal.log (EReal.exp acc + (source.map (fun s => prob T (s, t))).sum) := by
  induction source generalizing acc with
  | nil => simp
  | cons s rest ih =>
    rw [List.foldl_cons, ih, ideal_LogAdd, ENNReal.exp_log, exp_lookup, List.map_cons,
      List.sum_cons, add_assoc]

/-- In exact arithmetic `t_prob` is the logarithm of the summed probabilities. -/
theorem wordProb_ideal (T : TTable EReal) (source : Sentence) (t : Int) :
    wordProb ideal T source t =
      ENNReal.log (prob T (0, t) + (source.map (fun s => prob T (s, t))).sum) := by
  unfold wordProb
  rw [wordProb_ideal_aux, exp_lookup]

theorem foldl_add_eq_sum {β : Type} (f : β → EReal) (l : List β) (a : EReal) :
    l.foldl (fun r b => ideal.add r (f b)) a = a + (l.map f).sum := by
  induction l generalizing a with
  | nil => simp
  | cons b rest ih =>
    rw [List.foldl_cons, ih, ideal_add, List.map_cons, List.sum_cons, add_assoc]

/-! ## C3 -/

/-- C3: in exact arithmetic, for every model state, source sentence and target sentence of
length `n` (empty or not), `ScorePair` returns the sum over the target positions `j` of
`log (p(0, target[j]) + Σ_i p(source[i], target[j])) + log (1 / n)`, where `p` is the
probability stored in the translation table and 0 for an absent entry, the alignment term
being normalised by the target length; and, in every arithmetic, the model after the call
is the model before it. -/
theorem C3_ScorePair_formula {α : Type} (A : Arith α) (ma : Model1 α) (m : Model1 EReal)
    (source target : Sentence) :
    (ScorePair ideal m source target).1 =
      (target.map (fun t =>
        ENNReal.log (prob m.t_table_ (0, t) + (source.map (fun s => prob m.t_table_ (s, t))).sum)
          + ((Real.log (1 / (target.length : ℝ)) : ℝ) : EReal))).sum ∧
    (ScorePair ideal m source target).2 = m ∧
    (ScorePair A ma source target).2 = ma := by
  refine ⟨?_, rfl, rfl⟩
  unfold ScorePair
  simp only
  rw [foldl_add_eq_sum (fun t => ideal.add (wordProb ideal m.t_table_ source t)
    (ideal.logInv (target.length : Int)))]
  rw [ideal_zero, zero_add]
  cases target with
  | nil => simp
  | cons t0 rest =>
    rw [ideal_logInv_of_ne_zero _ (by simp; omega)]
    congr 1
    apply List.map_congr_left
    intro t _
    rw [ideal_add, wordProb_ideal]
    push_cast
    rfl

/-! ## C4 -/

theorem fst_foldl_eStepWord {α : Type} (A : Arith α) (T : TTable α) (source : Sentence)
    (ap w : α) (target : Sentence) (st : α × TTable α) :
    (target.foldl (eStepWord A T source ap w) st).1 =
      target.foldl (fun result t => A.add result (A.add (wordProb A T source t) ap)) st.1 := by
  induction target generalizing st with
  | nil => rfl
  | cons t rest ih =>
    rw [List.foldl_cons, List.foldl_cons, ih]
    rfl

theorem EStep_fst {α : Type} (A : Arith α) (m : Model1 α) (source target : Sentence)
    (weight : α) :
    (EStep A m source target weight).1 = (ScorePair A m source target).1 := by
  unfold EStep ScorePair
  exact fst_foldl_eStepWord A m.t_table_ source _ weight target _

/-- C4: in every arithmetic, for every model state, source sentence, target sentence
(empty or not) and weight, the value `EStep` returns is the value `ScorePair` returns on
the same sentences and the same translation table; hence it is the same for any two
weights and any two model states with the same translation table. -/
theorem C4_EStep_returns_ScorePair {α : Type} (A : Arith α) (m : Model1 α)
    (source target : Sentence) (weight : α) :
    (EStep A m source target weight).1 = (ScorePair A m source target).1 ∧
    ∀ (m2 : Model1 α) (weight2 : α), m2.t_table_ = m.t_table_ →
      (EStep A m2 source target weight2).1 = (EStep A m source target weight).1 := by
  refine ⟨EStep_fst A m source target weight, ?_⟩
  intro m2 weight2 hT
  rw [EStep_fst, EStep_fst]
  unfold ScorePair
  rw [hT]

/-- C4 on two model states with the same translation table, different count tables and
different weights. -/
theorem C4_EStep_returns_ScorePair_witness :
    (EStep symArith ⟨2, 2, [((0, 1), Sym.logInv 1), ((1, 1), Sym.logInv 1)],
        [((1, 1), Sym.zero)]⟩ [1] [1, 1] (Sym.logInv 5)).1 =
      (EStep symArith ⟨2, 2, [((0, 1), Sym.logInv 1), ((1, 1), Sym.logInv 1)], []⟩
        [1] [1, 1] Sym.zero).1 :=
  (C4_EStep_returns_ScorePair symArith
    ⟨2, 2, [((0, 1), Sym.logInv 1), ((1, 1), Sym.logInv 1)], []⟩ [1] [1, 1] Sym.zero).2
    ⟨2, 2, [((0, 1), Sym.logInv 1), ((1, 1), Sym.logInv 1)], [((1, 1), Sym.zero)]⟩
    (Sym.logInv 5) rfl

/-! ## C6 -/

section MStepLemmas
variable {α : Type}

theorem keys_mStepLoop (A : Arith α) (T C : TTable α) :
    keys (mStepLoop A T C).1 = keys T := by
  induction T generalizing C with
  | nil => rfl
  | cons e rest ih =>
    obtain ⟨k, v⟩ := e
    simp only [mStepLoop, keys, List.map_cons]
    exact congrArg _ (ih _)

theorem index_of_mem (A : Arith α) (C : TTable α) (k : Key) (h : k ∈ keys C) :
    index A C k = (lookup A C k.1 k.2, C) := by
  obtain ⟨v, hv⟩ := (mem_keys_iff C k).1 h
  unfold index lookup
  rw [hv]
  rfl

theorem mStepLoop_of_keys_subset (A : Arith α) (T C : TTable α)
    (h : ∀ k ∈ keys T, k ∈ keys C) :
    (mStepLoop A T C).2 = C ∧
    ∀ k ∈ keys T, find (mStepLoop A T C).1 k =
      some (A.sub (lookup A C k.1 k.2) (lookup A C k.1 0)) := by
  induction T with
  | nil => exact ⟨rfl, fun k hk => absurd hk (by simp [keys])⟩
  | cons e rest ih =>
    obtain ⟨k0, v0⟩ := e
    have h0 : k0 ∈ keys C := h k0 (by simp [keys])
    obtain ⟨ih1, ih2⟩ := ih (fun k hk => h k (by
      simp only [keys, List.map_cons, List.mem_cons]; exact Or.inr hk))
    simp only [mStepLoop, index_of_mem A C k0 h0]
    refine ⟨ih1, ?_⟩
    intro k hk
    by_cases hk0 : k0 = k
    · subst hk0
      simp [find]
    · have hk2 : k ∈ keys rest := by
        simp only [keys, List.map_cons, List.mem_cons] at hk
        rcases hk with hk | hk
        · exact absurd hk.symm hk0
        · exact hk
      simp only [find, hk0, if_false]
      exact ih2 k hk2

end MStepLemmas

/-- C10 fails: the code has no check of the target length.  On a newly constructed model,
`ScorePair([1], [])` returns the number 0, and `EStep([1], [], 0)` returns the number 0
after storing the weight under `(0,0)` and `(1,0)` of the count table. -/
theorem C10_counterexample :
    (ScorePair ideal new [1] []).1 = 0 ∧
    (EStep ideal new [1] [] 0).1 = 0 ∧
    (EStep ideal new [1] [] 0).2.expected_counts_ = [((0, 0), 0), ((1, 0), 0)] ∧
    (EStep ideal new [1] [] 0).2.expected_counts_ ≠ (new : Model1 EReal).expected_counts_ := by
  have h : (EStep ideal new [1] [] 0).2.expected_counts_ = [((0, 0), 0), ((1, 0), 0)] := by
    simp [-Prod.mk_zero_zero, EStep, updateDenominators, new, assign, lookup, find]
  refine ⟨rfl, rfl, h, ?_⟩
  rw [h]
  simp [new]

/-- C10 (amended): in every arithmetic, for every model state, source sentence and weight,
with an empty target sentence `ScorePair` returns `0.0` and leaves the model as it is, and
`EStep` returns `0.0`, leaves the translation table as it is and only combines the weight
into the denominator slots `(0,0)` and `(s,0)` of the source positions. -/
theorem C10_empty_target {α : Type} (A : Arith α) (m : Model1 α) (source : Sentence)
    (weight : α) :
    ScorePair A m source [] = (A.zero, m) ∧
    (EStep A m source [] weight).1 = A.zero ∧
    (EStep A m source [] weight).2.t_table_ = m.t_table_ ∧
    (EStep A m source [] weight).2.expected_counts_ =
      updateDenominators A m.expected_counts_ source weight :=
  ⟨rfl, rfl, rfl, rfl⟩

/-! ## C8 and C9: the concrete scenario -/

/-- The model `InitDataStructures` builds on the scenario corpus, in exact arithmetic. -/
theorem init_scenario :
    InitDataStructures ideal scenarioCorpus new =
      some ⟨2, 2, [((0, 1), 0), ((1, 1), 0)], []⟩ := by
  have h : InitDataStructures ideal scenarioCorpus new =
      some ⟨2, 2, [((0, 1), ideal.logInv (((2 : Nat) : Int) - 1)),
        ((1, 1), ideal.logInv ((1 : Nat) : Int))], []⟩ := rfl
  rw [h]
  simp [ideal]

theorem log_two_ennreal : ENNReal.log 2 = ((Real.log 2 : ℝ) : EReal) := by
  have h : ENNReal.log (ENNReal.ofReal 2) = ((Real.log 2 : ℝ) : EReal) :=
    ENNReal.log_ofReal_of_pos (by norm_num)
  simpa using h

/-- C8: on the corpus with one document pair (source sentence `[1]`, target sentence
`[1]`, vocabulary sizes 2 and 2) `InitDataStructures` is defined and, in exact arithmetic,
yields the table with exactly the two entries `T[0,1] = 0 = log 1` and
`T[1,1] = 0 = log 1`; on it `ScorePair([1], [1])` returns `log 2`. -/
theorem C8_scenario_initial :
    ∃ m, InitDataStructures ideal scenarioCorpus new = some m ∧
      m.t_table_ = [((0, 1), ((Real.log 1 : ℝ) : EReal)), ((1, 1), ((Real.log 1 : ℝ) : EReal))] ∧
      (ScorePair ideal m [1] [1]).1 = ((Real.log 2 : ℝ) : EReal) := by
  refine ⟨_, init_scenario, by simp, ?_⟩
  simp [-Prod.mk_zero_zero, ScorePair, wordProb, lookup, find, ideal_logInv_of_ne_zero,
    one_add_one_eq_two, log_two_ennreal]

theorem clear_scenario :
    ClearExpectedCounts ideal (⟨2, 2, [((0, 1), 0), ((1, 1), 0)], []⟩ : Model1 EReal) =
      ⟨2, 2, [((0, 1), 0), ((1, 1), 0)], [((0, 0), ⊥), ((1, 0), ⊥), ((0, 1), ⊥), ((1, 1), ⊥)]⟩ := by
  rfl

theorem estep_scenario :
    (EStep ideal (⟨2, 2, [((0, 1), 0), ((1, 1), 0)],
        [((0, 0), ⊥), ((1, 0), ⊥), ((0, 1), ⊥), ((1, 1), ⊥)]⟩ : Model1 EReal) [1] [1] 0).2 =
      ⟨2, 2, [((0, 1), 0), ((1, 1), 0)],
        [((0, 0), 0), ((1, 0), 0), ((0, 1), -((Real.log 2 : ℝ) : EReal)),
          ((1, 1), -((Real.log 2 : ℝ) : EReal))]⟩ := by
  simp [-Prod.mk_zero_zero, EStep, eStepWord, updateCounts, updateDenominators, wordProb,
    assign, lookup, find, one_add_one_eq_two, log_two_ennreal]

theorem mstep_scenario :
    MStep ideal (⟨2, 2, [((0, 1), 0), ((1, 1), 0)],
        [((0, 0), 0), ((1, 0), 0), ((0, 1), -((Real.log 2 : ℝ) : EReal)),
          ((1, 1), -((Real.log 2 : ℝ) : EReal))]⟩ : Model1 EReal) =
      ⟨2, 2, [((0, 1), -((Real.log 2 : ℝ) : EReal)), ((1, 1), -((Real.log 2 : ℝ) : EReal))],
        [((0, 0), 0), ((1, 0), 0), ((0, 1), -((Real.log 2 : ℝ) : EReal)),
          ((1, 1), -((Real.log 2 : ℝ) : EReal))]⟩ := by
  simp [-Prod.mk_zero_zero, MStep, mStepLoop, index, lookup, find]

/-- One EM iteration on the scenario, in exact arithmetic. -/
theorem emIteration_scenario :
    emIteration ideal (⟨2, 2, [((0, 1), 0), ((1, 1), 0)], []⟩ : Model1 EReal) [([1], [1], 0)] =
      ⟨2, 2, [((0, 1), -((Real.log 2 : ℝ) : EReal)), ((1, 1), -((Real.log 2 : ℝ) : EReal))],
        [((0, 0), 0), ((1, 0), 0), ((0, 1), -((Real.log 2 : ℝ) : EReal)),
          ((1, 1), -((Real.log 2 : ℝ) : EReal))]⟩ := by
  unfold emIteration eStepPass
  rw [clear_scenario, List.foldl_cons, List.foldl_nil, estep_scenario, mstep_scenario]

theorem neg_log_two_lt_zero : -((Real.log 2 : ℝ) : EReal) < 0 := by
  have h : (0 : ℝ) < Real.log 2 := Real.log_pos (by norm_num)
  have h2 : ((-(Real.log 2) : ℝ) : EReal) < ((0 : ℝ) : EReal) :=
    EReal.coe_lt_coe_iff.2 (by linarith)
  simpa using h2

/-- C9 fails: on the scenario the entry `T[1,1]` is `0 = log 1` after
`InitDataStructures` and `-log 2` after one EM iteration, which is smaller. -/
theorem C9_counterexample :
    ¬ (∀ m v0 v1, InitDataStructures ideal scenarioCorpus new = some m →
        find m.t_table_ (1, 1) = some v0 →
        find (emIteration ideal m [([1], [1], 0)]).t_table_ (1, 1) = some v1 →
        v0 ≤ v1) := by
  intro h
  have h1 := h _ 0 (-((Real.log 2 : ℝ) : EReal)) init_scenario
    (by simp [find]) (by rw [emIteration_scenario]; simp [find])
  exact absurd neg_log_two_lt_zero (not_lt.2 h1)

/-- C9 (amended): on the scenario, after `ClearExpectedCounts`, `EStep([1], [1], 0)` and
`MStep` the table has the same two keys and holds `T[1,1] = -log 2 = log (1/2)` and
`T[0,1] = -log 2`: the unit count of the target word is split evenly between the null
word and source word 1, and each half is divided by a denominator of 1.  `T[1,1]` is
thus strictly below its value `log 1 = 0` before the iteration. -/
theorem C9_scenario_one_iteration :
    ∃ m, InitDataStructures ideal scenarioCorpus new = some m ∧
      find m.t_table_ (1, 1) = some ((Real.log 1 : ℝ) : EReal) ∧
      (emIteration ideal m [([1], [1], 0)]).t_table_ =
        [((0, 1), -((Real.log 2 : ℝ) : EReal)), ((1, 1), -((Real.log 2 : ℝ) : EReal))] ∧
      -((Real.log 2 : ℝ) : EReal) < ((Real.log 1 : ℝ) : EReal) := by
  refine ⟨_, init_scenario, by simp [find], by rw [emIteration_scenario], ?_⟩
  simpa using neg_log_two_lt_zero

/-! ## The expected counts in exact arithmetic -/

theorem prob_eq_exp_lookup (tb : TTable EReal) (k : Key) :
    prob tb k = EReal.exp (lookup ideal tb k.1 k.2) := (exp_lookup tb k.1 k.2).symm

/-- Combining `x` into the slot `k` with `LogAdd` adds `exp x` to the probability held
there and changes no other slot. -/
theorem prob_assign_LogAdd (C : TTable EReal) (k k2 : Key) (x : EReal) :
    prob (assign C k (ideal.LogAdd (lookup ideal C k.1 k.2) x)) k2 =
      prob C k2 + if k = k2 then EReal.exp x else 0 := by
  by_cases h : k = k2
  · subst h
    rw [if_pos rfl]
    conv_lhs => unfold prob
    rw [find_assign_self]
    simp only [ideal_LogAdd, ENNReal.exp_log]
    rw [exp_lookup]
  · rw [if_neg h, add_zero]
    unfold prob
    rw [find_assign_of_ne _ _ h]

theorem prob_foldl_LogAdd {β : Type} (key : β → Key) (val : β → EReal) (l : List β)
    (C : TTable EReal) (k2 : Key) :
    prob (l.foldl (fun C b =>
        assign C (key b) (ideal.LogAdd (lookup ideal C (key b).1 (key b).2) (val b))) C) k2 =
      prob C k2 + (l.map (fun b => if key b = k2 then EReal.exp (val b) else 0)).sum := by
  induction l generalizing C with
  | nil => simp
  | cons b rest ih =>
    rw [List.foldl_cons, ih, prob_assign_LogAdd, List.map_cons, List.sum_cons, add_assoc]

theorem updateDenominators_eq_foldl {α : Type} (A : Arith α) (C : TTable α)
    (source : Sentence) (weight : α) :
    updateDenominators A C source weight =
      ((0 : Int) :: source).foldl
        (fun C s => assign C (s, 0) (A.LogAdd (lookup A C s 0) weight)) C := rfl

theorem updateCounts_eq_foldl {α : Type} (A : Arith α) (T : TTable α) (source : Sentence)
    (t : Int) (t_prob weight : α) (C : TTable α) :
    updateCounts A T source t t_prob weight C =
      ((0 : Int) :: source).foldl
        (fun C s => assign C (s, t)
          (A.LogAdd (lookup A C s t) (A.add (A.sub (lookup A T s t) t_prob) weight))) C := rfl

theorem prob_updateDenominators (C : TTable EReal) (source : Sentence) (w : EReal)
    (k : Key) :
    prob (updateDenominators ideal C source w) k =
      prob C k +
        (((0 : Int) :: source).map (fun s => if (s, (0 : Int)) = k then EReal.exp w else 0)).sum := by
  rw [updateDenominators_eq_foldl]
  exact prob_foldl_LogAdd (fun s : Int => (s, (0 : Int))) (fun _ => w) _ C k

theorem prob_updateCounts (T : TTable EReal) (source : Sentence) (t : Int) (D w : EReal)
    (C : TTable EReal) (k : Key) :
    prob (updateCounts ideal T source t D w C) k =
      prob C k +
        (((0 : Int) :: source).map
          (fun s => if (s, t) = k then EReal.exp (lookup ideal T s t - D + w) else 0)).sum := by
  rw [updateCounts_eq_foldl]
  exact prob_foldl_LogAdd (fun s : Int => (s, t))
    (fun s => ideal.add (ideal.sub (lookup ideal T s t) D) w) _ C k

theorem snd_foldl_eStepWord {α : Type} (A : Arith α) (T : TTable α) (source : Sentence)
    (ap w : α) (target : Sentence) (st : α × TTable α) :
    (target.foldl (eStepWord A T source ap w) st).2 =
      target.foldl (fun C t => updateCounts A T source t (wordProb A T source t) w C) st.2 := by
  induction target generalizing st with
  | nil => rfl
  | cons t rest ih =>
    rw [List.foldl_cons, List.foldl_cons, ih]
    rfl

theorem EStep_expected_counts {α : Type} (A : Arith α) (m : Model1 α)
    (source target : Sentence) (w : α) :
    (EStep A m source target w).2.expected_counts_ =
      target.foldl
        (fun C t => updateCounts A m.t_table_ source t (wordProb A m.t_table_ source t) w C)
        (updateDenominators A m.expected_counts_ source w) := by
  unfold EStep
  exact snd_foldl_eStepWord A m.t_table_ source _ w target _

theorem EStep_t_table {α : Type} (A : Arith α) (m : Model1 α)
    (source target : Sentence) (w : α) :
    (EStep A m source target w).2.t_table_ = m.t_table_ := rfl

theorem prob_foldl_updateCounts (T : TTable EReal) (source : Sentence) (w : EReal)
    (target : Sentence) (C : TTable EReal) (k : Key) :
    prob (target.foldl
        (fun C t => updateCounts ideal T source t (wordProb ideal T source t) w C) C) k =
      prob C k + (target.map (fun t =>
        (((0 : Int) :: source).map (fun s => if (s, t) = k then
          EReal.exp (lookup ideal T s t - wordProb ideal T source t + w) else 0)).sum)).sum := by
  induction target generalizing C with
  | nil => simp
  | cons t rest ih =>
    rw [List.foldl_cons, ih, prob_updateCounts]
    simp only [List.map_cons, List.sum_cons, add_assoc]

/-- The effect of one `EStep` call on the count table, in probabilities: the slot `k`
gains `exp weight` for every generator `g` (the null word and every source position) with
`k = (g, 0)`, and `exp (T[g,t] - t_prob + weight)` for every target position `t` and
generator `g` with `k = (g, t)`. -/
theorem prob_EStep (m : Model1 EReal) (source target : Sentence) (w : EReal) (k : Key) :
    prob (EStep ideal m source target w).2.expected_counts_ k =
      prob m.expected_counts_ k +
        (((0 : Int) :: source).map (fun s => if (s, (0 : Int)) = k then EReal.exp w else 0)).sum +
        (target.map (fun t =>
          (((0 : Int) :: source).map (fun s => if (s, t) = k then
            EReal.exp (lookup ideal m.t_table_ s t - wordProb ideal m.t_table_ source t + w)
            else 0)).sum)).sum := by
  rw [EStep_expected_counts, prob_foldl_updateCounts, prob_updateDenominators]

/-! ## Keys and values after `ClearExpectedCounts` and `EStep` -/

section KeysLemmas
variable {α : Type}

theorem mem_keys_foldl_assign {β : Type} (key : β → Key) (val : TTable α → β → α)
    (l : List β) (C : TTable α) (k : Key) :
    k ∈ keys (l.foldl (fun C b => assign C (key b) (val C b)) C) ↔
      k ∈ keys C ∨ k ∈ l.map key := by
  induction l generalizing C with
  | nil => simp
  | cons b rest ih =>
    rw [List.foldl_cons, ih, mem_keys_assign, List.map_cons, List.mem_cons]
    tauto

theorem find_ClearExpectedCounts (A : Arith α) (m : Model1 α) (k : Key) :
    find (ClearExpectedCounts A m).expected_counts_ k =
      if k ∈ keys m.t_table_ ∨ (k.2 = 0 ∧ 0 ≤ k.1 ∧ k.1 < (m.source_vocab_size_ : Int)) then
        some A.negMax
      else find m.expected_counts_ k := by
  unfold ClearExpectedCounts
  simp only
  rw [find_foldl_assign_const (fun e : Key × α => e.1),
    find_foldl_assign_const (fun s : Int => (s, (0 : Int)))]
  have h1 : k ∈ m.t_table_.map (fun e : Key × α => e.1) ↔ k ∈ keys m.t_table_ := Iff.rfl
  have h2 : k ∈ ((List.range m.source_vocab_size_).map (fun s => ((s : Nat) : Int))).map
      (fun s : Int => (s, (0 : Int))) ↔
      (k.2 = 0 ∧ 0 ≤ k.1 ∧ k.1 < (m.source_vocab_size_ : Int)) := by
    obtain ⟨a, b⟩ := k
    simp only [List.mem_map, List.mem_range, Prod.mk.injEq, exists_exists_and_eq_and]
    constructor
    · rintro ⟨i, hi, ha, hb⟩
      refine ⟨hb.symm, ?_, ?_⟩ <;> omega
    · rintro ⟨hb, h0, hlt⟩
      exact ⟨a.toNat, by omega, by omega, hb.symm⟩
  by_cases hT : k ∈ keys m.t_table_
  · rw [if_pos (h1.2 hT), if_pos (Or.inl hT)]
  · rw [if_neg (fun h => hT (h1.1 h))]
    by_cases hD : k.2 = 0 ∧ 0 ≤ k.1 ∧ k.1 < (m.source_vocab_size_ : Int)
    · rw [if_pos (h2.2 hD), if_pos (Or.inr hD)]
    · rw [if_neg (fun h => hD (h2.1 h)), if_neg (fun h => h.elim hT hD)]

theorem ClearExpectedCounts_t_table (A : Arith α) (m : Model1 α) :
    (ClearExpectedCounts A m).t_table_ = m.t_table_ := rfl

theorem mem_keys_ClearExpectedCounts (A : Arith α) (m : Model1 α) (k : Key) :
    k ∈ keys (ClearExpectedCounts A m).expected_counts_ ↔
      k ∈ keys m.expected_counts_ ∨ k ∈ keys m.t_table_ ∨
        (k.2 = 0 ∧ 0 ≤ k.1 ∧ k.1 < (m.source_vocab_size_ : Int)) := by
  rw [mem_keys_iff, find_ClearExpectedCounts, mem_keys_iff m.expected_counts_]
  by_cases h : k ∈ keys m.t_table_ ∨ (k.2 = 0 ∧ 0 ≤ k.1 ∧ k.1 < (m.source_vocab_size_ : Int))
  · rw [if_pos h]
    exact ⟨fun _ => Or.inr h, fun _ => ⟨_, rfl⟩⟩
  · rw [if_neg h]
    exact ⟨Or.inl, fun h2 => h2.elim id (fun h3 => absurd h3 h)⟩

theorem mem_keys_updateDenominators (A : Arith α) (C : TTable α) (source : Sentence)
    (w : α) (k : Key) :
    k ∈ keys (updateDenominators A C source w) ↔
      k ∈ keys C ∨ (k.2 = 0 ∧ k.1 ∈ (0 : Int) :: source) := by
  rw [updateDenominators_eq_foldl,
    mem_keys_foldl_assign (fun s : Int => (s, (0 : Int)))
      (fun C s => A.LogAdd (lookup A C s 0) w)]
  obtain ⟨a, b⟩ := k
  simp only [List.mem_map, Prod.mk.injEq]
  constructor
  · rintro (h | ⟨s, hs, h1, h2⟩)
    · exact Or.inl h
    · exact Or.inr ⟨h2.symm, h1 ▸ hs⟩
  · rintro (h | ⟨h1, h2⟩)
    · exact Or.inl h
    · exact Or.inr ⟨a, h2, rfl, h1.symm⟩

theorem mem_keys_updateCounts (A : Arith α) (T : TTable α) (source : Sentence) (t : Int)
    (D w : α) (C : TTable α) (k : Key) :
    k ∈ keys (updateCounts A T source t D w C) ↔
      k ∈ keys C ∨ (k.2 = t ∧ k.1 ∈ (0 : Int) :: source) := by
  rw [updateCounts_eq_foldl,
    mem_keys_foldl_assign (fun s : Int => (s, t))
      (fun C s => A.LogAdd (lookup A C s t) (A.add (A.sub (lookup A T s t) D) w))]
  obtain ⟨a, b⟩ := k
  simp only [List.mem_map, Prod.mk.injEq]
  constructor
  · rintro (h | ⟨s, hs, h1, h2⟩)
    · exact Or.inl h
    · exact Or.inr ⟨h2.symm, h1 ▸ hs⟩
  · rintro (h | ⟨h1, h2⟩)
    · exact Or.inl h
    · exact Or.inr ⟨a, h2, rfl, h1.symm⟩

theorem mem_keys_foldl_updateCounts (A : Arith α) (T : TTable α) (source : Sentence)
    (w : α) (target : Sentence) (C : TTable α) (k : Key) :
    k ∈ keys (target.foldl
        (fun C t => updateCounts A T source t (wordProb A T source t) w C) C) ↔
      k ∈ keys C ∨ (k.2 ∈ target ∧ k.1 ∈ (0 : Int) :: source) := by
  induction target generalizing C with
  | nil => simp
  | cons t rest ih =>
    rw [List.foldl_cons, ih, mem_keys_updateCounts]
    simp only [List.mem_cons]
    tauto

/-- The keys of the count table after one `EStep` call: those before, the denominator
slots of the generators, and the pairs (generator, target word). -/
theorem mem_keys_EStep (A : Arith α) (m : Model1 α) (source target : Sentence) (w : α)
    (k : Key) :
    k ∈ keys (EStep A m source target w).2.expected_counts_ ↔
      k ∈ keys m.expected_counts_ ∨
        ((k.2 = 0 ∨ k.2 ∈ target) ∧ k.1 ∈ (0 : Int) :: source) := by
  rw [EStep_expected_counts, mem_keys_foldl_updateCounts, mem_keys_updateDenominators]
  tauto

end KeysLemmas

theorem prob_ClearExpectedCounts (m : Model1 EReal) (k : Key) :
    prob (ClearExpectedCounts ideal m).expected_counts_ k =
      if k ∈ keys m.t_table_ ∨ (k.2 = 0 ∧ 0 ≤ k.1 ∧ k.1 < (m.source_vocab_size_ : Int)) then 0
      else prob m.expected_counts_ k := by
  unfold prob
  rw [find_ClearExpectedCounts]
  by_cases h : k ∈ keys m.t_table_ ∨ (k.2 = 0 ∧ 0 ≤ k.1 ∧ k.1 < (m.source_vocab_size_ : Int))
  · rw [if_pos h, if_pos h]; simp
  · rw [if_neg h, if_neg h]

/-! ## C5 -/

theorem list_sum_ne_top (l : List ENNReal) (h : ∀ x ∈ l, x ≠ ⊤) : l.sum ≠ ⊤ := by
  induction l with
  | nil => simp
  | cons x rest ih =>
    rw [List.sum_cons]
    exact ENNReal.add_ne_top.2
      ⟨h x (List.mem_cons_self _ _), ih (fun y hy => h y (List.mem_cons_of_mem _ hy))⟩

theorem prob_of_find_real (T : TTable EReal) (k : Key) (r : ℝ)
    (h : find T k = some (r : EReal)) : prob T k = ENNReal.ofReal (Real.exp r) := by
  unfold prob
  rw [h]
  rfl

/-- The summed probability of the generators of a target word is positive and finite when
every looked-up entry is present with a real value. -/
theorem sum_prob_pos_finite (T : TTable EReal) (source : Sentence) (t : Int)
    (hpres : ∀ s ∈ (0 : Int) :: source, ∃ r : ℝ, find T (s, t) = some (r : EReal)) :
    (((0 : Int) :: source).map (fun s => prob T (s, t))).sum ≠ 0 ∧
    (((0 : Int) :: source).map (fun s => prob T (s, t))).sum ≠ ⊤ := by
  constructor
  · obtain ⟨r, hr⟩ := hpres 0 (List.mem_cons_self _ _)
    rw [List.map_cons, List.sum_cons, prob_of_find_real T _ r hr]
    intro h
    have h2 := (add_eq_zero.1 h).1
    rw [ENNReal.ofReal_eq_zero] at h2
    exact absurd (Real.exp_pos r) (not_lt.2 h2)
  · apply list_sum_ne_top
    intro x hx
    obtain ⟨s, hs, rfl⟩ := List.mem_map.1 hx
    obtain ⟨r, hr⟩ := hpres s hs
    rw [prob_of_find_real T _ r hr]
    exact ENNReal.ofReal_ne_top

theorem wordProb_ideal_cons (T : TTable EReal) (source : Sentence) (t : Int) :
    wordProb ideal T source t =
      ENNReal.log (((0 : Int) :: source).map (fun s => prob T (s, t))).sum := by
  rw [wordProb_ideal, List.map_cons, List.sum_cons]

theorem exp_sub_wordProb (T : TTable EReal) (source : Sentence) (t : Int) (s : Int)
    (w : EReal) :
    EReal.exp (lookup ideal T s t - wordProb ideal T source t + w) =
      prob T (s, t) * ((((0 : Int) :: source).map (fun s => prob T (s, t))).sum)⁻¹ *
        EReal.exp w := by
  rw [wordProb_ideal_cons, EReal.exp_add, sub_eq_add_neg, EReal.exp_add, EReal.exp_neg,
    ENNReal.exp_log, exp_lookup]

/-- Count conservation at one target position: the increments of the generators (the null
word and every source position), with weight 0, sum to 1. -/
theorem conservation_at (T : TTable EReal) (source : Sentence) (t : Int)
    (hpres : ∀ s ∈ (0 : Int) :: source, ∃ r : ℝ, find T (s, t) = some (r : EReal)) :
    (((0 : Int) :: source).map
      (fun s => EReal.exp (lookup ideal T s t - wordProb ideal T source t + 0))).sum = 1 := by
  obtain ⟨h0, htop⟩ := sum_prob_pos_finite T source t hpres
  have e : (fun s => EReal.exp (lookup ideal T s t - wordProb ideal T source t + 0)) =
      (fun s => prob T (s, t) *
        ((((0 : Int) :: source).map (fun s => prob T (s, t))).sum)⁻¹) := by
    funext s
    rw [exp_sub_wordProb, EReal.exp_zero, mul_one]
  rw [e, List.sum_map_mul_right]
  exact ENNReal.mul_inv_cancel h0 htop

theorem sum_finset_list_indicator {β : Type} (F : Finset Key) (key : β → Key)
    (v : β → ENNReal) (l : List β) :
    ∑ k ∈ F, (l.map (fun b => if key b = k then v b else 0)).sum =
      (l.map (fun b => if key b ∈ F then v b else 0)).sum := by
  induction l with
  | nil => simp
  | cons b rest ih =>
    simp only [List.map_cons, List.sum_cons]
    rw [Finset.sum_add_distrib, ih, Finset.sum_ite_eq]

theorem sum_finset_nested_indicator (F : Finset Key) (gens : List Int)
    (x : Int → Int → ENNReal) (target : List Int) :
    ∑ k ∈ F, (target.map (fun t =>
        (gens.map (fun s => if (s, t) = k then x s t else 0)).sum)).sum =
      (target.map (fun t =>
        (gens.map (fun s => if (s, t) ∈ F then x s t else 0)).sum)).sum := by
  induction target with
  | nil => simp
  | cons t rest ih =>
    simp only [List.map_cons, List.sum_cons]
    rw [Finset.sum_add_distrib, ih,
      sum_finset_list_indicator F (fun s : Int => (s, t)) (fun s => x s t) gens]

/-- The counts summed over a set of joint slots `(s, t)`, `t > 0`, that were cleared and
contain every looked-up pair. -/
theorem sum_counts_eq_length (m : Model1 EReal) (source target : Sentence) (F : Finset Key)
    (hpres : ∀ t ∈ target, ∀ s ∈ (0 : Int) :: source,
      ∃ r : ℝ, find m.t_table_ (s, t) = some (r : EReal))
    (hF0 : ∀ k ∈ F, 0 < k.2 ∧ k ∈ keys m.t_table_)
    (hF1 : ∀ t ∈ target, ∀ s ∈ (0 : Int) :: source, (s, t) ∈ F) :
    ∑ k ∈ F, prob (EStep ideal (ClearExpectedCounts ideal m) source target 0).2.expected_counts_ k
      = (target.length : ENNReal) := by
  have hk : ∀ k ∈ F,
      prob (EStep ideal (ClearExpectedCounts ideal m) source target 0).2.expected_counts_ k =
      (target.map (fun t =>
          (((0 : Int) :: source).map (fun s => if (s, t) = k then
            EReal.exp (lookup ideal m.t_table_ s t - wordProb ideal m.t_table_ source t + 0)
            else 0)).sum)).sum := by
    intro k hkF
    obtain ⟨hk2, hkT⟩ := hF0 k hkF
    rw [prob_EStep, prob_ClearExpectedCounts, if_pos (Or.inl hkT), ClearExpectedCounts_t_table]
    have hden : (((0 : Int) :: source).map
        (fun s => if (s, (0 : Int)) = k then EReal.exp 0 else 0)).sum = 0 := by
      apply List.sum_eq_zero
      intro x hx
      obtain ⟨s, _, rfl⟩ := List.mem_map.1 hx
      have : ¬ (s, (0 : Int)) = k := by
        intro e
        rw [← e] at hk2
        exact absurd hk2 (lt_irrefl _)
      rw [if_neg this]
    rw [hden, zero_add, zero_add]
  rw [Finset.sum_congr rfl hk,
    sum_finset_nested_indicator F ((0 : Int) :: source)
      (fun s t => EReal.exp (lookup ideal m.t_table_ s t
        - wordProb ideal m.t_table_ source t + 0)) target]
  have h1 : ∀ t ∈ target,
      (((0 : Int) :: source).map (fun s => if (s, t) ∈ F then
        EReal.exp (lookup ideal m.t_table_ s t - wordProb ideal m.t_table_ source t + 0)
        else 0)).sum = 1 := by
    intro t ht
    rw [← conservation_at m.t_table_ source t (hpres t ht)]
    congr 1
    apply List.map_congr_left
    intro s hs
    rw [if_pos (hF1 t ht s hs)]
  rw [List.map_congr_left h1]
  simp

/-- C5: in exact arithmetic, let the target words be ids `> 0` and let every looked-up
pair `(0, target[j])`, `(source[i], target[j])` be present in `T` with a real value.  Then
for each target position the increments of the generators sum to 1,
`exp (T[0,t] - D) + Σ_i exp (T[source[i],t] - D) = 1` with `D` the `t_prob` of the
position; hence after `ClearExpectedCounts` and one `EStep(source, target, 0)` the sum of
`exp C[s,t]` over the keys `(s, t)`, `t > 0`, of the translation table is the target
length `n`, and so is the sum over the keys `(s, t)`, `t > 0`, of the count table itself
when it held no joint slot outside the keys of `T` before. -/
theorem C5_count_conservation (m : Model1 EReal) (source target : Sentence)
    (hpos : ∀ t ∈ target, 0 < t)
    (hpres : ∀ t ∈ target, ∀ s ∈ (0 : Int) :: source,
      ∃ r : ℝ, find m.t_table_ (s, t) = some (r : EReal)) :
    (∀ t ∈ target,
      EReal.exp (lookup ideal m.t_table_ 0 t - wordProb ideal m.t_table_ source t) +
        (source.map (fun s =>
          EReal.exp (lookup ideal m.t_table_ s t - wordProb ideal m.t_table_ source t))).sum
        = 1) ∧
    (∑ k ∈ (keys m.t_table_).toFinset.filter (fun k => 0 < k.2),
      prob (EStep ideal (ClearExpectedCounts ideal m) source target 0).2.expected_counts_ k
        = (target.length : ENNReal)) ∧
    ((∀ k ∈ keys m.expected_counts_, 0 < k.2 → k ∈ keys m.t_table_) →
      ∑ k ∈ (keys (EStep ideal (ClearExpectedCounts ideal m) source target
          0).2.expected_counts_).toFinset.filter (fun k => 0 < k.2),
        prob (EStep ideal (ClearExpectedCounts ideal m) source target 0).2.expected_counts_ k
          = (target.length : ENNReal)) := by
  have hkeys : ∀ t ∈ target, ∀ s ∈ (0 : Int) :: source, (s, t) ∈ keys m.t_table_ := by
    intro t ht s hs
    obtain ⟨r, hr⟩ := hpres t ht s hs
    exact (mem_keys_iff _ _).2 ⟨_, hr⟩
  refine ⟨?_, ?_, ?_⟩
  · intro t ht
    have h := conservation_at m.t_table_ source t (hpres t ht)
    simpa only [List.map_cons, List.sum_cons, add_zero] using h
  · apply sum_counts_eq_length m source target _ hpres
    · intro k hk
      rw [Finset.mem_filter, List.mem_toFinset] at hk
      exact ⟨hk.2, hk.1⟩
    · intro t ht s hs
      rw [Finset.mem_filter, List.mem_toFinset]
      exact ⟨hkeys t ht s hs, hpos t ht⟩
  · intro hC
    apply sum_counts_eq_length m source target _ hpres
    · intro k hk
      rw [Finset.mem_filter, List.mem_toFinset, mem_keys_EStep,
        mem_keys_ClearExpectedCounts] at hk
      obtain ⟨hmem, hk2⟩ := hk
      refine ⟨hk2, ?_⟩
      rcases hmem with (h | h | ⟨h, _⟩) | ⟨h | h, hg⟩
      · exact hC k h hk2
      · exact h
      · omega
      · omega
      · exact hkeys k.2 h k.1 hg
    · intro t ht s hs
      rw [Finset.mem_filter, List.mem_toFinset, mem_keys_EStep]
      exact ⟨Or.inr ⟨Or.inr ht, hs⟩, hpos t ht⟩

/-- C5 on the scenario table, source `[1]` and target `[1]`. -/
theorem C5_count_conservation_witness :
    ∑ k ∈ (keys (⟨2, 2, [((0, 1), 0), ((1, 1), 0)], []⟩ : Model1 EReal).t_table_).toFinset.filter
        (fun k => 0 < k.2),
      prob (EStep ideal (ClearExpectedCounts ideal
        (⟨2, 2, [((0, 1), 0), ((1, 1), 0)], []⟩ : Model1 EReal)) [1] [1] 0).2.expected_counts_ k
        = (([1] : Sentence).length : ENNReal) :=
  (C5_count_conservation ⟨2, 2, [((0, 1), 0), ((1, 1), 0)], []⟩ [1] [1]
    (by simp)
    (by
      intro t ht s hs
      refine ⟨0, ?_⟩
      simp only [List.mem_singleton] at ht
      simp only [List.mem_cons, List.mem_singleton, List.not_mem_nil, or_false] at hs
      subst ht
      rcases hs with rfl | rfl <;> simp [find])).2.1

/-! ## The E-step pass over a list of sentence pairs -/

theorem sum_map_flatMap {β γ : Type} {M : Type} [AddCommMonoid M] (f : β → List γ)
    (g : γ → M) (l : List β) :
    ((l.flatMap f).map g).sum = (l.map (fun a => ((f a).map g).sum)).sum := by
  induction l with
  | nil => simp
  | cons a rest ih =>
    rw [List.flatMap_cons, List.map_append, List.sum_append, ih, List.map_cons, List.sum_cons]

theorem blocks_cons {α : Type} (p : Sentence × Sentence × α)
    (rest : List (Sentence × Sentence × α)) :
    blocks (p :: rest) = p.2.1.map (fun t => (p, t)) ++ blocks rest := by
  unfold blocks
  rw [List.flatMap_cons]

theorem mem_blocks {α : Type} (pairs : List (Sentence × Sentence × α))
    (b : (Sentence × Sentence × α) × Int) :
    b ∈ blocks pairs ↔ b.1 ∈ pairs ∧ b.2 ∈ b.1.2.1 := by
  unfold blocks
  rw [List.mem_flatMap]
  constructor
  · rintro ⟨p, hp, hb⟩
    obtain ⟨t, ht, rfl⟩ := List.mem_map.1 hb
    exact ⟨hp, ht⟩
  · rintro ⟨h1, h2⟩
    exact ⟨b.1, h1, List.mem_map.2 ⟨b.2, h2, rfl⟩⟩

theorem positions_cons (T : TTable EReal) (p : Sentence × Sentence × EReal)
    (rest : List (Sentence × Sentence × EReal)) :
    positions T (p :: rest) =
      (p.2.1.flatMap (fun t => (generators p.1).map
        (fun g => ((g, t), increment T (p, t) g)))) ++ positions T rest := by
  unfold positions
  rw [blocks_cons, List.flatMap_append, List.flatMap_map]

theorem mem_positions (T : TTable EReal) (pairs : List (Sentence × Sentence × EReal))
    (x : Key × ENNReal) :
    x ∈ positions T pairs ↔
      ∃ b ∈ blocks pairs, ∃ g ∈ generators b.1.1, x = ((g, b.2), increment T b g) := by
  unfold positions
  rw [List.mem_flatMap]
  constructor
  · rintro ⟨b, hb, hx⟩
    obtain ⟨g, hg, rfl⟩ := List.mem_map.1 hx
    exact ⟨b, hb, g, hg, rfl⟩
  · rintro ⟨b, hb, g, hg, rfl⟩
    exact ⟨b, hb, List.mem_map.2 ⟨g, hg, rfl⟩⟩

section PassStructure
variable {α : Type}

theorem foldl_EStep_t_table (A : Arith α) (pairs : List (Sentence × Sentence × α))
    (m0 : Model1 α) :
    (pairs.foldl (fun m p => (EStep A m p.1 p.2.1 p.2.2).2) m0).t_table_ = m0.t_table_ := by
  induction pairs generalizing m0 with
  | nil => rfl
  | cons p rest ih => rw [List.foldl_cons, ih, EStep_t_table]

theorem eStepPass_t_table (A : Arith α) (m : Model1 α)
    (pairs : List (Sentence × Sentence × α)) :
    (eStepPass A m pairs).t_table_ = m.t_table_ := by
  unfold eStepPass
  rw [foldl_EStep_t_table, ClearExpectedCounts_t_table]

theorem keys_foldl_EStep (A : Arith α) (pairs : List (Sentence × Sentence × α))
    (m0 : Model1 α) (k : Key) (h : k ∈ keys m0.expected_counts_) :
    k ∈ keys (pairs.foldl (fun m p => (EStep A m p.1 p.2.1 p.2.2).2) m0).expected_counts_ := by
  induction pairs generalizing m0 with
  | nil => exact h
  | cons p rest ih =>
    rw [List.foldl_cons]
    exact ih _ ((mem_keys_EStep A m0 p.1 p.2.1 p.2.2 k).2 (Or.inl h))

/-- After the E-step pass every key of the translation table is a key of the count
table. -/
theorem keys_subset_eStepPass (A : Arith α) (m : Model1 α)
    (pairs : List (Sentence × Sentence × α)) (k : Key) (h : k ∈ keys m.t_table_) :
    k ∈ keys (eStepPass A m pairs).expected_counts_ := by
  unfold eStepPass
  exact keys_foldl_EStep A pairs _ k
    ((mem_keys_ClearExpectedCounts A m k).2 (Or.inr (Or.inl h)))

end PassStructure

theorem prob_EStep_joint (m : Model1 EReal) (p : Sentence × Sentence × EReal) (k : Key)
    (hk : k.2 ≠ 0) :
    prob (EStep ideal m p.1 p.2.1 p.2.2).2.expected_counts_ k =
      prob m.expected_counts_ k +
        ((p.2.1.flatMap (fun t => (generators p.1).map
          (fun g => ((g, t), increment m.t_table_ (p, t) g)))).map
          (fun x => if x.1 = k then x.2 else 0)).sum := by
  rw [prob_EStep]
  have hden : (((0 : Int) :: p.1).map
      (fun s => if (s, (0 : Int)) = k then EReal.exp p.2.2 else 0)).sum = 0 := by
    apply List.sum_eq_zero
    intro x hx
    obtain ⟨s, _, rfl⟩ := List.mem_map.1 hx
    have : ¬ (s, (0 : Int)) = k := fun e => hk (by rw [← e])
    rw [if_neg this]
  rw [hden, add_zero, sum_map_flatMap]
  congr 2
  apply List.map_congr_left
  intro t _
  rw [List.map_map]
  rfl

/-- The joint counts after `EStep` on every pair: the slot `k = (s, t)`, `t ≠ 0`, gains
the increments of the positions that address it. -/
theorem prob_foldl_EStep_joint (pairs : List (Sentence × Sentence × EReal))
    (m0 : Model1 EReal) (k : Key) (hk : k.2 ≠ 0) :
    prob (pairs.foldl (fun m p => (EStep ideal m p.1 p.2.1 p.2.2).2) m0).expected_counts_ k =
      prob m0.expected_counts_ k +
        ((positions m0.t_table_ pairs).map (fun x => if x.1 = k then x.2 else 0)).sum := by
  induction pairs generalizing m0 with
  | nil => simp [positions, blocks]
  | cons p rest ih =>
    rw [List.foldl_cons, ih, prob_EStep_joint m0 p k hk, EStep_t_table, positions_cons,
      List.map_append, List.sum_append, add_assoc]

theorem prob_le_prob_EStep (m : Model1 EReal) (source target : Sentence) (w : EReal)
    (k : Key) :
    prob m.expected_counts_ k ≤ prob (EStep ideal m source target w).2.expected_counts_ k := by
  rw [prob_EStep, add_assoc]
  exact le_self_add

theorem prob_le_prob_foldl_EStep (pairs : List (Sentence × Sentence × EReal))
    (m0 : Model1 EReal) (k : Key) :
    prob m0.expected_counts_ k ≤
      prob (pairs.foldl (fun m p => (EStep ideal m p.1 p.2.1 p.2.2).2) m0).expected_counts_ k := by
  induction pairs generalizing m0 with
  | nil => exact le_refl _
  | cons p rest ih =>
    rw [List.foldl_cons]
    exact le_trans (prob_le_prob_EStep m0 p.1 p.2.1 p.2.2 k) (ih _)

/-- Every generator of a pair of weight 0 has a denominator of at least 1 after the
pass. -/
theorem one_le_denominator (pairs : List (Sentence × Sentence × EReal))
    (m0 : Model1 EReal) (p : Sentence × Sentence × EReal) (hp : p ∈ pairs)
    (hw : p.2.2 = 0) (g : Int) (hg : g ∈ generators p.1) :
    1 ≤ prob (pairs.foldl (fun m p => (EStep ideal m p.1 p.2.1 p.2.2).2)
      m0).expected_counts_ (g, 0) := by
  induction pairs generalizing m0 with
  | nil => exact absurd hp (List.not_mem_nil _)
  | cons p2 rest ih =>
    rw [List.foldl_cons]
    rcases List.mem_cons.1 hp with h | h
    · subst h
      refine le_trans ?_ (prob_le_prob_foldl_EStep rest _ _)
      rw [prob_EStep, hw, EReal.exp_zero]
      refine le_trans ?_ (le_trans le_add_self le_self_add)
      have hmem : (if (g, (0 : Int)) = (g, (0 : Int)) then (1 : ENNReal) else 0) ∈
          ((0 : Int) :: p.1).map
            (fun s => if (s, (0 : Int)) = (g, (0 : Int)) then (1 : ENNReal) else 0) :=
        List.mem_map.2 ⟨g, hg, rfl⟩
      rw [if_pos rfl] at hmem
      exact List.single_le_sum (fun x _ => zero_le x) _ hmem
    · exact ih _ h

/-! ## Inequalities on sums over lists -/

theorem sum_map_linear_comb (l : List (ℝ × ℝ)) (c1 c2 : ℝ) :
    (l.map (fun x => c1 * x.1 - c2 * x.2)).sum =
      c1 * (l.map Prod.fst).sum - c2 * (l.map Prod.snd).sum := by
  induction l with
  | nil => simp
  | cons x rest ih =>
    simp only [List.map_cons, List.sum_cons, ih]
    ring

/-- For positive reals `a_i`, `b_i`:
`1 - (log (Σ b) - log (Σ a)) ≤ Σ (a_i / Σ a) * (a_i / b_i)`. -/
theorem one_sub_log_ratio_le (l : List (ℝ × ℝ)) (hne : l ≠ [])
    (hpos : ∀ x ∈ l, 0 < x.1 ∧ 0 < x.2) :
    1 - (Real.log (l.map Prod.snd).sum - Real.log (l.map Prod.fst).sum) ≤
      (l.map (fun x => x.1 / (l.map Prod.fst).sum * (x.1 / x.2))).sum := by
  have hSa : 0 < (l.map Prod.fst).sum := by
    apply List.sum_pos
    · intro y hy
      obtain ⟨x, hx, rfl⟩ := List.mem_map.1 hy
      exact (hpos x hx).1
    · simpa using hne
  have hSb : 0 < (l.map Prod.snd).sum := by
    apply List.sum_pos
    · intro y hy
      obtain ⟨x, hx, rfl⟩ := List.mem_map.1 hy
      exact (hpos x hx).2
    · simpa using hne
  set Sa := (l.map Prod.fst).sum with hSa_def
  set Sb := (l.map Prod.snd).sum with hSb_def
  have hlog : 1 - (Real.log Sb - Real.log Sa) ≤ Sa / Sb := by
    have h := Real.one_sub_inv_le_log_of_pos (div_pos hSb hSa)
    rw [Real.log_div hSb.ne' hSa.ne', inv_div] at h
    linarith
  have hterm : ∀ x ∈ l,
      (2 / Sb) * x.1 - (Sa / (Sb * Sb)) * x.2 ≤ x.1 / Sa * (x.1 / x.2) := by
    intro x hx
    obtain ⟨h1, h2⟩ := hpos x hx
    have hsq : 0 ≤ (x.1 * Sb - Sa * x.2) ^ 2 := sq_nonneg _
    rw [← sub_nonneg]
    have e : x.1 / Sa * (x.1 / x.2) - ((2 / Sb) * x.1 - (Sa / (Sb * Sb)) * x.2) =
        (x.1 * Sb - Sa * x.2) ^ 2 / (Sa * x.2 * (Sb * Sb)) := by
      field_simp
      ring
    rw [e]
    positivity
  have hsum := List.sum_le_sum hterm
  rw [sum_map_linear_comb] at hsum
  have e2 : (2 / Sb) * Sa - (Sa / (Sb * Sb)) * Sb = Sa / Sb := by
    field_simp
    ring
  rw [← hSa_def, ← hSb_def, e2] at hsum
  exact le_trans hlog hsum

theorem toReal_list_sum (l : List ENNReal) (h : ∀ x ∈ l, x ≠ ⊤) :
    l.sum.toReal = (l.map ENNReal.toReal).sum := by
  induction l with
  | nil => simp
  | cons x rest ih =>
    have hrest : ∀ y ∈ rest, y ≠ ⊤ := fun y hy => h y (List.mem_cons_of_mem _ hy)
    rw [List.sum_cons, List.map_cons, List.sum_cons,
      ENNReal.toReal_add (h x (List.mem_cons_self _ _)) (list_sum_ne_top rest hrest), ih hrest]

theorem ofReal_list_sum (l : List ℝ) (h : ∀ x ∈ l, 0 ≤ x) :
    ENNReal.ofReal l.sum = (l.map ENNReal.ofReal).sum := by
  induction l with
  | nil => simp
  | cons x rest ih =>
    have hrest : ∀ y ∈ rest, 0 ≤ y := fun y hy => h y (List.mem_cons_of_mem _ hy)
    rw [List.sum_cons, List.map_cons, List.sum_cons,
      ENNReal.ofReal_add (h x (List.mem_cons_self _ _)) (List.sum_nonneg hrest), ih hrest]

theorem sum_le_toReal_sum_ofReal (l : List ℝ) :
    l.sum ≤ ((l.map ENNReal.ofReal).sum).toReal := by
  rw [toReal_list_sum _ (by
    intro x hx
    obtain ⟨y, _, rfl⟩ := List.mem_map.1 hx
    exact ENNReal.ofReal_ne_top), List.map_map]
  have h := List.sum_le_sum (l := l) (f := fun y : ℝ => y)
    (g := ENNReal.toReal ∘ ENNReal.ofReal) (by
      intro y _
      show y ≤ (ENNReal.ofReal y).toReal
      rw [ENNReal.toReal_ofReal']
      exact le_max_left _ _)
  simpa using h

theorem coe_list_sum (l : List ℝ) :
    ((l.sum : ℝ) : EReal) = (l.map (fun x : ℝ => ((x : ℝ) : EReal))).sum := by
  induction l with
  | nil => simp
  | cons x rest ih =>
    rw [List.sum_cons, List.map_cons, List.sum_cons, EReal.coe_add, ih]

/-- Regrouping a sum over positions by slot. -/
theorem sum_mul_regroup {β : Type} (F : Finset Key) (key : β → Key) (q : β → ENNReal)
    (f : Key → ENNReal) (l : List β) (hF : ∀ b ∈ l, key b ∈ F) :
    (l.map (fun b => q b * f (key b))).sum =
      ∑ k ∈ F, (l.map (fun b => if key b = k then q b else 0)).sum * f k := by
  induction l with
  | nil => simp
  | cons b rest ih =>
    have hrest : ∀ b2 ∈ rest, key b2 ∈ F := fun b2 hb => hF b2 (List.mem_cons_of_mem _ hb)
    simp only [List.map_cons, List.sum_cons]
    rw [ih hrest]
    simp only [add_mul]
    rw [Finset.sum_add_distrib]
    congr 1
    have e : ∀ k ∈ F, (if key b = k then q b else 0) * f k =
        if key b = k then q b * f (key b) else 0 := by
      intro k _
      by_cases h : key b = k
      · rw [if_pos h, if_pos h, h]
      · rw [if_neg h, if_neg h, zero_mul]
    rw [Finset.sum_congr rfl e, Finset.sum_ite_eq, if_pos (hF b (List.mem_cons_self _ _))]

/-! ## Counts and the re-estimated table after a pass -/

theorem mem_jointKeys {α : Type} (T : TTable α) (k : Key) :
    k ∈ jointKeys T ↔ k ∈ keys T ∧ 0 < k.2 := by
  unfold jointKeys
  rw [Finset.mem_filter, List.mem_toFinset]

theorem Trainable.mem_keys {T : TTable EReal} {pairs : List (Sentence × Sentence × EReal)}
    (H : Trainable T pairs) (b : (Sentence × Sentence × EReal) × Int) (hb : b ∈ blocks pairs)
    (g : Int) (hg : g ∈ generators b.1.1) : (g, b.2) ∈ jointKeys T := by
  obtain ⟨hp, ht⟩ := (mem_blocks pairs b).1 hb
  obtain ⟨r, hr⟩ := H.present b.1 hp b.2 ht g hg
  exact (mem_jointKeys T _).2 ⟨(mem_keys_iff _ _).2 ⟨_, hr⟩, H.target_pos b.1 hp b.2 ht⟩

theorem Trainable.present_block {T : TTable EReal}
    {pairs : List (Sentence × Sentence × EReal)}
    (H : Trainable T pairs) (b : (Sentence × Sentence × EReal) × Int) (hb : b ∈ blocks pairs) :
    ∀ s ∈ (0 : Int) :: b.1.1, ∃ r : ℝ, find T (s, b.2) = some (r : EReal) := by
  obtain ⟨hp, ht⟩ := (mem_blocks pairs b).1 hb
  exact H.present b.1 hp b.2 ht

theorem Trainable.positions_mem {T : TTable EReal}
    {pairs : List (Sentence × Sentence × EReal)}
    (H : Trainable T pairs) (x : Key × ENNReal) (hx : x ∈ positions T pairs) :
    x.1 ∈ jointKeys T := by
  obtain ⟨b, hb, g, hg, rfl⟩ := (mem_positions T pairs x).1 hx
  exact H.mem_keys b hb g hg

theorem genProbSum_eq (T : TTable EReal) (source : Sentence) (t : Int) :
    genProbSum T source t = (((0 : Int) :: source).map (fun s => prob T (s, t))).sum := rfl

theorem Trainable.genProbSum_ne {T : TTable EReal}
    {pairs : List (Sentence × Sentence × EReal)}
    (H : Trainable T pairs) (b : (Sentence × Sentence × EReal) × Int) (hb : b ∈ blocks pairs) :
    genProbSum T b.1.1 b.2 ≠ 0 ∧ genProbSum T b.1.1 b.2 ≠ ⊤ :=
  sum_prob_pos_finite T b.1.1 b.2 (H.present_block b hb)

theorem Trainable.increment_eq {T : TTable EReal}
    {pairs : List (Sentence × Sentence × EReal)}
    (H : Trainable T pairs) (b : (Sentence × Sentence × EReal) × Int) (hb : b ∈ blocks pairs)
    (g : Int) :
    increment T b g = prob T (g, b.2) * (genProbSum T b.1.1 b.2)⁻¹ := by
  unfold increment
  rw [exp_sub_wordProb, H.weight_zero b.1 ((mem_blocks pairs b).1 hb).1, EReal.exp_zero,
    mul_one]
  rfl

theorem Trainable.prob_pos {T : TTable EReal}
    {pairs : List (Sentence × Sentence × EReal)}
    (H : Trainable T pairs) (b : (Sentence × Sentence × EReal) × Int) (hb : b ∈ blocks pairs)
    (g : Int) (hg : g ∈ generators b.1.1) :
    prob T (g, b.2) ≠ 0 ∧ prob T (g, b.2) ≠ ⊤ := by
  obtain ⟨r, hr⟩ := H.present_block b hb g hg
  rw [prob_of_find_real T _ r hr]
  refine ⟨?_, ENNReal.ofReal_ne_top⟩
  intro h
  rw [ENNReal.ofReal_eq_zero] at h
  exact absurd (Real.exp_pos r) (not_lt.2 h)

theorem Trainable.increment_ne_zero {T : TTable EReal}
    {pairs : List (Sentence × Sentence × EReal)}
    (H : Trainable T pairs) (b : (Sentence × Sentence × EReal) × Int) (hb : b ∈ blocks pairs)
    (g : Int) (hg : g ∈ generators b.1.1) : increment T b g ≠ 0 := by
  rw [H.increment_eq b hb g]
  exact mul_ne_zero (H.prob_pos b hb g hg).1
    (ENNReal.inv_ne_zero.2 (H.genProbSum_ne b hb).2)

theorem Trainable.sum_increment {T : TTable EReal}
    {pairs : List (Sentence × Sentence × EReal)}
    (H : Trainable T pairs) (b : (Sentence × Sentence × EReal) × Int) (hb : b ∈ blocks pairs) :
    ((generators b.1.1).map (fun g => increment T b g)).sum = 1 := by
  have h := conservation_at T b.1.1 b.2 (H.present_block b hb)
  rw [← h]
  unfold increment
  rw [H.weight_zero b.1 ((mem_blocks pairs b).1 hb).1]
  rfl

/-- The joint count of a slot after the pass is the sum of the increments addressed to
it. -/
theorem Trainable.count_eq {m : Model1 EReal} {pairs : List (Sentence × Sentence × EReal)}
    (_H : Trainable m.t_table_ pairs) (k : Key) (hk : k ∈ jointKeys m.t_table_) :
    prob (eStepPass ideal m pairs).expected_counts_ k =
      ((positions m.t_table_ pairs).map (fun x => if x.1 = k then x.2 else 0)).sum := by
  obtain ⟨hkT, hk2⟩ := (mem_jointKeys _ k).1 hk
  unfold eStepPass
  rw [prob_foldl_EStep_joint _ _ k (by omega), prob_ClearExpectedCounts,
    if_pos (Or.inl hkT), zero_add, ClearExpectedCounts_t_table]

/-- Count conservation over a pass: the joint counts sum to the number of target
positions. -/
theorem Trainable.sum_counts {m : Model1 EReal} {pairs : List (Sentence × Sentence × EReal)}
    (H : Trainable m.t_table_ pairs) :
    ∑ k ∈ jointKeys m.t_table_, prob (eStepPass ideal m pairs).expected_counts_ k =
      ((blocks pairs).length : ENNReal) := by
  rw [Finset.sum_congr rfl (fun k hk => H.count_eq k hk),
    sum_finset_list_indicator (jointKeys m.t_table_) (fun x : Key × ENNReal => x.1)
      (fun x => x.2) (positions m.t_table_ pairs)]
  have h1 : ∀ x ∈ positions m.t_table_ pairs,
      (if x.1 ∈ jointKeys m.t_table_ then x.2 else 0) = x.2 :=
    fun x hx => if_pos (H.positions_mem x hx)
  rw [List.map_congr_left h1]
  unfold positions
  rw [sum_map_flatMap]
  have h2 : ∀ b ∈ blocks pairs,
      (((generators b.1.1).map (fun g => ((g, b.2), increment m.t_table_ b g))).map
        (fun x : Key × ENNReal => x.2)).sum = 1 := by
    intro b hb
    rw [List.map_map]
    exact H.sum_increment b hb
  rw [List.map_congr_left h2]
  simp

theorem Trainable.count_ne {m : Model1 EReal} {pairs : List (Sentence × Sentence × EReal)}
    (H : Trainable m.t_table_ pairs) (b : (Sentence × Sentence × EReal) × Int)
    (hb : b ∈ blocks pairs) (g : Int) (hg : g ∈ generators b.1.1) :
    prob (eStepPass ideal m pairs).expected_counts_ (g, b.2) ≠ 0 ∧
    prob (eStepPass ideal m pairs).expected_counts_ (g, b.2) ≠ ⊤ := by
  have hk := H.mem_keys b hb g hg
  constructor
  · rw [H.count_eq _ hk]
    intro h0
    have hmem : ((g, b.2), increment m.t_table_ b g) ∈ positions m.t_table_ pairs :=
      (mem_positions _ _ _).2 ⟨b, hb, g, hg, rfl⟩
    have hle := List.single_le_sum (fun x _ => zero_le x) _
      (List.mem_map.2 ⟨_, hmem, rfl⟩ :
        (if ((g, b.2), increment m.t_table_ b g).1 = (g, b.2) then
          ((g, b.2), increment m.t_table_ b g).2 else 0) ∈
        (positions m.t_table_ pairs).map (fun x => if x.1 = (g, b.2) then x.2 else 0))
    rw [h0, if_pos rfl] at hle
    exact H.increment_ne_zero b hb g hg (le_antisymm hle (zero_le _))
  · intro htop
    have hle := Finset.single_le_sum
      (f := fun k => prob (eStepPass ideal m pairs).expected_counts_ k)
      (fun k _ => zero_le _) hk
    rw [H.sum_counts] at hle
    simp only [htop, top_le_iff] at hle
    exact absurd hle (ENNReal.natCast_ne_top _)

/-- The probability `MStep` leaves under a key of the table after the pass: the joint
count divided by the denominator. -/
theorem prob_emIteration (m : Model1 EReal) (pairs : List (Sentence × Sentence × EReal))
    (k : Key) (hk : k ∈ keys m.t_table_) :
    prob (emIteration ideal m pairs).t_table_ k =
      prob (eStepPass ideal m pairs).expected_counts_ k *
        (prob (eStepPass ideal m pairs).expected_counts_ (k.1, 0))⁻¹ := by
  have hsub : ∀ k2 ∈ keys (eStepPass ideal m pairs).t_table_,
      k2 ∈ keys (eStepPass ideal m pairs).expected_counts_ := by
    intro k2 hk2
    rw [eStepPass_t_table] at hk2
    exact keys_subset_eStepPass ideal m pairs k2 hk2
  have hfind := (mStepLoop_of_keys_subset ideal _ _ hsub).2 k (by
    rw [eStepPass_t_table]; exact hk)
  have e : (emIteration ideal m pairs).t_table_ =
      (mStepLoop ideal (eStepPass ideal m pairs).t_table_
        (eStepPass ideal m pairs).expected_counts_).1 := rfl
  conv_lhs => unfold prob
  rw [e, hfind]
  simp only [ideal_sub]
  rw [sub_eq_add_neg, EReal.exp_add, EReal.exp_neg, exp_lookup, exp_lookup]

/-! ## The total log-likelihood as a sum over target positions -/

theorem ScorePair_ideal_fst (m : Model1 EReal) (source target : Sentence) :
    (ScorePair ideal m source target).1 =
      (target.map (fun t => ENNReal.log (genProbSum m.t_table_ source t)
        + ideal.logInv (target.length : Int))).sum := by
  unfold ScorePair
  simp only
  rw [foldl_add_eq_sum (fun t => ideal.add (wordProb ideal m.t_table_ source t)
    (ideal.logInv (target.length : Int))), ideal_zero, zero_add]
  congr 1
  apply List.map_congr_left
  intro t _
  rw [ideal_add, wordProb_ideal_cons]
  rfl

theorem corpusLogLikelihood_ideal (m : Model1 EReal)
    (pairs : List (Sentence × Sentence × EReal)) :
    corpusLogLikelihood ideal m pairs =
      ((blocks pairs).map (fun b => ENNReal.log (genProbSum m.t_table_ b.1.1 b.2)
        + ideal.logInv (b.1.2.1.length : Int))).sum := by
  unfold corpusLogLikelihood blocks
  rw [foldl_add_eq_sum
    (fun p : Sentence × Sentence × EReal => (ScorePair ideal m p.1 p.2.1).1),
    ideal_zero, zero_add, sum_map_flatMap]
  congr 1
  apply List.map_congr_left
  intro p _
  rw [ScorePair_ideal_fst, List.map_map]
  rfl

/-- When the summed generator probabilities are positive and finite the total
log-likelihood is a real number. -/
theorem corpusLogLikelihood_real (m : Model1 EReal)
    (pairs : List (Sentence × Sentence × EReal))
    (h : ∀ b ∈ blocks pairs, genProbSum m.t_table_ b.1.1 b.2 ≠ 0 ∧
      genProbSum m.t_table_ b.1.1 b.2 ≠ ⊤) :
    corpusLogLikelihood ideal m pairs =
      ((((blocks pairs).map (fun b =>
        Real.log (genProbSum m.t_table_ b.1.1 b.2).toReal
          + Real.log (1 / (((b.1.2.1.length : Int) : ℝ))))).sum : ℝ) : EReal) := by
  rw [corpusLogLikelihood_ideal, coe_list_sum, List.map_map]
  congr 1
  apply List.map_congr_left
  intro b hb
  have hlen : (b.1.2.1.length : Int) ≠ 0 := by
    have := List.length_pos_of_mem ((mem_blocks pairs b).1 hb).2
    omega
  show _ = (((Real.log (genProbSum m.t_table_ b.1.1 b.2).toReal
          + Real.log (1 / (((b.1.2.1.length : Int) : ℝ))) : ℝ)) : EReal)
  rw [ENNReal.log_pos_real (h b hb).1 (h b hb).2, ideal_logInv_of_ne_zero _ hlen,
    EReal.coe_add]

/-! ## The inequality at one target position -/

theorem ofReal_one_sub_log_ratio_le (gens : List Int) (P Q : Int → ENNReal)
    (hne : gens ≠ []) (hP : ∀ g ∈ gens, P g ≠ 0 ∧ P g ≠ ⊤)
    (hQ : ∀ g ∈ gens, Q g ≠ 0 ∧ Q g ≠ ⊤) :
    ENNReal.ofReal (1 - (Real.log ((gens.map Q).sum).toReal
        - Real.log ((gens.map P).sum).toReal)) ≤
      (gens.map (fun g => P g * ((gens.map P).sum)⁻¹ * (P g * (Q g)⁻¹))).sum := by
  have hPtop : ∀ x ∈ gens.map P, x ≠ ⊤ := by
    intro x hx
    obtain ⟨g, hg, rfl⟩ := List.mem_map.1 hx
    exact (hP g hg).2
  have hQtop : ∀ x ∈ gens.map Q, x ≠ ⊤ := by
    intro x hx
    obtain ⟨g, hg, rfl⟩ := List.mem_map.1 hx
    exact (hQ g hg).2
  have hreal := one_sub_log_ratio_le (gens.map (fun g => ((P g).toReal, (Q g).toReal)))
    (by simpa using hne) (by
      intro x hx
      obtain ⟨g, hg, rfl⟩ := List.mem_map.1 hx
      exact ⟨ENNReal.toReal_pos (hP g hg).1 (hP g hg).2,
        ENNReal.toReal_pos (hQ g hg).1 (hQ g hg).2⟩)
  have e1 : ((gens.map (fun g => ((P g).toReal, (Q g).toReal))).map Prod.fst).sum =
      ((gens.map P).sum).toReal := by
    rw [toReal_list_sum _ hPtop, List.map_map, List.map_map]
    rfl
  have e2 : ((gens.map (fun g => ((P g).toReal, (Q g).toReal))).map Prod.snd).sum =
      ((gens.map Q).sum).toReal := by
    rw [toReal_list_sum _ hQtop, List.map_map, List.map_map]
    rfl
  rw [e1, e2, List.map_map] at hreal
  have hSpos : 0 < ((gens.map P).sum).toReal := by
    rw [← e1]
    apply List.sum_pos
    · intro y hy
      rw [List.map_map] at hy
      obtain ⟨g, hg, rfl⟩ := List.mem_map.1 hy
      exact ENNReal.toReal_pos (hP g hg).1 (hP g hg).2
    · simpa using hne
  refine le_trans (ENNReal.ofReal_le_ofReal hreal) ?_
  rw [ofReal_list_sum _ (by
    intro x hx
    obtain ⟨g, hg, rfl⟩ := List.mem_map.1 hx
    exact mul_nonneg (div_nonneg ENNReal.toReal_nonneg ENNReal.toReal_nonneg)
      (div_nonneg ENNReal.toReal_nonneg ENNReal.toReal_nonneg)), List.map_map]
  apply le_of_eq
  congr 1
  apply List.map_congr_left
  intro g hg
  have hQpos : 0 < (Q g).toReal := ENNReal.toReal_pos (hQ g hg).1 (hQ g hg).2
  show ENNReal.ofReal ((P g).toReal / ((gens.map P).sum).toReal *
      ((P g).toReal / (Q g).toReal)) = _
  rw [ENNReal.ofReal_mul (div_nonneg ENNReal.toReal_nonneg ENNReal.toReal_nonneg),
    ENNReal.ofReal_div_of_pos hSpos, ENNReal.ofReal_div_of_pos hQpos,
    ENNReal.ofReal_toReal (hP g hg).2, ENNReal.ofReal_toReal (hQ g hg).2,
    ENNReal.ofReal_toReal (list_sum_ne_top _ hPtop)]
  rfl

/-! ## The bound on the summed ratios -/

theorem Trainable.count_ne_top {m : Model1 EReal}
    {pairs : List (Sentence × Sentence × EReal)}
    (H : Trainable m.t_table_ pairs) (k : Key) (hk : k ∈ jointKeys m.t_table_) :
    prob (eStepPass ideal m pairs).expected_counts_ k ≠ ⊤ := by
  intro htop
  have hle := Finset.single_le_sum
    (f := fun k => prob (eStepPass ideal m pairs).expected_counts_ k)
    (fun k _ => zero_le _) hk
  rw [H.sum_counts] at hle
  simp only [htop, top_le_iff] at hle
  exact absurd hle (ENNReal.natCast_ne_top _)

theorem Trainable.fiber_counts_le {m : Model1 EReal}
    {pairs : List (Sentence × Sentence × EReal)}
    (H : Trainable m.t_table_ pairs) (s : Int) :
    ∑ k ∈ (jointKeys m.t_table_).filter (fun k => k.1 = s),
      prob (eStepPass ideal m pairs).expected_counts_ k ≤ ((blocks pairs).length : ENNReal) := by
  rw [← H.sum_counts]
  exact Finset.sum_le_sum_of_subset (Finset.filter_subset _ _)

theorem Trainable.denominator_ne {m : Model1 EReal}
    {pairs : List (Sentence × Sentence × EReal)}
    (H : Trainable m.t_table_ pairs)
    (hden : ∀ p ∈ pairs, ∀ s ∈ generators p.1,
      prob (eStepPass ideal m pairs).expected_counts_ (s, 0) ≤
        ∑ k ∈ (jointKeys m.t_table_).filter (fun k => k.1 = s),
          prob (eStepPass ideal m pairs).expected_counts_ k)
    (p : Sentence × Sentence × EReal) (hp : p ∈ pairs) (g : Int) (hg : g ∈ generators p.1) :
    prob (eStepPass ideal m pairs).expected_counts_ (g, 0) ≠ 0 ∧
    prob (eStepPass ideal m pairs).expected_counts_ (g, 0) ≠ ⊤ := by
  constructor
  · intro h0
    have h1 := one_le_denominator pairs (ClearExpectedCounts ideal m) p hp
      (H.weight_zero p hp) g hg
    have h2 : prob (eStepPass ideal m pairs).expected_counts_ (g, 0) =
        prob (pairs.foldl (fun m p => (EStep ideal m p.1 p.2.1 p.2.2).2)
          (ClearExpectedCounts ideal m)).expected_counts_ (g, 0) := rfl
    rw [← h2, h0] at h1
    exact absurd h1 (by norm_num)
  · intro htop
    have h1 := le_trans (hden p hp g hg) (H.fiber_counts_le g)
    rw [htop, top_le_iff] at h1
    exact absurd h1 (ENNReal.natCast_ne_top _)

theorem Trainable.new_prob_ne {m : Model1 EReal}
    {pairs : List (Sentence × Sentence × EReal)}
    (H : Trainable m.t_table_ pairs)
    (hden : ∀ p ∈ pairs, ∀ s ∈ generators p.1,
      prob (eStepPass ideal m pairs).expected_counts_ (s, 0) ≤
        ∑ k ∈ (jointKeys m.t_table_).filter (fun k => k.1 = s),
          prob (eStepPass ideal m pairs).expected_counts_ k)
    (b : (Sentence × Sentence × EReal) × Int) (hb : b ∈ blocks pairs)
    (g : Int) (hg : g ∈ generators b.1.1) :
    prob (emIteration ideal m pairs).t_table_ (g, b.2) ≠ 0 ∧
    prob (emIteration ideal m pairs).t_table_ (g, b.2) ≠ ⊤ := by
  have hk := H.mem_keys b hb g hg
  obtain ⟨hc0, hctop⟩ := H.count_ne b hb g hg
  obtain ⟨hN0, hNtop⟩ := H.denominator_ne hden b.1 ((mem_blocks pairs b).1 hb).1 g hg
  rw [prob_emIteration m pairs _ ((mem_jointKeys _ _).1 hk).1]
  exact ⟨mul_ne_zero hc0 (ENNReal.inv_ne_zero.2 hNtop),
    ENNReal.mul_ne_top hctop (ENNReal.inv_ne_top.2 hN0)⟩

theorem Trainable.new_genProbSum_ne {m : Model1 EReal}
    {pairs : List (Sentence × Sentence × EReal)}
    (H : Trainable m.t_table_ pairs)
    (hden : ∀ p ∈ pairs, ∀ s ∈ generators p.1,
      prob (eStepPass ideal m pairs).expected_counts_ (s, 0) ≤
        ∑ k ∈ (jointKeys m.t_table_).filter (fun k => k.1 = s),
          prob (eStepPass ideal m pairs).expected_counts_ k)
    (b : (Sentence × Sentence × EReal) × Int) (hb : b ∈ blocks pairs) :
    genProbSum (emIteration ideal m pairs).t_table_ b.1.1 b.2 ≠ 0 ∧
    genProbSum (emIteration ideal m pairs).t_table_ b.1.1 b.2 ≠ ⊤ := by
  constructor
  · intro h0
    rw [genProbSum_eq, List.map_cons, List.sum_cons] at h0
    exact (H.new_prob_ne hden b hb 0 (List.mem_cons_self _ _)).1 (add_eq_zero.1 h0).1
  · apply list_sum_ne_top
    intro x hx
    obtain ⟨g, hg, rfl⟩ := List.mem_map.1 hx
    exact (H.new_prob_ne hden b hb g hg).2

/-- The summed ratios of old to new probability, weighted by the increments, are at most
the number of target positions, when every row of the table sums to at most 1 and no
denominator exceeds the total of its joint counts. -/
theorem Trainable.sum_ratio_le {m : Model1 EReal}
    {pairs : List (Sentence × Sentence × EReal)}
    (H : Trainable m.t_table_ pairs)
    (hrows : ∀ p ∈ pairs, ∀ s ∈ generators p.1,
      ∑ k ∈ (jointKeys m.t_table_).filter (fun k => k.1 = s), prob m.t_table_ k ≤ 1)
    (hden : ∀ p ∈ pairs, ∀ s ∈ generators p.1,
      prob (eStepPass ideal m pairs).expected_counts_ (s, 0) ≤
        ∑ k ∈ (jointKeys m.t_table_).filter (fun k => k.1 = s),
          prob (eStepPass ideal m pairs).expected_counts_ k) :
    ((blocks pairs).map (fun b => ((generators b.1.1).map (fun g =>
      increment m.t_table_ b g *
        (prob m.t_table_ (g, b.2) *
          (prob (emIteration ideal m pairs).t_table_ (g, b.2))⁻¹))).sum)).sum ≤
      ((blocks pairs).length : ENNReal) := by
  classical
  set J := jointKeys m.t_table_ with hJ
  set c : Key → ENNReal := fun k => prob (eStepPass ideal m pairs).expected_counts_ k with hc
  set N : Int → ENNReal :=
    fun s => prob (eStepPass ideal m pairs).expected_counts_ (s, 0) with hN
  -- the sum over the positions, regrouped by slot
  have h1 : ((blocks pairs).map (fun b => ((generators b.1.1).map (fun g =>
      increment m.t_table_ b g *
        (prob m.t_table_ (g, b.2) *
          (prob (emIteration ideal m pairs).t_table_ (g, b.2))⁻¹))).sum)).sum =
      ∑ k ∈ J, c k * (prob m.t_table_ k * (prob (emIteration ideal m pairs).t_table_ k)⁻¹) := by
    have e := sum_mul_regroup J (fun x : Key × ENNReal => x.1) (fun x => x.2)
      (fun k => prob m.t_table_ k * (prob (emIteration ideal m pairs).t_table_ k)⁻¹)
      (positions m.t_table_ pairs) (fun x hx => H.positions_mem x hx)
    rw [Finset.sum_congr rfl (fun k hk => by rw [← H.count_eq k hk])] at e
    rw [← e]
    unfold positions
    rw [sum_map_flatMap]
    congr 1
    apply List.map_congr_left
    intro b _
    rw [List.map_map]
    rfl
  -- each slot contributes the old probability times the denominator
  have h2 : ∀ k ∈ J, c k * (prob m.t_table_ k *
      (prob (emIteration ideal m pairs).t_table_ k)⁻¹) =
      if c k ≠ 0 then prob m.t_table_ k * N k.1 else 0 := by
    intro k hk
    by_cases h0 : c k = 0
    · rw [if_neg (not_not.2 h0), h0, zero_mul]
    · rw [if_pos h0, prob_emIteration m pairs k ((mem_jointKeys _ _).1 hk).1]
      have htop : c k ≠ ⊤ := H.count_ne_top k hk
      show c k * (prob m.t_table_ k * (c k * (N k.1)⁻¹)⁻¹) = _
      rw [ENNReal.mul_inv (Or.inl h0) (Or.inl htop), inv_inv]
      calc c k * (prob m.t_table_ k * ((c k)⁻¹ * N k.1))
          = (c k * (c k)⁻¹) * (prob m.t_table_ k * N k.1) := by ring
        _ = prob m.t_table_ k * N k.1 := by
            rw [ENNReal.mul_inv_cancel h0 htop, one_mul]
  rw [h1, Finset.sum_congr rfl h2, ← Finset.sum_filter]
  set F0 := J.filter (fun k => c k ≠ 0) with hF0
  -- the slots with a count belong to generators of the pairs
  have hgen : ∀ k ∈ F0, ∃ p ∈ pairs, k.1 ∈ generators p.1 := by
    intro k hk
    obtain ⟨hkJ, hck⟩ := Finset.mem_filter.1 hk
    have hck2 : ((positions m.t_table_ pairs).map
        (fun x => if x.1 = k then x.2 else 0)).sum ≠ 0 := by
      rw [← H.count_eq k hkJ]; exact hck
    by_contra hcon
    apply hck2
    apply List.sum_eq_zero
    intro y hy
    obtain ⟨x, hx, rfl⟩ := List.mem_map.1 hy
    obtain ⟨b, hb, g, hg, rfl⟩ := (mem_positions _ _ _).1 hx
    by_cases hkey : (g, b.2) = k
    · exact absurd ⟨b.1, ((mem_blocks pairs b).1 hb).1, by rw [← hkey]; exact hg⟩ hcon
    · exact if_neg hkey
  -- group by source word and use the bound on the rows
  have h3 : ∑ k ∈ F0, prob m.t_table_ k * N k.1 ≤ ∑ s ∈ F0.image Prod.fst, N s := by
    rw [← Finset.sum_fiberwise_of_maps_to (g := Prod.fst) (t := F0.image Prod.fst)
      (fun k hk => Finset.mem_image_of_mem _ hk)]
    apply Finset.sum_le_sum
    intro s hs
    obtain ⟨k0, hk0, rfl⟩ := Finset.mem_image.1 hs
    obtain ⟨p, hp, hg⟩ := hgen k0 hk0
    have e : ∀ k ∈ F0.filter (fun k => k.1 = k0.1),
        prob m.t_table_ k * N k.1 = prob m.t_table_ k * N k0.1 := by
      intro k hk
      rw [(Finset.mem_filter.1 hk).2]
    rw [Finset.sum_congr rfl e, ← Finset.sum_mul]
    have hsub : F0.filter (fun k => k.1 = k0.1) ⊆ J.filter (fun k => k.1 = k0.1) :=
      Finset.filter_subset_filter _ (Finset.filter_subset _ _)
    calc (∑ k ∈ F0.filter (fun k => k.1 = k0.1), prob m.t_table_ k) * N k0.1
        ≤ 1 * N k0.1 :=
          mul_le_mul_right' (le_trans (Finset.sum_le_sum_of_subset hsub) (hrows p hp _ hg)) _
      _ = N k0.1 := one_mul _
  -- use the bound on the denominators and count conservation
  have h4 : ∑ s ∈ F0.image Prod.fst, N s ≤ ((blocks pairs).length : ENNReal) := by
    have hsub : F0.image Prod.fst ⊆ J.image Prod.fst :=
      Finset.image_subset_image (Finset.filter_subset _ _)
    calc ∑ s ∈ F0.image Prod.fst, N s
        ≤ ∑ s ∈ F0.image Prod.fst, ∑ k ∈ J.filter (fun k => k.1 = s), c k := by
          apply Finset.sum_le_sum
          intro s hs
          obtain ⟨k0, hk0, rfl⟩ := Finset.mem_image.1 hs
          obtain ⟨p, hp, hg⟩ := hgen k0 hk0
          exact hden p hp _ hg
      _ ≤ ∑ s ∈ J.image Prod.fst, ∑ k ∈ J.filter (fun k => k.1 = s), c k :=
          Finset.sum_le_sum_of_subset hsub
      _ = ∑ k ∈ J, c k :=
          Finset.sum_fiberwise_of_maps_to (g := Prod.fst)
            (fun k hk => Finset.mem_image_of_mem _ hk) _
      _ = ((blocks pairs).length : ENNReal) := H.sum_counts
  exact le_trans h3 h4

theorem Trainable.likelihood_le {m : Model1 EReal}
    {pairs : List (Sentence × Sentence × EReal)}
    (H : Trainable m.t_table_ pairs)
    (hrows : ∀ p ∈ pairs, ∀ s ∈ generators p.1,
      ∑ k ∈ (jointKeys m.t_table_).filter (fun k => k.1 = s), prob m.t_table_ k ≤ 1)
    (hden : ∀ p ∈ pairs, ∀ s ∈ generators p.1,
      prob (eStepPass ideal m pairs).expected_counts_ (s, 0) ≤
        ∑ k ∈ (jointKeys m.t_table_).filter (fun k => k.1 = s),
          prob (eStepPass ideal m pairs).expected_counts_ k) :
    corpusLogLikelihood ideal m pairs ≤
      corpusLogLikelihood ideal (emIteration ideal m pairs) pairs := by
  rw [corpusLogLikelihood_real m pairs (fun b hb => H.genProbSum_ne b hb),
    corpusLogLikelihood_real (emIteration ideal m pairs) pairs
      (fun b hb => H.new_genProbSum_ne hden b hb),
    EReal.coe_le_coe_iff]
  -- the differences `1 - (log S' - log S)` sum to at most the number of positions
  have hy : ((blocks pairs).map (fun b =>
      1 - (Real.log (genProbSum (emIteration ideal m pairs).t_table_ b.1.1 b.2).toReal
        - Real.log (genProbSum m.t_table_ b.1.1 b.2).toReal))).sum ≤
      ((blocks pairs).length : ℝ) := by
    refine le_trans (sum_le_toReal_sum_ofReal _) ?_
    rw [List.map_map]
    have hle : ((blocks pairs).map (ENNReal.ofReal ∘ fun b =>
        1 - (Real.log (genProbSum (emIteration ideal m pairs).t_table_ b.1.1 b.2).toReal
          - Real.log (genProbSum m.t_table_ b.1.1 b.2).toReal))).sum ≤
        ((blocks pairs).length : ENNReal) := by
      refine le_trans (List.sum_le_sum ?_) (H.sum_ratio_le hrows hden)
      intro b hb
      have h := ofReal_one_sub_log_ratio_le (generators b.1.1)
        (fun g => prob m.t_table_ (g, b.2))
        (fun g => prob (emIteration ideal m pairs).t_table_ (g, b.2))
        (List.cons_ne_nil _ _) (fun g hg => H.prob_pos b hb g hg)
        (fun g hg => H.new_prob_ne hden b hb g hg)
      refine le_trans h (le_of_eq ?_)
      congr 1
      apply List.map_congr_left
      intro g _
      rw [H.increment_eq b hb g]
      rfl
    have h2 := ENNReal.toReal_mono (ENNReal.natCast_ne_top _) hle
    simpa using h2
  have hsplit : ((blocks pairs).map (fun b =>
        Real.log (genProbSum (emIteration ideal m pairs).t_table_ b.1.1 b.2).toReal
          + Real.log (1 / (((b.1.2.1.length : Int) : ℝ))))).sum +
      ((blocks pairs).map (fun b =>
        1 - (Real.log (genProbSum (emIteration ideal m pairs).t_table_ b.1.1 b.2).toReal
          - Real.log (genProbSum m.t_table_ b.1.1 b.2).toReal))).sum =
      ((blocks pairs).map (fun b =>
        Real.log (genProbSum m.t_table_ b.1.1 b.2).toReal
          + Real.log (1 / (((b.1.2.1.length : Int) : ℝ))))).sum +
      ((blocks pairs).length : ℝ) := by
    have hone : ((blocks pairs).map (fun _ => (1 : ℝ))).sum = ((blocks pairs).length : ℝ) := by
      simp
    rw [← hone, ← List.sum_map_add, ← List.sum_map_add]
    congr 1
    apply List.map_congr_left
    intro b _
    ring
  linarith

theorem jointKeys_single :
    jointKeys ([((0, 1), 0)] : TTable EReal) = {((0 : Int), (1 : Int))} := by
  decide

theorem eStepPass_single :
    (eStepPass ideal (⟨1, 2, [((0, 1), 0)], []⟩ : Model1 EReal)
      [([], [1, 1], 0)]).expected_counts_ =
      [((0, 0), 0), ((0, 1), ((Real.log 2 : ℝ) : EReal))] := by
  simp [-Prod.mk_zero_zero, eStepPass, ClearExpectedCounts, EStep, eStepWord, updateCounts,
    updateDenominators, wordProb, assign, lookup, find, one_add_one_eq_two, log_two_ennreal]

/-! ## C7 -/

theorem exp_neg_log_two : EReal.exp (-((Real.log 2 : ℝ) : EReal)) = 2⁻¹ := by
  rw [EReal.exp_neg, ← log_two_ennreal, ENNReal.exp_log]

theorem likelihood_scenario_before :
    corpusLogLikelihood ideal (⟨2, 2, [((0, 1), 0), ((1, 1), 0)], []⟩ : Model1 EReal)
      [([1], [1], 0)] = ((Real.log 2 : ℝ) : EReal) := by
  simp [-Prod.mk_zero_zero, corpusLogLikelihood, ScorePair, wordProb, lookup, find,
    ideal_logInv_of_ne_zero, one_add_one_eq_two, log_two_ennreal]

theorem likelihood_scenario_after :
    corpusLogLikelihood ideal
      (⟨2, 2, [((0, 1), -((Real.log 2 : ℝ) : EReal)), ((1, 1), -((Real.log 2 : ℝ) : EReal))],
        [((0, 0), 0), ((1, 0), 0), ((0, 1), -((Real.log 2 : ℝ) : EReal)),
          ((1, 1), -((Real.log 2 : ℝ) : EReal))]⟩ : Model1 EReal)
      [([1], [1], 0)] = 0 := by
  simp [-Prod.mk_zero_zero, corpusLogLikelihood, ScorePair, wordProb, lookup, find,
    ideal_logInv_of_ne_zero, exp_neg_log_two, ENNReal.inv_two_add_inv_two]

/-- C7 fails: on the corpus of the concrete scenario (one pair, source `[1]`, target
`[1]`, weight 0, table as `InitDataStructures` leaves it) the total log-likelihood is
`log 2` before the EM iteration and `0` after it. -/
theorem C7_counterexample :
    ¬ (∀ m, InitDataStructures ideal scenarioCorpus new = some m →
        corpusLogLikelihood ideal m [([1], [1], 0)] ≤
          corpusLogLikelihood ideal (emIteration ideal m [([1], [1], 0)]) [([1], [1], 0)]) := by
  intro h
  have h1 := h _ init_scenario
  rw [emIteration_scenario, likelihood_scenario_before, likelihood_scenario_after] at h1
  have h2 : (0 : ℝ) < Real.log 2 := Real.log_pos (by norm_num)
  have h3 : ((Real.log 2 : ℝ) : EReal) ≤ ((0 : ℝ) : EReal) := by simpa using h1
  exact absurd (EReal.coe_le_coe_iff.1 h3) (not_le.2 h2)

/-- C7 (amended): in exact arithmetic, for every model state and every list of sentence
pairs of weight 0 whose target words are ids `> 0` and whose looked-up pairs are all
present in `T` with real values, one EM iteration `ClearExpectedCounts`, `EStep` over
every pair, `MStep` does not decrease the total log-likelihood (the sum of `ScorePair`
over the pairs), provided that for every generator `s` of the pairs (the null word and
the source words) the row of `T` sums to at most 1, `Σ_t exp T[s,t] ≤ 1`, and the
denominator accumulated by the pass is at most the total of the joint counts,
`exp C[s,0] ≤ Σ_t exp C[s,t]`, sums ranging over the keys `(s, t)`, `t > 0`, of `T`. -/
theorem C7_likelihood_monotone_under_bounded_denominators (m : Model1 EReal)
    (pairs : List (Sentence × Sentence × EReal))
    (hw : ∀ p ∈ pairs, p.2.2 = 0)
    (hpos : ∀ p ∈ pairs, ∀ t ∈ p.2.1, 0 < t)
    (hpres : ∀ p ∈ pairs, ∀ t ∈ p.2.1, ∀ g ∈ generators p.1,
      ∃ r : ℝ, find m.t_table_ (g, t) = some (r : EReal))
    (hrows : ∀ p ∈ pairs, ∀ s ∈ generators p.1,
      ∑ k ∈ (jointKeys m.t_table_).filter (fun k => k.1 = s), prob m.t_table_ k ≤ 1)
    (hden : ∀ p ∈ pairs, ∀ s ∈ generators p.1,
      prob (eStepPass ideal m pairs).expected_counts_ (s, 0) ≤
        ∑ k ∈ (jointKeys m.t_table_).filter (fun k => k.1 = s),
          prob (eStepPass ideal m pairs).expected_counts_ k) :
    corpusLogLikelihood ideal m pairs ≤
      corpusLogLikelihood ideal (emIteration ideal m pairs) pairs :=
  Trainable.likelihood_le ⟨hw, hpos, hpres⟩ hrows hden

/-- C7 (amended) on a table with the single entry `T[0,1] = 0` and the pair with an empty
source sentence and the target sentence `[1, 1]`. -/
theorem C7_likelihood_monotone_under_bounded_denominators_witness :
    corpusLogLikelihood ideal (⟨1, 2, [((0, 1), 0)], []⟩ : Model1 EReal) [([], [1, 1], 0)] ≤
      corpusLogLikelihood ideal
        (emIteration ideal (⟨1, 2, [((0, 1), 0)], []⟩ : Model1 EReal) [([], [1, 1], 0)])
        [([], [1, 1], 0)] :=
  C7_likelihood_monotone_under_bounded_denominators ⟨1, 2, [((0, 1), 0)], []⟩
    [([], [1, 1], 0)]
    (by simp)
    (by simp)
    (by
      intro p hp t ht g hg
      simp only [List.mem_singleton] at hp
      subst hp
      simp only [generators, List.mem_singleton] at hg
      simp only [List.mem_cons, List.mem_singleton, List.not_mem_nil, or_false, or_self] at ht
      subst hg ht
      exact ⟨0, by simp [find]⟩)
    (by
      intro p hp s hs
      simp only [List.mem_singleton] at hp
      subst hp
      simp only [generators, List.mem_singleton] at hs
      subst hs
      rw [jointKeys_single]
      simp [Finset.filter_singleton, prob, find])
    (by
      intro p hp s hs
      simp only [List.mem_singleton] at hp
      subst hp
      simp only [generators, List.mem_singleton] at hs
      subst hs
      rw [jointKeys_single, eStepPass_single]
      simp [-Prod.mk_zero_zero, Finset.filter_singleton, prob, find, log_two_ennreal.symm])

/-! ## C11 -/

theorem sum_map_filter_of_zero {β : Type} (f : β → ENNReal) (p : β → Prop)
    [DecidablePred p] (l : List β) (h : ∀ a ∈ l, ¬ p a → f a = 0) :
    ((l.filter (fun a => decide (p a))).map f).sum = (l.map f).sum := by
  induction l with
  | nil => simp
  | cons a rest ih =>
    have hrest : ∀ b ∈ rest, ¬ p b → f b = 0 := fun b hb => h b (List.mem_cons_of_mem _ hb)
    by_cases hp : p a
    · rw [List.filter_cons_of_pos (by simpa using hp), List.map_cons, List.sum_cons,
        List.map_cons, List.sum_cons, ih hrest]
    · rw [List.filter_cons_of_neg (by simpa using hp), List.map_cons, List.sum_cons,
        ih hrest, h a (List.mem_cons_self _ _) hp, zero_add]

theorem prob_of_find_none (T : TTable EReal) (k : Key) (h : find T k = none) :
    prob T k = 0 := by
  unfold prob
  rw [h]

theorem lookup_of_find_none {α : Type} (A : Arith α) (T : TTable α) (s t : Int)
    (h : find T (s, t) = none) : lookup A T s t = A.negMax := by
  unfold lookup
  rw [h]
  rfl

/-- Combining the value of an absent entry with `LogAdd` changes nothing. -/
theorem LogAdd_negMax (x : EReal) : ideal.LogAdd x ideal.negMax = x := by
  simp

theorem negMax_LogAdd (x : EReal) : ideal.LogAdd ideal.negMax x = x := by
  simp

theorem wordProb_append_absent (T : TTable EReal) (l1 l2 : Sentence) (s t : Int)
    (h : find T (s, t) = none) :
    wordProb ideal T (l1 ++ s :: l2) t = wordProb ideal T (l1 ++ l2) t := by
  rw [wordProb_ideal, wordProb_ideal]
  simp only [List.map_append, List.map_cons, List.sum_append, List.sum_cons]
  rw [prob_of_find_none T _ h, zero_add]

theorem wordProb_filter_absent (T : TTable EReal) (source : Sentence) (s t : Int)
    (h : find T (s, t) = none) :
    wordProb ideal T (source.filter (fun x => decide (x ≠ s))) t =
      wordProb ideal T source t := by
  rw [wordProb_ideal, wordProb_ideal,
    sum_map_filter_of_zero (fun x => prob T (x, t)) (fun x => x ≠ s) source]
  intro a _ ha
  have e : a = s := not_not.1 ha
  show prob T (a, t) = 0
  rw [e]
  exact prob_of_find_none T _ h

/-- C11: in exact arithmetic, for every table, a lookup of an absent pair yields the value
of probability 0 and never fails, and a source position whose pair with the target word
is absent from `T` contributes nothing to `t_prob`: the value is that of the source
sentence without this position.  Consequently, when a source word has no entry of `T`
with any word of the target sentence, `ScorePair` returns the same value as for the source
sentence with the occurrences of that word removed. -/
theorem C11_absent_entries_contribute_nothing (m : Model1 EReal) (s : Int) :
    (∀ t : Int, find m.t_table_ (s, t) = none →
      lookup ideal m.t_table_ s t = ⊥ ∧
      EReal.exp (lookup ideal m.t_table_ s t) = 0 ∧
      ∀ l1 l2 : Sentence,
        wordProb ideal m.t_table_ (l1 ++ s :: l2) t = wordProb ideal m.t_table_ (l1 ++ l2) t) ∧
    (∀ source target : Sentence, (∀ t ∈ target, find m.t_table_ (s, t) = none) →
      (ScorePair ideal m source target).1 =
        (ScorePair ideal m (source.filter (fun x => decide (x ≠ s))) target).1) := by
  constructor
  · intro t h
    have h1 : lookup ideal m.t_table_ s t = ⊥ := lookup_of_find_none ideal _ s t h
    refine ⟨h1, ?_, fun l1 l2 => wordProb_append_absent _ l1 l2 s t h⟩
    rw [h1, EReal.exp_bot]
  · intro source target h
    rw [ScorePair_ideal_fst, ScorePair_ideal_fst]
    congr 1
    apply List.map_congr_left
    intro t ht
    have e := wordProb_filter_absent m.t_table_ source s t (h t ht)
    rw [wordProb_ideal_cons, wordProb_ideal_cons] at e
    have e2 := congrArg EReal.exp e
    rw [ENNReal.exp_log, ENNReal.exp_log] at e2
    rw [genProbSum_eq, genProbSum_eq, e2]

/-- C11 on a table without any entry for source word 2: `ScorePair([2, 1, 2], [1])` is
`ScorePair([1], [1])`. -/
theorem C11_absent_entries_contribute_nothing_witness :
    (ScorePair ideal (⟨3, 2, [((0, 1), 0), ((1, 1), 0)], []⟩ : Model1 EReal) [2, 1, 2] [1]).1 =
      (ScorePair ideal (⟨3, 2, [((0, 1), 0), ((1, 1), 0)], []⟩ : Model1 EReal)
        ([2, 1, 2].filter (fun x => decide (x ≠ 2))) [1]).1 :=
  (C11_absent_entries_contribute_nothing ⟨3, 2, [((0, 1), 0), ((1, 1), 0)], []⟩ 2).2
    [2, 1, 2] [1] (by
      intro t ht
      simp only [List.mem_singleton] at ht
      subst ht
      rfl)

/-! ## C12 -/

section Slots
variable {α : Type}

theorem lookupRef_of_mem (d : α) (tb : TTable α) (s t : Int) (h : (s, t) ∈ keys tb) :
    (lookupRef d tb s t).2 = tb := by
  obtain ⟨v, hv⟩ := (mem_keys_iff tb (s, t)).1 h
  unfold lookupRef
  rw [hv]

theorem lookupRef_of_not_mem (d : α) (tb : TTable α) (s t : Int) (h : (s, t) ∉ keys tb) :
    lookupRef d tb s t = (d, assign tb (s, t) d) := by
  have hn := (find_eq_none_iff tb (s, t)).2 h
  unfold lookupRef
  rw [hn]

theorem mem_keys_lookupRef (d : α) (tb : TTable α) (s t : Int) (k : Key) :
    k ∈ keys (lookupRef d tb s t).2 ↔ k ∈ keys tb ∨ k = (s, t) := by
  by_cases h : (s, t) ∈ keys tb
  · rw [lookupRef_of_mem d tb s t h]
    constructor
    · exact Or.inl
    · rintro (h1 | rfl)
      · exact h1
      · exact h
  · rw [lookupRef_of_not_mem d tb s t h, mem_keys_assign]
    exact or_comm

theorem touchAll_cons (d : α) (tb : TTable α) (k : Key) (ks : List Key) :
    touchAll d tb (k :: ks) = touchAll d (lookupRef d tb k.1 k.2).2 ks := rfl

theorem touchAll_append (d : α) (tb : TTable α) (ks ks2 : List Key) :
    touchAll d tb (ks ++ ks2) = touchAll d (touchAll d tb ks) ks2 := by
  unfold touchAll
  rw [List.foldl_append]

theorem mem_keys_touchAll (d : α) (tb : TTable α) (ks : List Key) (k : Key) :
    k ∈ keys (touchAll d tb ks) ↔ k ∈ keys tb ∨ k ∈ ks := by
  induction ks generalizing tb with
  | nil => simp [touchAll]
  | cons k0 rest ih =>
    rw [touchAll_cons, ih, mem_keys_lookupRef, List.mem_cons]
    constructor
    · rintro ((h | h) | h)
      · exact Or.inl h
      · exact Or.inr (Or.inl h)
      · exact Or.inr (Or.inr h)
    · rintro (h | h | h)
      · exact Or.inl (Or.inl h)
      · exact Or.inl (Or.inr h)
      · exact Or.inr h

theorem touchAll_of_subset (d : α) (tb : TTable α) (ks : List Key)
    (h : ∀ k ∈ ks, k ∈ keys tb) : touchAll d tb ks = tb := by
  induction ks with
  | nil => rfl
  | cons k0 rest ih =>
    rw [touchAll_cons, lookupRef_of_mem d tb k0.1 k0.2 (h k0 (List.mem_cons_self _ _))]
    exact ih (fun k hk => h k (List.mem_cons_of_mem _ hk))

theorem wordProbRef_snd_aux (A : Arith α) (d : α) (source : Sentence) (t : Int)
    (st : α × TTable α) :
    (source.foldl
      (fun st s => (A.LogAdd st.1 (lookupRef d st.2 s t).1, (lookupRef d st.2 s t).2))
      st).2 = touchAll d st.2 (source.map (fun s => (s, t))) := by
  induction source generalizing st with
  | nil => rfl
  | cons s rest ih =>
    rw [List.foldl_cons, ih, List.map_cons, touchAll_cons]

/-- The pairs that `EStep` looks up in `t_table_` for the target word `t`, in the order
of lines 100-104. -/
theorem wordProbRef_snd (A : Arith α) (d : α) (T : TTable α) (source : Sentence) (t : Int) :
    (wordProbRef A d T source t).2 =
      touchAll d T ((generators source).map (fun s => (s, t))) := by
  unfold wordProbRef generators
  rw [wordProbRef_snd_aux, List.map_cons, touchAll_cons]

theorem foldl_updateCountRef_fst (A : Arith α) (d : α) (t : Int) (t_prob weight : α)
    (source : Sentence) (st : TTable α × TTable α) :
    (source.foldl (updateCountRef A d t t_prob weight) st).1 =
      touchAll d st.1 (source.map (fun s => (s, t))) := by
  induction source generalizing st with
  | nil => rfl
  | cons s rest ih =>
    rw [List.foldl_cons, ih, List.map_cons, touchAll_cons]
    rfl

/-- The pairs that one round of the loop of `EStep` looks up in `t_table_`. -/
theorem eStepWordRef_table (A : Arith α) (d : α) (source : Sentence)
    (alignment_prob weight : α) (st : α × TTable α × TTable α) (t : Int) :
    (eStepWordRef A d source alignment_prob weight st t).2.1 =
      touchAll d st.2.1 ((generators source).map (fun s => (s, t))) := by
  unfold eStepWordRef
  simp only
  rw [foldl_updateCountRef_fst]
  have hsub : ∀ k ∈ ((0 : Int) :: source).map (fun s => (s, t)),
      k ∈ keys (wordProbRef A d st.2.1 source t).2 := by
    intro k hk
    rw [wordProbRef_snd, mem_keys_touchAll]
    exact Or.inr hk
  have h := touchAll_of_subset d (wordProbRef A d st.2.1 source t).2 _ hsub
  rw [List.map_cons, touchAll_cons] at h
  show touchAll d (lookupRef d (wordProbRef A d st.2.1 source t).2 0 t).2 _ = _
  rw [h, wordProbRef_snd]

theorem foldl_eStepWordRef_table (A : Arith α) (d : α) (source : Sentence)
    (alignment_prob weight : α) (target : Sentence) (st : α × TTable α × TTable α) :
    (target.foldl (eStepWordRef A d source alignment_prob weight) st).2.1 =
      touchAll d st.2.1
        (target.flatMap (fun t => (generators source).map (fun s => (s, t)))) := by
  induction target generalizing st with
  | nil => rfl
  | cons t rest ih =>
    rw [List.foldl_cons, ih, eStepWordRef_table, List.flatMap_cons, touchAll_append]

/-- The translation table after `EStep`: every looked-up pair has a slot. -/
theorem EStepRef_t_table (A : Arith α) (d : α) (m : Model1 α) (source target : Sentence)
    (weight : α) :
    (EStepRef A d m source target weight).2.t_table_ =
      touchAll d m.t_table_
        (target.flatMap (fun t => (generators source).map (fun s => (s, t)))) := by
  unfold EStepRef
  exact foldl_eStepWordRef_table A d source _ weight target _

end Slots

section Projection
variable {α : Type}

theorem assign_assign (tb : TTable α) (k : Key) (v v2 : α) :
    assign (assign tb k v) k v2 = assign tb k v2 := by
  induction tb with
  | nil => simp [assign]
  | cons e rest ih =>
    obtain ⟨k0, v0⟩ := e
    by_cases h0 : k0 = k
    · simp [assign, h0]
    · simp [assign, h0, ih]

theorem assign_lookupRef (d : α) (tb : TTable α) (s t : Int) (v : α) :
    assign (lookupRef d tb s t).2 (s, t) v = assign tb (s, t) v := by
  by_cases h : (s, t) ∈ keys tb
  · rw [lookupRef_of_mem d tb s t h]
  · rw [lookupRef_of_not_mem d tb s t h, assign_assign]

theorem lookupRef_fst (A : Arith α) (tb : TTable α) (s t : Int) :
    (lookupRef A.negMax tb s t).1 = lookup A tb s t := by
  unfold lookupRef lookup
  cases find tb (s, t) <;> rfl

theorem lookup_lookupRef (A : Arith α) (tb : TTable α) (s t s2 t2 : Int) :
    lookup A (lookupRef A.negMax tb s t).2 s2 t2 = lookup A tb s2 t2 := by
  by_cases h : (s, t) ∈ keys tb
  · rw [lookupRef_of_mem _ tb s t h]
  · rw [lookupRef_of_not_mem _ tb s t h]
    unfold lookup
    rw [find_assign]
    by_cases e : (s, t) = (s2, t2)
    · rw [if_pos e, ← e, (find_eq_none_iff tb (s, t)).2 h]
      rfl
    · rw [if_neg e]

theorem updateDenominatorsRef_eq (A : Arith α) (C : TTable α) (source : Sentence)
    (weight : α) :
    updateDenominatorsRef A A.negMax C source weight =
      updateDenominators A C source weight := by
  unfold updateDenominatorsRef updateDenominators
  simp only [assign_lookupRef, lookupRef_fst]

theorem wordProbRef_fst_aux (A : Arith α) (T : TTable α) (t : Int) (source : Sentence)
    (st : α × TTable α) (hT : ∀ s2 t2, lookup A st.2 s2 t2 = lookup A T s2 t2) :
    (source.foldl
      (fun st s =>
        (A.LogAdd st.1 (lookupRef A.negMax st.2 s t).1, (lookupRef A.negMax st.2 s t).2))
      st).1 = source.foldl (fun t_prob s => A.LogAdd t_prob (lookup A T s t)) st.1 := by
  induction source generalizing st with
  | nil => rfl
  | cons s rest ih =>
    rw [List.foldl_cons, List.foldl_cons, ih]
    · simp only [lookupRef_fst, hT]
    · intro s2 t2
      simp only [lookup_lookupRef, hT]

theorem lookup_touchAll (A : Arith α) (tb : TTable α) (ks : List Key) (s2 t2 : Int) :
    lookup A (touchAll A.negMax tb ks) s2 t2 = lookup A tb s2 t2 := by
  induction ks generalizing tb with
  | nil => rfl
  | cons k rest ih => rw [touchAll_cons, ih, lookup_lookupRef]

theorem wordProbRef_fst (A : Arith α) (T T2 : TTable α) (source : Sentence) (t : Int)
    (hT : ∀ s2 t2, lookup A T2 s2 t2 = lookup A T s2 t2) :
    (wordProbRef A A.negMax T2 source t).1 = wordProb A T source t := by
  unfold wordProbRef wordProb
  rw [wordProbRef_fst_aux A T t source _ (by
    intro s2 t2
    rw [lookup_lookupRef, hT]), lookupRef_fst, hT]

theorem foldl_updateCountRef_snd (A : Arith α) (T : TTable α) (t : Int)
    (t_prob weight : α) (source : Sentence) (st : TTable α × TTable α)
    (hT : ∀ s2 t2, lookup A st.1 s2 t2 = lookup A T s2 t2) :
    (source.foldl (updateCountRef A A.negMax t t_prob weight) st).2 =
      source.foldl
        (fun C s => assign C (s, t)
          (A.LogAdd (lookup A C s t) (A.add (A.sub (lookup A T s t) t_prob) weight)))
        st.2 := by
  induction source generalizing st with
  | nil => rfl
  | cons s rest ih =>
    rw [List.foldl_cons, List.foldl_cons, ih]
    · unfold updateCountRef
      simp only [assign_lookupRef, lookupRef_fst, hT]
    · intro s2 t2
      unfold updateCountRef
      simp only [lookup_lookupRef, hT]

/-- One round of the loop: with created slots holding the sentinel, the result and the
count table are those of `eStepWord`, and every read of the translation table yields
what it yielded before. -/
theorem eStepWordRef_eq (A : Arith α) (T : TTable α) (source : Sentence)
    (alignment_prob weight : α) (st : α × TTable α × TTable α) (t : Int)
    (hT : ∀ s2 t2, lookup A st.2.1 s2 t2 = lookup A T s2 t2) :
    ((eStepWordRef A A.negMax source alignment_prob weight st t).1,
      (eStepWordRef A A.negMax source alignment_prob weight st t).2.2) =
        eStepWord A T source alignment_prob weight (st.1, st.2.2) t ∧
    ∀ s2 t2, lookup A (eStepWordRef A A.negMax source alignment_prob weight st t).2.1 s2 t2 =
      lookup A T s2 t2 := by
  constructor
  · unfold eStepWordRef eStepWord
    simp only
    rw [wordProbRef_fst A T st.2.1 source t hT, updateCounts_eq_foldl, List.foldl_cons,
      foldl_updateCountRef_snd A T]
    · unfold updateCountRef
      simp only [assign_lookupRef, lookupRef_fst]
      rw [show lookup A (wordProbRef A A.negMax st.2.1 source t).2 0 t = lookup A T 0 t from by
        rw [wordProbRef_snd, lookup_touchAll, hT]]
    · intro s2 t2
      unfold updateCountRef
      simp only [lookup_lookupRef]
      rw [wordProbRef_snd, lookup_touchAll, hT]
  · intro s2 t2
    rw [eStepWordRef_table, lookup_touchAll, hT]

theorem foldl_eStepWordRef_eq (A : Arith α) (T : TTable α) (source : Sentence)
    (alignment_prob weight : α) (target : Sentence) (st : α × TTable α × TTable α)
    (hT : ∀ s2 t2, lookup A st.2.1 s2 t2 = lookup A T s2 t2) :
    ((target.foldl (eStepWordRef A A.negMax source alignment_prob weight) st).1,
      (target.foldl (eStepWordRef A A.negMax source alignment_prob weight) st).2.2) =
        target.foldl (eStepWord A T source alignment_prob weight) (st.1, st.2.2) := by
  induction target generalizing st with
  | nil => rfl
  | cons t rest ih =>
    rw [List.foldl_cons, List.foldl_cons,
      ih _ (eStepWordRef_eq A T source alignment_prob weight st t hT).2,
      (eStepWordRef_eq A T source alignment_prob weight st t hT).1]

/-- With created slots holding the sentinel, `EStep` is `EStepRef` without the created
slots of the translation table: the same returned value and the same count table, and
every read of the translation table after the call yields what it yielded before. -/
theorem EStepRef_eq_EStep (A : Arith α) (m : Model1 α) (source target : Sentence)
    (weight : α) :
    (EStepRef A A.negMax m source target weight).1 = (EStep A m source target weight).1 ∧
    (EStepRef A A.negMax m source target weight).2.expected_counts_ =
      (EStep A m source target weight).2.expected_counts_ ∧
    ∀ s t, lookup A (EStepRef A A.negMax m source target weight).2.t_table_ s t =
      lookup A m.t_table_ s t := by
  have h := foldl_eStepWordRef_eq A m.t_table_ source (A.logInv (target.length : Int))
    weight target
    (A.zero, m.t_table_, updateDenominatorsRef A A.negMax m.expected_counts_ source weight)
    (fun _ _ => rfl)
  refine ⟨?_, ?_, ?_⟩
  · rw [show (EStep A m source target weight).1 =
        (target.foldl (eStepWord A m.t_table_ source (A.logInv (target.length : Int)) weight)
          (A.zero, updateDenominators A m.expected_counts_ source weight)).1 from rfl,
      ← updateDenominatorsRef_eq]
    exact congrArg Prod.fst h
  · rw [show (EStep A m source target weight).2.expected_counts_ =
        (target.foldl (eStepWord A m.t_table_ source (A.logInv (target.length : Int)) weight)
          (A.zero, updateDenominators A m.expected_counts_ source weight)).2 from rfl,
      ← updateDenominatorsRef_eq]
    exact congrArg Prod.snd h
  · intro s t
    rw [EStepRef_t_table, lookup_touchAll]

end Projection

theorem keys_after_init_clear {α : Type} (A : Arith α) (pc : ParallelCorpus)
    (m2 : Model1 α) (h : InitDataStructures A pc new = some m2) (k : Key) :
    k ∈ keys (ClearExpectedCounts A m2).expected_counts_ ↔
      k ∈ keys m2.t_table_ ∨
        (k.2 = 0 ∧ 0 ≤ k.1 ∧ k.1 < (pc.source_vocab_size : Int)) := by
  obtain ⟨tps, _, rfl⟩ := InitDataStructures_eq_some A pc new m2 h
  rw [mem_keys_ClearExpectedCounts]
  show k ∈ keys ([] : TTable α) ∨ _ ↔ _
  simp [keys]

/-- C15 fails: on the corpus in which source word 2 co-occurs with no target word, the
table `T` has no entry for source word 2, yet `ClearExpectedCounts` creates its
denominator slot `(2, 0)`. -/
theorem C15_counterexample :
    ¬ (∀ m2, InitDataStructures symArith sparseCorpus new = some m2 →
        ∀ k : Key, k ∈ keys (ClearExpectedCounts symArith m2).expected_counts_ ↔
          (k ∈ keys m2.t_table_ ∨ k = (0, 0) ∨
            (k.2 = 0 ∧ ∃ t : Int, (k.1, t) ∈ keys m2.t_table_))) := by
  intro h
  have h1 := (h ⟨3, 2, [((0, 1), Sym.logInv 1), ((1, 1), Sym.logInv 1)], []⟩ rfl (2, 0)).1
    (by decide)
  rcases h1 with h2 | h2 | ⟨_, t, h2⟩
  · exact absurd h2 (by decide)
  · exact absurd h2 (by decide)
  · simp only [keys, List.map_cons, List.map_nil, List.mem_cons, Prod.mk.injEq,
      List.not_mem_nil, or_false] at h2
    omega

/-- C15 (amended): in every arithmetic, on a model freshly initialised from a corpus whose
source ids index into the source vocabulary, the keys of the count table after
`ClearExpectedCounts` are exactly the keys of `T` together with the denominator slot
`(s, 0)` of every id `0 ≤ s < source_vocab_size`, whether or not `s` has an entry in
`T`. -/
theorem C15_keys_after_clear {α : Type} (A : Arith α) (pc : ParallelCorpus)
    (h : sourceIdsInRange pc) :
    ∃ m2, InitDataStructures A pc new = some m2 ∧
      ∀ k : Key, k ∈ keys (ClearExpectedCounts A m2).expected_counts_ ↔
        k ∈ keys m2.t_table_ ∨
          (k.2 = 0 ∧ 0 ≤ k.1 ∧ k.1 < (pc.source_vocab_size : Int)) := by
  obtain ⟨m2, h2⟩ := InitDataStructures_defined A pc new h
  exact ⟨m2, h2, keys_after_init_clear A pc m2 h2⟩

/-- C15 (amended) on the corpus in which source word 2 co-occurs with no target word. -/
theorem C15_keys_after_clear_witness :
    ∃ m2, InitDataStructures symArith sparseCorpus new = some m2 ∧
      ∀ k : Key, k ∈ keys (ClearExpectedCounts symArith m2).expected_counts_ ↔
        k ∈ keys m2.t_table_ ∨
          (k.2 = 0 ∧ 0 ≤ k.1 ∧ k.1 < (sparseCorpus.source_vocab_size : Int)) :=
  C15_keys_after_clear symArith sparseCorpus (by decide)

/-! ## C19 -/

section Lookups
variable {α : Type}

theorem keys_MStep (A : Arith α) (m : Model1 α) : keys (MStep A m).t_table_ = keys m.t_table_ :=
  keys_mStepLoop A m.t_table_ m.expected_counts_

theorem keys_iterate_MStep (A : Arith α) (n : Nat) (m : Model1 α) :
    keys ((MStep A)^[n] m).t_table_ = keys m.t_table_ := by
  induction n with
  | zero => rfl
  | succ n ih => rw [Function.iterate_succ_apply', keys_MStep, ih]

theorem keys_emIteration (A : Arith α) (m : Model1 α)
    (pairs : List (Sentence × Sentence × α)) :
    keys (emIteration A m pairs).t_table_ = keys m.t_table_ := by
  unfold emIteration
  rw [keys_MStep, eStepPass_t_table]

theorem keys_iterate_emIteration (A : Arith α) (pairs : List (Sentence × Sentence × α))
    (n : Nat) (m : Model1 α) :
    keys ((fun m => emIteration A m pairs)^[n] m).t_table_ = keys m.t_table_ := by
  induction n with
  | zero => rfl
  | succ n ih => rw [Function.iterate_succ_apply', keys_emIteration, ih]

/-- After `InitDataStructures` the null word is paired with every real target word, and
every source word with each of its reachable targets. -/
theorem mem_keys_init (A : Arith α) (pc : ParallelCorpus) (m m2 : Model1 α)
    (h : sourceIdsInRange pc) (h2 : InitDataStructures A pc m = some m2) :
    (∀ t : Int, 1 ≤ t → t < (pc.target_vocab_size : Int) → (0, t) ∈ keys m2.t_table_) ∧
    (∀ s t : Int, 1 ≤ s → reach pc s t → (s, t) ∈ keys m2.t_table_) := by
  constructor
  · intro t h1 h3
    exact (mem_keys_iff _ _).2 ⟨_, find_null_row A pc m m2 h2 t h1 h3⟩
  · intro s t hs hr
    obtain ⟨tps, htps, _, _, hmem⟩ := targetsPerSource_spec pc h
    obtain ⟨tps2, htps2, rfl⟩ := InitDataStructures_eq_some A pc m m2 h2
    rw [htps] at htps2
    obtain rfl := Option.some.inj htps2
    have hin : s < (pc.source_vocab_size : Int) := by
      obtain ⟨d, hd, ⟨sent, hsent, hmem2⟩, _⟩ := hr
      exact (h d hd sent hsent s hmem2).2
    have hs2 : ((s.toNat : Nat) : Int) = s := by omega
    have hrow : t ∈ tps.getD s.toNat [] := by
      rw [hmem, hs2]; exact hr
    refine (mem_keys_iff _ _).2 ⟨A.logInv ((tps.getD s.toNat []).length : Int), ?_⟩
    show find (initRows A pc.source_vocab_size tps _) (s, t) = _
    rw [find_initRows, if_pos ⟨⟨hs, hin⟩, hrow⟩]

end Lookups

/-- C19: in every arithmetic, for every corpus whose source ids satisfy
`1 ≤ id < source_vocab_size` and whose target ids satisfy `1 ≤ id < target_vocab_size`,
`InitDataStructures` is defined and, for every source sentence and target sentence of the
same document pair, the pairs `(0, target[j])` and `(source[i], target[j])` that
`ScorePair` and `EStep` look up are keys of the translation table; they remain keys after
any number of `MStep` calls and after any number of EM iterations over any sentence
pairs. -/
theorem C19_training_lookups_hit {α : Type} (A : Arith α) (pc : ParallelCorpus)
    (m : Model1 α)
    (hs : ∀ d ∈ pc.docs, ∀ sent ∈ d.1, ∀ s ∈ sent, 1 ≤ s ∧ s < (pc.source_vocab_size : Int))
    (ht : ∀ d ∈ pc.docs, ∀ sent ∈ d.2, ∀ t ∈ sent, 1 ≤ t ∧ t < (pc.target_vocab_size : Int)) :
    ∃ m2, InitDataStructures A pc m = some m2 ∧
      ∀ d ∈ pc.docs, ∀ source ∈ d.1, ∀ target ∈ d.2, ∀ t ∈ target,
        ∀ (n : Nat) (pairs : List (Sentence × Sentence × α)),
          ((0, t) ∈ keys ((MStep A)^[n] m2).t_table_ ∧
            ∀ s ∈ source, (s, t) ∈ keys ((MStep A)^[n] m2).t_table_) ∧
          ((0, t) ∈ keys ((fun m => emIteration A m pairs)^[n] m2).t_table_ ∧
            ∀ s ∈ source, (s, t) ∈ keys ((fun m => emIteration A m pairs)^[n] m2).t_table_) := by
  have hwf : sourceIdsInRange pc := by
    intro d hd sent hsent s hmem
    have := hs d hd sent hsent s hmem
    exact ⟨by omega, this.2⟩
  obtain ⟨m2, h2⟩ := InitDataStructures_defined A pc m hwf
  obtain ⟨hnull, hrow⟩ := mem_keys_init A pc m m2 hwf h2
  refine ⟨m2, h2, ?_⟩
  intro d hd source hsource target htarget t htmem n pairs
  have h0 : (0, t) ∈ keys m2.t_table_ :=
    hnull t (ht d hd target htarget t htmem).1 (ht d hd target htarget t htmem).2
  have h1 : ∀ s ∈ source, (s, t) ∈ keys m2.t_table_ := by
    intro s hsmem
    exact hrow s t (hs d hd source hsource s hsmem).1
      ⟨d, hd, ⟨source, hsource, hsmem⟩, ⟨target, htarget, htmem⟩⟩
  rw [keys_iterate_MStep, keys_iterate_emIteration]
  exact ⟨⟨h0, h1⟩, ⟨h0, h1⟩⟩

/-- C19 on the corpus of two document pairs. -/
theorem C19_training_lookups_hit_witness :
    ∃ m2, InitDataStructures symArith exampleCorpus new = some m2 ∧
      ∀ d ∈ exampleCorpus.docs, ∀ source ∈ d.1, ∀ target ∈ d.2, ∀ t ∈ target,
        ∀ (n : Nat) (pairs : List (Sentence × Sentence × Sym)),
          ((0, t) ∈ keys ((MStep symArith)^[n] m2).t_table_ ∧
            ∀ s ∈ source, (s, t) ∈ keys ((MStep symArith)^[n] m2).t_table_) ∧
          ((0, t) ∈ keys ((fun m => emIteration symArith m pairs)^[n] m2).t_table_ ∧
            ∀ s ∈ source,
              (s, t) ∈ keys ((fun m => emIteration symArith m pairs)^[n] m2).t_table_) :=
  C19_training_lookups_hit symArith exampleCorpus new (by decide) (by decide)

/-! ## C16 -/

theorem find_clear_denominator {α : Type} (A : Arith α) (m : Model1 α) (s : Int)
    (h0 : 0 ≤ s) (h1 : s < (m.source_vocab_size_ : Int)) :
    find (ClearExpectedCounts A m).expected_counts_ (s, 0) = some A.negMax := by
  rw [find_ClearExpectedCounts, if_pos (Or.inr ⟨rfl, h0, h1⟩)]

theorem find_clear_key {α : Type} (A : Arith α) (m : Model1 α) (k : Key)
    (h : k ∈ keys m.t_table_) :
    find (ClearExpectedCounts A m).expected_counts_ k = some A.negMax := by
  rw [find_ClearExpectedCounts, if_pos (Or.inl h)]

/-- C16 fails: the value `ClearExpectedCounts` stores is the double
`-numeric_limits<double>::max()`, the finite number `-(2 ^ 1024 - 2 ^ 971)`, not `-∞`:
with the sentinel at its numeric value the slots `(0,0)` and `(1,1)` of the scenario
table hold a real number. -/
theorem C16_counterexample :
    ¬ (∀ k ∈ [((0 : Int), (0 : Int)), (1, 1)],
        find (ClearExpectedCounts finiteSentinel
          (⟨2, 2, [((0, 1), 0), ((1, 1), 0)], []⟩ : Model1 EReal)).expected_counts_ k
          = some ⊥) := by
  intro h
  have h1 := h (0, 0) (by simp)
  rw [find_clear_denominator finiteSentinel _ 0 (by decide) (by decide)] at h1
  exact absurd (Option.some.inj h1) (EReal.coe_ne_bot _)

/-- C16 (amended): in every arithmetic, after `ClearExpectedCounts` the denominator slot
`(s, 0)` of every id `0 ≤ s < source_vocab_size_` and the slot of every key of `T` hold
the sentinel `-numeric_limits<double>::max()`, the finite double that stands for `log 0`;
in exact arithmetic with the sentinel read as `log 0 = -∞`, combining any `x` into such a
slot with `LogAdd` leaves exactly `x` there. -/
theorem C16_clear_stores_sentinel {α : Type} (A : Arith α) (m : Model1 α)
    (mi : Model1 EReal) :
    (∀ s : Int, 0 ≤ s → s < (m.source_vocab_size_ : Int) →
      find (ClearExpectedCounts A m).expected_counts_ (s, 0) = some A.negMax) ∧
    (∀ k ∈ keys m.t_table_,
      find (ClearExpectedCounts A m).expected_counts_ k = some A.negMax) ∧
    (∀ (k : Key) (x : EReal),
      (k ∈ keys mi.t_table_ ∨ (k.2 = 0 ∧ 0 ≤ k.1 ∧ k.1 < (mi.source_vocab_size_ : Int))) →
      ideal.LogAdd (lookup ideal (ClearExpectedCounts ideal mi).expected_counts_ k.1 k.2) x
        = x) := by
  refine ⟨find_clear_denominator A m, find_clear_key A m, ?_⟩
  intro k x hk
  have h : lookup ideal (ClearExpectedCounts ideal mi).expected_counts_ k.1 k.2 = ⊥ := by
    unfold lookup
    rw [find_ClearExpectedCounts, if_pos hk]
    rfl
  rw [h]
  simp

/-- C16 (amended) on the scenario table. -/
theorem C16_clear_stores_sentinel_witness :
    find (ClearExpectedCounts symArith
        ⟨2, 2, [((0, 1), Sym.logInv 1), ((1, 1), Sym.logInv 1)],
          [((1, 0), Sym.zero)]⟩).expected_counts_ (1, 0) = some Sym.negMax :=
  (C16_clear_stores_sentinel symArith
    ⟨2, 2, [((0, 1), Sym.logInv 1), ((1, 1), Sym.logInv 1)], [((1, 0), Sym.zero)]⟩
    new).1 1 (by decide) (by decide)

/-! ## Slots that a call of `EStep` leaves alone -/

theorem find_foldl_assign_of_not_mem {α β : Type} (key : β → Key)
    (val : TTable α → β → α) (l : List β) (C : TTable α) (k : Key)
    (h : k ∉ l.map key) :
    find (l.foldl (fun C b => assign C (key b) (val C b)) C) k = find C k := by
  induction l generalizing C with
  | nil => rfl
  | cons b rest ih =>
    rw [List.map_cons, List.mem_cons, not_or] at h
    rw [List.foldl_cons, ih _ h.2, find_assign_of_ne]
    exact fun e => h.1 e.symm

theorem find_updateDenominators_of_not_mem {α : Type} (A : Arith α) (C : TTable α)
    (source : Sentence) (w : α) (k : Key)
    (h : k.2 ≠ 0 ∨ k.1 ∉ generators source) :
    find (updateDenominators A C source w) k = find C k := by
  rw [updateDenominators_eq_foldl]
  apply find_foldl_assign_of_not_mem (fun s : Int => (s, (0 : Int)))
    (fun C s => A.LogAdd (lookup A C s 0) w)
  intro hmem
  obtain ⟨g, hg, rfl⟩ := List.mem_map.1 hmem
  rcases h with h | h
  · exact h rfl
  · exact h hg

theorem find_updateCounts_of_not_mem {α : Type} (A : Arith α) (T : TTable α)
    (source : Sentence) (t : Int) (D w : α) (C : TTable α) (k : Key)
    (h : k.2 ≠ t ∨ k.1 ∉ generators source) :
    find (updateCounts A T source t D w C) k = find C k := by
  rw [updateCounts_eq_foldl]
  apply find_foldl_assign_of_not_mem (fun s : Int => (s, t))
    (fun C s => A.LogAdd (lookup A C s t) (A.add (A.sub (lookup A T s t) D) w))
  intro hmem
  obtain ⟨g, hg, rfl⟩ := List.mem_map.1 hmem
  rcases h with h | h
  · exact h rfl
  · exact h hg

theorem find_foldl_updateCounts_of_not_mem {α : Type} (A : Arith α) (T : TTable α)
    (source : Sentence) (w : α) (target : Sentence) (C : TTable α) (k : Key)
    (h : k.2 ∉ target ∨ k.1 ∉ generators source) :
    find (target.foldl
      (fun C t => updateCounts A T source t (wordProb A T source t) w C) C) k = find C k := by
  induction target generalizing C with
  | nil => rfl
  | cons t rest ih =>
    have h1 : k.2 ∉ rest ∨ k.1 ∉ generators source := by
      rcases h with h | h
      · exact Or.inl (fun hm => h (List.mem_cons_of_mem _ hm))
      · exact Or.inr h
    have h2 : k.2 ≠ t ∨ k.1 ∉ generators source := by
      rcases h with h | h
      · exact Or.inl (fun e => h (e ▸ List.mem_cons_self _ _))
      · exact Or.inr h
    rw [List.foldl_cons, ih _ h1, find_updateCounts_of_not_mem A T source t _ w C k h2]

/-- A call of `EStep` leaves the entry of every slot other than the denominators and the
joint slots of its generators as it is. -/
theorem find_EStep_of_not_touched {α : Type} (A : Arith α) (m : Model1 α)
    (source target : Sentence) (w : α) (k : Key)
    (h : k.1 ∉ generators source ∨ (k.2 ≠ 0 ∧ k.2 ∉ target)) :
    find (EStep A m source target w).2.expected_counts_ k = find m.expected_counts_ k := by
  rw [EStep_expected_counts, find_foldl_updateCounts_of_not_mem, 
    find_updateDenominators_of_not_mem]
  · rcases h with h | h
    · exact Or.inr h
    · exact Or.inl h.1
  · rcases h with h | h
    · exact Or.inr h
    · exact Or.inl h.2

/-! ## The increments of one `EStep` call, slot by slot -/

theorem sum_indicator_eq_count (l : List Int) (s : Int) (x : ENNReal) :
    (l.map (fun g => if g = s then x else 0)).sum = (l.count s : ENNReal) * x := by
  induction l with
  | nil => simp
  | cons a rest ih =>
    rw [List.map_cons, List.sum_cons, ih, List.count_cons]
    by_cases h : a = s
    · rw [if_pos h]
      have hb : (a == s) = true := by simpa using h
      rw [if_pos hb]
      push_cast
      ring
    · rw [if_neg h]
      have hb : ¬ ((a == s) = true) := by simpa using h
      rw [if_neg hb, zero_add, add_zero]

theorem sum_map_ite_eq_filter {β : Type} (p : β → Prop) [DecidablePred p]
    (f : β → ENNReal) (l : List β) :
    (l.map (fun a => if p a then f a else 0)).sum =
      ((l.filter (fun a => decide (p a))).map f).sum := by
  induction l with
  | nil => simp
  | cons a rest ih =>
    by_cases hp : p a
    · rw [List.filter_cons_of_pos (by simpa using hp), List.map_cons, List.sum_cons,
        List.map_cons, List.sum_cons, ih, if_pos hp]
    · rw [List.filter_cons_of_neg (by simpa using hp), List.map_cons, List.sum_cons, ih,
        if_neg hp, zero_add]

/-- The denominator slot `(s, 0)` gains `exp weight` for every occurrence of `s` among the
generators, when no target word is the id 0. -/
theorem prob_EStep_denominator (m : Model1 EReal) (source target : Sentence) (w : EReal)
    (ht : ∀ t ∈ target, t ≠ 0) (s : Int) :
    prob (EStep ideal m source target w).2.expected_counts_ (s, 0) =
      prob m.expected_counts_ (s, 0) +
        ((generators source).count s : ENNReal) * EReal.exp w := by
  rw [prob_EStep]
  have hjoint : (target.map (fun t =>
      (((0 : Int) :: source).map (fun g => if (g, t) = (s, (0 : Int)) then
        EReal.exp (lookup ideal m.t_table_ g t - wordProb ideal m.t_table_ source t + w)
        else 0)).sum)).sum = 0 := by
    apply List.sum_eq_zero
    intro x hx
    obtain ⟨t, htm, rfl⟩ := List.mem_map.1 hx
    apply List.sum_eq_zero
    intro y hy
    obtain ⟨g, _, rfl⟩ := List.mem_map.1 hy
    have : ¬ (g, t) = (s, (0 : Int)) := fun e => ht t htm (Prod.mk.inj e).2
    rw [if_neg this]
  rw [hjoint, add_zero]
  congr 1
  rw [← sum_indicator_eq_count]
  congr 1
  apply List.map_congr_left
  intro g _
  by_cases h : g = s
  · rw [if_pos h, if_pos (by rw [h])]
  · rw [if_neg h, if_neg (fun e => h (Prod.mk.inj e).1)]

/-- The joint slot `(s, t)`, `t ≠ 0`, gains, for every target position holding `t`, the
increment `exp (T[s,t] - t_prob + weight)` once for every occurrence of `s` among the
generators. -/
theorem prob_EStep_joint_slot (m : Model1 EReal) (source target : Sentence) (w : EReal)
    (s t : Int) (ht : t ≠ 0) :
    prob (EStep ideal m source target w).2.expected_counts_ (s, t) =
      prob m.expected_counts_ (s, t) +
        ((generators source).count s : ENNReal) *
          ((target.filter (fun tj => decide (tj = t))).map (fun tj =>
            EReal.exp (lookup ideal m.t_table_ s t
              - wordProb ideal m.t_table_ source tj + w))).sum := by
  rw [prob_EStep]
  have hden : (((0 : Int) :: source).map
      (fun g => if (g, (0 : Int)) = (s, t) then EReal.exp w else 0)).sum = 0 := by
    apply List.sum_eq_zero
    intro x hx
    obtain ⟨g, _, rfl⟩ := List.mem_map.1 hx
    have : ¬ (g, (0 : Int)) = (s, t) := fun e => ht (Prod.mk.inj e).2.symm
    rw [if_neg this]
  rw [hden, add_zero]
  congr 1
  rw [← List.sum_map_mul_left, ← sum_map_ite_eq_filter (fun tj => tj = t)]
  congr 1
  apply List.map_congr_left
  intro tj _
  by_cases h : tj = t
  · rw [if_pos h, ← sum_indicator_eq_count]
    congr 1
    apply List.map_congr_left
    intro g _
    by_cases hg : g = s
    · rw [if_pos hg, if_pos (by rw [hg, h]), hg, h]
    · rw [if_neg hg, if_neg (fun e => hg (Prod.mk.inj e).1)]
  · rw [if_neg h]
    apply List.sum_eq_zero
    intro y hy
    obtain ⟨g, _, rfl⟩ := List.mem_map.1 hy
    rw [if_neg (fun e => h (Prod.mk.inj e).2)]

theorem count_generators_zero (source : Sentence) (hs : ∀ s ∈ source, 1 ≤ s) :
    (generators source).count 0 = 1 := by
  unfold generators
  rw [List.count_cons_self, List.count_eq_zero.2]
  intro h
  exact absurd (hs 0 h) (by decide)

theorem count_generators_of_ne (source : Sentence) (s : Int) (h : s ≠ 0) :
    (generators source).count s = source.count s := by
  unfold generators
  rw [List.count_cons_of_ne h]

theorem lookup_eq_log_prob (C : TTable EReal) (s t : Int) :
    lookup ideal C s t = ENNReal.log (prob C (s, t)) := by
  rw [← exp_lookup, EReal.log_exp]

theorem log_natCast (k : Nat) (hk : 0 < k) :
    ENNReal.log (k : ENNReal) = ((Real.log (k : ℝ) : ℝ) : EReal) := by
  have h : ENNReal.log (ENNReal.ofReal (k : ℝ)) = ((Real.log (k : ℝ) : ℝ) : EReal) :=
    ENNReal.log_ofReal_of_pos (by exact_mod_cast hk)
  rwa [ENNReal.ofReal_natCast] at h

/-! ## C17 -/

/-- C17: in exact arithmetic, for every model state, every source sentence with word ids
`≥ 1`, every target sentence without the id 0 and every weight `w`, one `EStep` call adds
`exp w` once to `exp C[0,0]`, adds `k * exp w` to `exp C[s,0]` for every source word `s`
occurring `k` times in the source sentence, and leaves the entry `C[s',0]` of every other
source word as it is; after a preceding `ClearExpectedCounts`, on a model whose source
vocabulary contains the ids involved, this gives `C[0,0] = w` and
`C[s,0] = log k + w`. -/
theorem C17_EStep_denominators (m : Model1 EReal) (source target : Sentence) (w : EReal)
    (hs : ∀ s ∈ source, 1 ≤ s) (ht : ∀ t ∈ target, t ≠ 0) :
    prob (EStep ideal m source target w).2.expected_counts_ (0, 0) =
      prob m.expected_counts_ (0, 0) + EReal.exp w ∧
    (∀ s : Int, s ≠ 0 →
      prob (EStep ideal m source target w).2.expected_counts_ (s, 0) =
        prob m.expected_counts_ (s, 0) + (source.count s : ENNReal) * EReal.exp w) ∧
    (∀ s : Int, s ≠ 0 → s ∉ source →
      find (EStep ideal m source target w).2.expected_counts_ (s, 0) =
        find m.expected_counts_ (s, 0)) ∧
    (0 < m.source_vocab_size_ →
      lookup ideal (EStep ideal (ClearExpectedCounts ideal m) source target
        w).2.expected_counts_ 0 0 = w) ∧
    (∀ s ∈ source, s < (m.source_vocab_size_ : Int) →
      lookup ideal (EStep ideal (ClearExpectedCounts ideal m) source target
        w).2.expected_counts_ s 0 = ((Real.log (source.count s : ℝ) : ℝ) : EReal) + w) := by
  refine ⟨?_, ?_, ?_, ?_, ?_⟩
  · rw [prob_EStep_denominator m source target w ht 0, count_generators_zero source hs]
    simp
  · intro s hs0
    rw [prob_EStep_denominator m source target w ht s, count_generators_of_ne source s hs0]
  · intro s hs0 hmem
    apply find_EStep_of_not_touched
    left
    unfold generators
    simp only [List.mem_cons, not_or]
    exact ⟨hs0, hmem⟩
  · intro hvoc
    rw [lookup_eq_log_prob, prob_EStep_denominator _ source target w ht 0,
      count_generators_zero source hs, prob_ClearExpectedCounts,
      if_pos (Or.inr ⟨rfl, le_refl _, by
        show (0 : Int) < (m.source_vocab_size_ : Int)
        exact_mod_cast hvoc⟩)]
    simp
  · intro s hmem hvoc
    have hs1 := hs s hmem
    have hs0 : s ≠ 0 := by omega
    rw [lookup_eq_log_prob, prob_EStep_denominator _ source target w ht s,
      count_generators_of_ne source s hs0, prob_ClearExpectedCounts,
      if_pos (Or.inr ⟨rfl, by omega, hvoc⟩), zero_add, ENNReal.log_mul_add,
      log_natCast _ (List.count_pos_iff.2 hmem), EReal.log_exp]

/-- C17 on the scenario table, source `[1, 1]`, target `[1]` and weight 0. -/
theorem C17_EStep_denominators_witness :
    lookup ideal (EStep ideal (ClearExpectedCounts ideal
        (⟨2, 2, [((0, 1), 0), ((1, 1), 0)], []⟩ : Model1 EReal)) [1, 1] [1]
        0).2.expected_counts_ 1 0 =
      ((Real.log (([1, 1] : Sentence).count 1 : ℝ) : ℝ) : EReal) + 0 :=
  (C17_EStep_denominators ⟨2, 2, [((0, 1), 0), ((1, 1), 0)], []⟩ [1, 1] [1] 0
    (by decide) (by decide)).2.2.2.2 1 (by decide) (by decide)

/-! ## C18 -/

/-- C18: in exact arithmetic, for every source sentence with word ids `≥ 1`, every target
sentence, every weight `w` and every table `T` that holds every looked-up pair
`(0, target[j])`, `(source[i], target[j])` with a real value, the `t_prob` `D_j` of every
target position is a real number, and for every target id `t ≠ 0` one `EStep` call
increases `exp C[0,t]` by the sum over the target positions `j` with `target[j] = t` of
`exp (T[0,t] - D_j + w)`, increases `exp C[s,t]` for `s ≥ 1` by the number of occurrences
of `s` in the source sentence times the sum over those positions of
`exp (T[s,t] - D_j + w)`, and leaves the entry of every other slot `(s, t)` as it is. -/
theorem C18_EStep_joint_counts (m : Model1 EReal) (source target : Sentence) (w : EReal)
    (hs : ∀ s ∈ source, 1 ≤ s)
    (hpres : ∀ tj ∈ target, ∀ s ∈ (0 : Int) :: source,
      ∃ r : ℝ, find m.t_table_ (s, tj) = some (r : EReal))
    (t : Int) (ht : t ≠ 0) :
    (∀ tj ∈ target, ∃ D : ℝ, wordProb ideal m.t_table_ source tj = (D : EReal)) ∧
    prob (EStep ideal m source target w).2.expected_counts_ (0, t) =
      prob m.expected_counts_ (0, t) +
        ((target.filter (fun tj => decide (tj = t))).map (fun tj =>
          EReal.exp (lookup ideal m.t_table_ 0 t
            - wordProb ideal m.t_table_ source tj + w))).sum ∧
    (∀ s : Int, 1 ≤ s →
      prob (EStep ideal m source target w).2.expected_counts_ (s, t) =
        prob m.expected_counts_ (s, t) +
          (source.count s : ENNReal) *
            ((target.filter (fun tj => decide (tj = t))).map (fun tj =>
              EReal.exp (lookup ideal m.t_table_ s t
                - wordProb ideal m.t_table_ source tj + w))).sum) ∧
    (∀ s : Int, (t ∉ target ∨ (s ≠ 0 ∧ s ∉ source)) →
      find (EStep ideal m source target w).2.expected_counts_ (s, t) =
        find m.expected_counts_ (s, t)) := by
  refine ⟨?_, ?_, ?_, ?_⟩
  · intro tj htj
    obtain ⟨h0, htop⟩ := sum_prob_pos_finite m.t_table_ source tj (hpres tj htj)
    exact ⟨_, by rw [wordProb_ideal_cons, ENNReal.log_pos_real h0 htop]⟩
  · rw [prob_EStep_joint_slot m source target w 0 t ht, count_generators_zero source hs]
    simp
  · intro s hs1
    rw [prob_EStep_joint_slot m source target w s t ht,
      count_generators_of_ne source s (by omega)]
  · intro s h
    apply find_EStep_of_not_touched
    rcases h with h | ⟨h0, h1⟩
    · exact Or.inr ⟨ht, h⟩
    · left
      unfold generators
      simp only [List.mem_cons, not_or]
      exact ⟨h0, h1⟩

/-- C18 on the scenario table, source `[1, 1]`, target `[1, 1]` and weight 0. -/
theorem C18_EStep_joint_counts_witness :
    prob (EStep ideal (⟨2, 2, [((0, 1), 0), ((1, 1), 0)], []⟩ : Model1 EReal) [1, 1] [1, 1]
        0).2.expected_counts_ (1, 1) =
      prob (⟨2, 2, [((0, 1), 0), ((1, 1), 0)], []⟩ : Model1 EReal).expected_counts_ (1, 1) +
        (([1, 1] : Sentence).count 1 : ENNReal) *
          ((([1, 1] : Sentence).filter (fun tj => decide (tj = 1))).map (fun tj =>
            EReal.exp (lookup ideal
              (⟨2, 2, [((0, 1), 0), ((1, 1), 0)], []⟩ : Model1 EReal).t_table_ 1 1
              - wordProb ideal (⟨2, 2, [((0, 1), 0), ((1, 1), 0)], []⟩ : Model1 EReal).t_table_
                  [1, 1] tj + 0))).sum :=
  (C18_EStep_joint_counts ⟨2, 2, [((0, 1), 0), ((1, 1), 0)], []⟩ [1, 1] [1, 1] 0
    (by decide)
    (by
      intro tj htj s hs
      refine ⟨0, ?_⟩
      simp only [List.mem_cons, List.mem_singleton, List.not_mem_nil, or_false,
        or_self] at htj hs
      subst htj
      rcases hs with rfl | rfl <;> simp [find])
    1 (by decide)).2.2.1 1 (by decide)

/-! ## C14 -/

/-- The denominator slot `(s, 0)` after `EStep` on every pair: it gains `exp weight` for
every occurrence of `s` among the generators of every pair, when no target word is the
id 0. -/
theorem prob_foldl_EStep_denominator (pairs : List (Sentence × Sentence × EReal))
    (m0 : Model1 EReal) (ht : ∀ p ∈ pairs, ∀ t ∈ p.2.1, t ≠ 0) (s : Int) :
    prob (pairs.foldl (fun m p => (EStep ideal m p.1 p.2.1 p.2.2).2) m0).expected_counts_
        (s, 0) =
      prob m0.expected_counts_ (s, 0) +
        (pairs.map (fun p =>
          ((generators p.1).count s : ENNReal) * EReal.exp p.2.2)).sum := by
  induction pairs generalizing m0 with
  | nil => simp
  | cons p rest ih =>
    rw [List.foldl_cons, ih _ (fun q hq => ht q (List.mem_cons_of_mem _ hq)),
      prob_EStep_denominator m0 p.1 p.2.1 p.2.2 (ht p (List.mem_cons_self _ _)) s,
      List.map_cons, List.sum_cons, add_assoc]

theorem eStepPass_scenario :
    (eStepPass ideal (⟨2, 2, [((0, 1), 0), ((1, 1), 0)], []⟩ : Model1 EReal)
      [([1], [1], 0)]).expected_counts_ =
      [((0, 0), 0), ((1, 0), 0), ((0, 1), -((Real.log 2 : ℝ) : EReal)),
        ((1, 1), -((Real.log 2 : ℝ) : EReal))] := by
  unfold eStepPass
  rw [clear_scenario, List.foldl_cons, List.foldl_nil, estep_scenario]

/-- C14 fails: on the scenario, after `ClearExpectedCounts` and `EStep([1], [1], 0)` the
denominator of source word 1 is `exp C[1,0] = 1`, while its only joint count is
`exp C[1,1] = 1/2`. -/
theorem C14_counterexample :
    ¬ (∀ s : Int,
        prob (eStepPass ideal (⟨2, 2, [((0, 1), 0), ((1, 1), 0)], []⟩ : Model1 EReal)
          [([1], [1], 0)]).expected_counts_ (s, 0) =
        ∑ k ∈ (keys (eStepPass ideal (⟨2, 2, [((0, 1), 0), ((1, 1), 0)], []⟩ : Model1 EReal)
            [([1], [1], 0)]).expected_counts_).toFinset.filter (fun k => k.1 = s ∧ 0 < k.2),
          prob (eStepPass ideal (⟨2, 2, [((0, 1), 0), ((1, 1), 0)], []⟩ : Model1 EReal)
            [([1], [1], 0)]).expected_counts_ k) := by
  intro h
  have h1 := h 1
  rw [eStepPass_scenario] at h1
  have hF : (keys ([((0, 0), 0), ((1, 0), 0), ((0, 1), -((Real.log 2 : ℝ) : EReal)),
      ((1, 1), -((Real.log 2 : ℝ) : EReal))] : TTable EReal)).toFinset.filter
        (fun k => k.1 = 1 ∧ 0 < k.2) = {((1 : Int), (1 : Int))} := by
    decide
  rw [hF, Finset.sum_singleton] at h1
  have e1 : prob ([((0, 0), 0), ((1, 0), 0), ((0, 1), -((Real.log 2 : ℝ) : EReal)),
      ((1, 1), -((Real.log 2 : ℝ) : EReal))] : TTable EReal) (1, 0) = 1 := by
    simp [-Prod.mk_zero_zero, -Prod.mk_one_one, prob, find]
  have e2 : prob ([((0, 0), 0), ((1, 0), 0), ((0, 1), -((Real.log 2 : ℝ) : EReal)),
      ((1, 1), -((Real.log 2 : ℝ) : EReal))] : TTable EReal) (1, 1) = 2⁻¹ := by
    simp [-Prod.mk_zero_zero, -Prod.mk_one_one, prob, find, exp_neg_log_two]
  rw [e1, e2] at h1
  have h2 : (2 : ENNReal)⁻¹ < 1 := ENNReal.inv_lt_one.2 (by norm_num)
  rw [← h1] at h2
  exact absurd h2 (lt_irrefl _)

/-- C14 (amended): in exact arithmetic, after `ClearExpectedCounts` followed by `EStep`
on any sentence pairs whose target words are not the id 0, the denominator slot
`C[s,0]` of every id `0 ≤ s < source_vocab_size_` holds the total weight of the
occurrences of `s` as a generator (for the null word, once per pair):
`exp C[s,0] = Σ_pairs (occurrences of s in 0 :: source) * exp weight`. -/
theorem C14_denominator_is_occurrence_weight (m : Model1 EReal)
    (pairs : List (Sentence × Sentence × EReal))
    (ht : ∀ p ∈ pairs, ∀ t ∈ p.2.1, t ≠ 0) (s : Int) (h0 : 0 ≤ s)
    (h1 : s < (m.source_vocab_size_ : Int)) :
    prob (eStepPass ideal m pairs).expected_counts_ (s, 0) =
      (pairs.map (fun p =>
        ((generators p.1).count s : ENNReal) * EReal.exp p.2.2)).sum := by
  unfold eStepPass
  rw [prob_foldl_EStep_denominator pairs _ ht s, prob_ClearExpectedCounts,
    if_pos (Or.inr ⟨rfl, h0, h1⟩), zero_add]

/-- C14 (amended) on the scenario. -/
theorem C14_denominator_is_occurrence_weight_witness :
    prob (eStepPass ideal (⟨2, 2, [((0, 1), 0), ((1, 1), 0)], []⟩ : Model1 EReal)
        [([1], [1], 0)]).expected_counts_ (1, 0) =
      (([([1], [1], 0)] : List (Sentence × Sentence × EReal)).map (fun p =>
        ((generators p.1).count 1 : ENNReal) * EReal.exp p.2.2)).sum :=
  C14_denominator_is_occurrence_weight ⟨2, 2, [((0, 1), 0), ((1, 1), 0)], []⟩
    [([1], [1], 0)] (by simp) 1 (by decide) (by decide)

/-! ## C13 -/

theorem ideal_logInv_nonpos (n : Int) (h : 1 ≤ n) : ideal.logInv n ≤ 0 := by
  rw [ideal_logInv_of_ne_zero n (by omega)]
  have h1 : (1 : ℝ) ≤ (n : ℝ) := by exact_mod_cast h
  have h2 : Real.log (1 / (n : ℝ)) ≤ 0 :=
    Real.log_nonpos (by positivity) (by rw [div_le_one (by linarith)]; exact h1)
  exact_mod_cast h2

/-- Every value `InitDataStructures` stores in a new model is at most 0. -/
theorem init_values_nonpos (pc : ParallelCorpus) (m2 : Model1 EReal)
    (h : InitDataStructures ideal pc new = some m2) (k : Key) (v : EReal)
    (hv : find m2.t_table_ k = some v) : v ≤ 0 := by
  obtain ⟨tps, _, rfl⟩ := InitDataStructures_eq_some ideal pc new m2 h
  have hv2 : find (initRows ideal pc.source_vocab_size tps
      (initNull ideal pc.target_vocab_size ([] : TTable EReal))) k = some v := hv
  rw [find_initRows] at hv2
  by_cases hrow : (1 ≤ k.1 ∧ k.1 < (pc.source_vocab_size : Int)) ∧
      k.2 ∈ tps.getD k.1.toNat []
  · rw [if_pos hrow] at hv2
    rw [← Option.some.inj hv2]
    apply ideal_logInv_nonpos
    have := List.length_pos_of_mem hrow.2
    omega
  · rw [if_neg hrow, find_initNull] at hv2
    by_cases hnull : k.1 = 0 ∧ 1 ≤ k.2 ∧ k.2 < (pc.target_vocab_size : Int)
    · rw [if_pos hnull] at hv2
      rw [← Option.some.inj hv2]
      apply ideal_logInv_nonpos
      omega
    · rw [if_neg hnull] at hv2
      exact absurd hv2 (by simp [find])

theorem dens_eq_count (source : Sentence) (s : Int) (x : ENNReal) :
    (((0 : Int) :: source).map (fun g => if (g, (0 : Int)) = (s, (0 : Int)) then x else 0)).sum
      = ((generators source).count s : ENNReal) * x := by
  rw [← sum_indicator_eq_count]
  congr 1
  apply List.map_congr_left
  intro g _
  by_cases h : g = s
  · rw [if_pos h, if_pos (by rw [h])]
  · rw [if_neg h, if_neg (fun e => h (Prod.mk.inj e).1)]

theorem prob_EStep_denominator_ge (m : Model1 EReal) (source target : Sentence) (w : EReal)
    (s : Int) :
    prob m.expected_counts_ (s, 0) + ((generators source).count s : ENNReal) * EReal.exp w ≤
      prob (EStep ideal m source target w).2.expected_counts_ (s, 0) := by
  rw [prob_EStep, dens_eq_count]
  exact le_self_add

/-- An increment is at most `exp weight`: a generator gets at most the whole unit count
of a target position. -/
theorem exp_increment_le (T : TTable EReal) (source : Sentence) (s t : Int) (w : EReal)
    (hs : s ∈ generators source) :
    EReal.exp (lookup ideal T s t - wordProb ideal T source t + w) ≤ EReal.exp w := by
  rw [exp_sub_wordProb]
  have hle : prob T (s, t) ≤ (((0 : Int) :: source).map (fun g => prob T (g, t))).sum :=
    List.single_le_sum (fun x _ => zero_le x) _ (List.mem_map.2 ⟨s, hs, rfl⟩)
  calc prob T (s, t) * ((((0 : Int) :: source).map (fun g => prob T (g, t))).sum)⁻¹
        * EReal.exp w
      ≤ 1 * EReal.exp w :=
        mul_le_mul_right' (le_trans (mul_le_mul_right' hle _) (ENNReal.mul_inv_le_one _)) _
    _ = EReal.exp w := one_mul _

theorem sum_le_of_length_le_one (l : List ENNReal) (c : ENNReal) (hlen : l.length ≤ 1)
    (h : ∀ x ∈ l, x ≤ c) : l.sum ≤ c := by
  match l, hlen, h with
  | [], _, _ => simp
  | [x], _, h => simpa using h x (List.mem_singleton_self x)
  | _ :: _ :: _, hlen, _ => simp at hlen

/-- One `EStep` call on a target sentence without repeated word keeps every joint count
at most its denominator. -/
theorem joint_le_denominator_step (m : Model1 EReal) (source target : Sentence) (w : EReal)
    (hnd : target.Nodup) (s t : Int) (ht : t ≠ 0)
    (h : prob m.expected_counts_ (s, t) ≤ prob m.expected_counts_ (s, 0)) :
    prob (EStep ideal m source target w).2.expected_counts_ (s, t) ≤
      prob (EStep ideal m source target w).2.expected_counts_ (s, 0) := by
  refine le_trans ?_ (prob_EStep_denominator_ge m source target w s)
  rw [prob_EStep_joint_slot m source target w s t ht]
  refine add_le_add h ?_
  by_cases hc : (generators source).count s = 0
  · rw [hc]; simp
  · have hs : s ∈ generators source := List.count_pos_iff.1 (Nat.pos_of_ne_zero hc)
    refine mul_le_mul_left' ?_ _
    apply sum_le_of_length_le_one
    · rw [List.length_map, ← List.countP_eq_length_filter]
      exact List.nodup_iff_count_le_one.1 hnd t
    · intro x hx
      obtain ⟨tj, htj, rfl⟩ := List.mem_map.1 hx
      have e : tj = t := by simpa using (List.mem_filter.1 htj).2
      rw [e]
      exact exp_increment_le m.t_table_ source s t w hs

theorem joint_le_denominator_foldl (pairs : List (Sentence × Sentence × EReal))
    (m0 : Model1 EReal) (hnd : ∀ p ∈ pairs, p.2.1.Nodup) (s t : Int) (ht : t ≠ 0)
    (h : prob m0.expected_counts_ (s, t) ≤ prob m0.expected_counts_ (s, 0)) :
    prob (pairs.foldl (fun m p => (EStep ideal m p.1 p.2.1 p.2.2).2) m0).expected_counts_
        (s, t) ≤
      prob (pairs.foldl (fun m p => (EStep ideal m p.1 p.2.1 p.2.2).2) m0).expected_counts_
        (s, 0) := by
  induction pairs generalizing m0 with
  | nil => exact h
  | cons p rest ih =>
    rw [List.foldl_cons]
    exact ih _ (fun q hq => hnd q (List.mem_cons_of_mem _ hq))
      (joint_le_denominator_step m0 p.1 p.2.1 p.2.2 (hnd p (List.mem_cons_self _ _)) s t ht h)

theorem prob_of_find_some (T : TTable EReal) (k : Key) (v : EReal) (h : find T k = some v) :
    prob T k = EReal.exp v := by
  unfold prob
  rw [h]

/-- After an EM iteration over pairs whose target sentences repeat no word, every value of
the table is at most 0. -/
theorem values_nonpos_after_iteration (m : Model1 EReal)
    (pairs : List (Sentence × Sentence × EReal)) (hnd : ∀ p ∈ pairs, p.2.1.Nodup)
    (k : Key) (v : EReal) (hv : find (emIteration ideal m pairs).t_table_ k = some v) :
    v ≤ 0 := by
  have hk : k ∈ keys m.t_table_ := by
    rw [← keys_emIteration ideal m pairs]
    exact (mem_keys_iff _ _).2 ⟨v, hv⟩
  rw [← EReal.exp_le_one_iff, ← prob_of_find_some _ k v hv, prob_emIteration m pairs k hk]
  have hle : prob (eStepPass ideal m pairs).expected_counts_ k ≤
      prob (eStepPass ideal m pairs).expected_counts_ (k.1, 0) := by
    by_cases h0 : k.2 = 0
    · have e : k = (k.1, 0) := by rw [← h0]
      rw [← e]
    · have e : k = (k.1, k.2) := rfl
      rw [e]
      unfold eStepPass
      apply joint_le_denominator_foldl pairs _ hnd k.1 k.2 h0
      rw [prob_ClearExpectedCounts, if_pos (Or.inl hk)]
      exact zero_le _
  exact le_trans (mul_le_mul_right' hle _) (ENNReal.mul_inv_le_one _)

theorem init_repeat :
    InitDataStructures ideal repeatCorpus new =
      some ⟨2, 2, [((0, 1), 0), ((1, 1), 0)], []⟩ := by
  have h : InitDataStructures ideal repeatCorpus new =
      some ⟨2, 2, [((0, 1), ideal.logInv (((2 : Nat) : Int) - 1)),
        ((1, 1), ideal.logInv ((1 : Nat) : Int))], []⟩ := rfl
  rw [h]
  simp [ideal]

theorem wordProb_scenario :
    wordProb ideal ([((0, 1), 0), ((1, 1), 0)] : TTable EReal) [1] 1 =
      ((Real.log 2 : ℝ) : EReal) := by
  simp [-Prod.mk_zero_zero, -Prod.mk_one_one, wordProb, lookup, find, one_add_one_eq_two,
    log_two_ennreal]

/-- On the scenario table, after an EM iteration over the pair with source `[1]` and
target `[1, 1, 1]` the entry `(1, 1)` holds the probability `3/2`. -/
theorem prob_repeat :
    prob (emIteration ideal (⟨2, 2, [((0, 1), 0), ((1, 1), 0)], []⟩ : Model1 EReal)
      [([1], [1, 1, 1], 0)]).t_table_ (1, 1) = 2⁻¹ + 2⁻¹ + 2⁻¹ := by
  have hden : prob (eStepPass ideal (⟨2, 2, [((0, 1), 0), ((1, 1), 0)], []⟩ : Model1 EReal)
      [([1], [1, 1, 1], 0)]).expected_counts_ (1, 0) = 1 := by
    unfold eStepPass
    rw [prob_foldl_EStep_denominator _ _ (by simp) 1, prob_ClearExpectedCounts,
      if_pos (Or.inr ⟨rfl, by decide, by decide⟩)]
    simp [generators]
  have hjoint : prob (eStepPass ideal
      (⟨2, 2, [((0, 1), 0), ((1, 1), 0)], []⟩ : Model1 EReal)
      [([1], [1, 1, 1], 0)]).expected_counts_ (1, 1) = 2⁻¹ + 2⁻¹ + 2⁻¹ := by
    unfold eStepPass
    rw [List.foldl_cons, List.foldl_nil,
      prob_EStep_joint_slot _ [1] [1, 1, 1] 0 1 1 (by decide), prob_ClearExpectedCounts,
      if_pos (Or.inl (by decide)), ClearExpectedCounts_t_table]
    have hx : EReal.exp (lookup ideal ([((0, 1), 0), ((1, 1), 0)] : TTable EReal) 1 1
        - wordProb ideal ([((0, 1), 0), ((1, 1), 0)] : TTable EReal) [1] 1 + 0) = 2⁻¹ := by
      rw [wordProb_scenario]
      have hl : lookup ideal ([((0, 1), 0), ((1, 1), 0)] : TTable EReal) 1 1 = 0 := by
        simp [-Prod.mk_zero_zero, -Prod.mk_one_one, lookup, find]
      rw [hl, zero_sub, add_zero, exp_neg_log_two]
    simp only [List.filter_cons_of_pos, decide_True, List.filter_nil, List.map_cons,
      List.map_nil, List.sum_cons, List.sum_nil, hx, generators]
    simp [add_assoc]
  rw [prob_emIteration _ _ _ (by decide), hden, hjoint]
  simp

/-- C13 fails: on the table `InitDataStructures` builds for the corpus whose target
sentence is `[1, 1, 1]`, one EM iteration over the pair (source `[1]`, target
`[1, 1, 1]`, weight 0) leaves under `(1, 1)` a value `> 0`, the logarithm of `3/2`. -/
theorem C13_counterexample :
    ¬ (∀ m, InitDataStructures ideal repeatCorpus new = some m →
        ∀ (k : Key) (v : EReal),
          find (emIteration ideal m [([1], [1, 1, 1], 0)]).t_table_ k = some v → v ≤ 0) := by
  intro h
  have hk : ((1 : Int), (1 : Int)) ∈ keys (emIteration ideal
      (⟨2, 2, [((0, 1), 0), ((1, 1), 0)], []⟩ : Model1 EReal)
      [([1], [1, 1, 1], 0)]).t_table_ := by
    rw [keys_emIteration]
    decide
  obtain ⟨v, hv⟩ := (mem_keys_iff _ _).1 hk
  have hle := h _ init_repeat (1, 1) v hv
  rw [← EReal.exp_le_one_iff, ← prob_of_find_some _ _ v hv, prob_repeat,
    ENNReal.inv_two_add_inv_two] at hle
  have hlt : (1 : ENNReal) < 1 + 2⁻¹ :=
    ENNReal.lt_add_right ENNReal.one_ne_top (by simp)
  exact absurd hlt (not_lt.2 hle)

/-- C13 (amended): in exact arithmetic, every value `InitDataStructures` stores in a new
model is a log-probability, at most 0; and after an EM iteration `ClearExpectedCounts`,
`EStep` over any sentence pairs (any weights) whose target sentences repeat no word,
`MStep`, every value of the table is at most 0. -/
theorem C13_values_are_log_probabilities (pc : ParallelCorpus) (m : Model1 EReal)
    (pairs : List (Sentence × Sentence × EReal)) :
    (∀ m2, InitDataStructures ideal pc new = some m2 →
      ∀ (k : Key) (v : EReal), find m2.t_table_ k = some v → v ≤ 0) ∧
    ((∀ p ∈ pairs, p.2.1.Nodup) →
      ∀ (k : Key) (v : EReal),
        find (emIteration ideal m pairs).t_table_ k = some v → v ≤ 0) :=
  ⟨fun m2 h k v hv => init_values_nonpos pc m2 h k v hv,
   fun hnd k v hv => values_nonpos_after_iteration m pairs hnd k v hv⟩

/-- C13 (amended) on the scenario: the value under `(1, 1)` after one EM iteration. -/
theorem C13_values_are_log_probabilities_witness :
    ∃ v : EReal, find (emIteration ideal
        (⟨2, 2, [((0, 1), 0), ((1, 1), 0)], []⟩ : Model1 EReal)
        [([1], [1], 0)]).t_table_ (1, 1) = some v ∧ v ≤ 0 :=
  ⟨-((Real.log 2 : ℝ) : EReal), by rw [emIteration_scenario]; rfl,
   (C13_values_are_log_probabilities scenarioCorpus ⟨2, 2, [((0, 1), 0), ((1, 1), 0)], []⟩
      [([1], [1], 0)]).2 (by simp) (1, 1) _ (by rw [emIteration_scenario]; rfl)⟩

/-! ## C20 -/

theorem exp_real_ne (c : ℝ) : EReal.exp (c : EReal) ≠ 0 ∧ EReal.exp (c : EReal) ≠ ⊤ := by
  rw [EReal.exp_coe]
  refine ⟨?_, ENNReal.ofReal_ne_top⟩
  intro h
  rw [ENNReal.ofReal_eq_zero] at h
  exact absurd (Real.exp_pos c) (not_lt.2 h)

theorem sum_map_ite_mul {β : Type} (p : β → Prop) [DecidablePred p] (f : β → ENNReal)
    (e : ENNReal) (l : List β) :
    (l.map (fun b => if p b then f b * e else 0)).sum =
      e * (l.map (fun b => if p b then f b else 0)).sum := by
  rw [← List.sum_map_mul_left]
  congr 1
  apply List.map_congr_left
  intro b _
  by_cases h : p b
  · rw [if_pos h, if_pos h, mul_comm]
  · rw [if_neg h, if_neg h, mul_zero]

/-- Shifting the weight of one `EStep` call by `c` multiplies what the call adds to a
slot by `exp c`. -/
theorem prob_EStep_shift (ma mb : Model1 EReal) (hT : ma.t_table_ = mb.t_table_)
    (source target : Sentence) (w : EReal) (c : ℝ) (k : Key)
    (h : prob ma.expected_counts_ k = EReal.exp (c : EReal) * prob mb.expected_counts_ k) :
    prob (EStep ideal ma source target (w + (c : EReal))).2.expected_counts_ k =
      EReal.exp (c : EReal) * prob (EStep ideal mb source target w).2.expected_counts_ k := by
  rw [prob_EStep, prob_EStep, hT, h, mul_add, mul_add]
  congr 1
  · congr 1
    rw [← sum_map_ite_mul (fun s : Int => (s, (0 : Int)) = k) (fun _ => EReal.exp w)]
    congr 1
    apply List.map_congr_left
    intro s _
    rw [EReal.exp_add]
  · rw [← List.sum_map_mul_left]
    congr 1
    apply List.map_congr_left
    intro t _
    rw [← sum_map_ite_mul (fun s : Int => (s, t) = k)
      (fun s => EReal.exp (lookup ideal mb.t_table_ s t
        - wordProb ideal mb.t_table_ source t + w))]
    congr 1
    apply List.map_congr_left
    intro s _
    rw [← add_assoc, EReal.exp_add]

theorem shiftWeights_cons (c : ℝ) (p : Sentence × Sentence × EReal)
    (rest : List (Sentence × Sentence × EReal)) :
    shiftWeights c (p :: rest) = (p.1, p.2.1, p.2.2 + (c : EReal)) :: shiftWeights c rest :=
  rfl

theorem prob_foldl_EStep_shift (pairs : List (Sentence × Sentence × EReal)) (c : ℝ)
    (ma mb : Model1 EReal) (hT : ma.t_table_ = mb.t_table_) (k : Key)
    (h : prob ma.expected_counts_ k = EReal.exp (c : EReal) * prob mb.expected_counts_ k) :
    prob ((shiftWeights c pairs).foldl
        (fun m p => (EStep ideal m p.1 p.2.1 p.2.2).2) ma).expected_counts_ k =
      EReal.exp (c : EReal) *
        prob (pairs.foldl (fun m p => (EStep ideal m p.1 p.2.1 p.2.2).2) mb).expected_counts_
          k := by
  induction pairs generalizing ma mb with
  | nil => exact h
  | cons p rest ih =>
    rw [shiftWeights_cons, List.foldl_cons, List.foldl_cons]
    apply ih
    · rw [EStep_t_table, EStep_t_table, hT]
    · exact prob_EStep_shift ma mb hT p.1 p.2.1 p.2.2 c k h

/-- After the pass with every weight shifted by `c`, every slot that
`ClearExpectedCounts` reset holds `exp c` times the count of the unshifted pass. -/
theorem prob_eStepPass_shift (m : Model1 EReal) (pairs : List (Sentence × Sentence × EReal))
    (c : ℝ) (k : Key)
    (hk : k ∈ keys m.t_table_ ∨ (k.2 = 0 ∧ 0 ≤ k.1 ∧ k.1 < (m.source_vocab_size_ : Int))) :
    prob (eStepPass ideal m (shiftWeights c pairs)).expected_counts_ k =
      EReal.exp (c : EReal) * prob (eStepPass ideal m pairs).expected_counts_ k := by
  unfold eStepPass
  apply prob_foldl_EStep_shift pairs c _ _ rfl k
  rw [prob_ClearExpectedCounts, if_pos hk, mul_zero]

theorem lookup_eStepPass_shift (m : Model1 EReal)
    (pairs : List (Sentence × Sentence × EReal)) (c : ℝ) (k : Key)
    (hk : k ∈ keys m.t_table_ ∨ (k.2 = 0 ∧ 0 ≤ k.1 ∧ k.1 < (m.source_vocab_size_ : Int))) :
    lookup ideal (eStepPass ideal m (shiftWeights c pairs)).expected_counts_ k.1 k.2 =
      lookup ideal (eStepPass ideal m pairs).expected_counts_ k.1 k.2 + (c : EReal) := by
  apply EReal.exp_strictMono.injective
  rw [EReal.exp_add, exp_lookup, exp_lookup, prob_eStepPass_shift m pairs c k hk, mul_comm]

theorem exp_sub_eq (a b : EReal) : EReal.exp (a - b) = EReal.exp a * (EReal.exp b)⁻¹ := by
  rw [sub_eq_add_neg, EReal.exp_add, EReal.exp_neg]

theorem exp_sub_shift (a b : EReal) (c : ℝ) :
    EReal.exp (a + (c : EReal) - (b + (c : EReal))) = EReal.exp (a - b) := by
  rw [exp_sub_eq, exp_sub_eq, EReal.exp_add, EReal.exp_add,
    ENNReal.mul_inv (Or.inr (exp_real_ne c).2) (Or.inr (exp_real_ne c).1)]
  calc EReal.exp a * EReal.exp (c : EReal)
        * ((EReal.exp b)⁻¹ * (EReal.exp (c : EReal))⁻¹)
      = (EReal.exp (c : EReal) * (EReal.exp (c : EReal))⁻¹)
        * (EReal.exp a * (EReal.exp b)⁻¹) := by ring
    _ = EReal.exp a * (EReal.exp b)⁻¹ := by
        rw [ENNReal.mul_inv_cancel (exp_real_ne c).1 (exp_real_ne c).2, one_mul]

/-- The list of entries `MStep` writes when every key of `T` has a count entry. -/
theorem mStepLoop_eq_map {α : Type} (A : Arith α) (T C : TTable α)
    (h : ∀ k ∈ keys T, k ∈ keys C) :
    (mStepLoop A T C).1 =
      T.map (fun e => (e.1, A.sub (lookup A C e.1.1 e.1.2) (lookup A C e.1.1 0))) := by
  induction T with
  | nil => rfl
  | cons e rest ih =>
    obtain ⟨k0, v0⟩ := e
    have h0 : k0 ∈ keys C := h k0 (by simp [keys])
    have ih2 := ih (fun k hk => h k (by
      simp only [keys, List.map_cons, List.mem_cons]; exact Or.inr hk))
    simp only [mStepLoop, index_of_mem A C k0 h0, List.map_cons]
    rw [ih2]

theorem emIteration_t_table_eq_map (m : Model1 EReal)
    (pairs : List (Sentence × Sentence × EReal)) :
    (emIteration ideal m pairs).t_table_ =
      m.t_table_.map (fun e => (e.1,
        lookup ideal (eStepPass ideal m pairs).expected_counts_ e.1.1 e.1.2
          - lookup ideal (eStepPass ideal m pairs).expected_counts_ e.1.1 0)) := by
  have e : (emIteration ideal m pairs).t_table_ =
      (mStepLoop ideal (eStepPass ideal m pairs).t_table_
        (eStepPass ideal m pairs).expected_counts_).1 := rfl
  rw [e, mStepLoop_eq_map, eStepPass_t_table]
  · rfl
  · intro k hk
    rw [eStepPass_t_table] at hk
    exact keys_subset_eStepPass ideal m pairs k hk

/-- C20: in exact arithmetic, for every model state whose table keys have their source
word in the source vocabulary, every list of weighted sentence pairs and every real `c`,
the EM iteration `ClearExpectedCounts`, `EStep` over all pairs, `MStep` run with the
weights `w_p + c` yields the same translation table as with the weights `w_p`, and for
every key `(s, t)` of `T` the counts `C[s,t]` and `C[s,0]` after the E-step pass are
shifted by exactly `c`. -/
theorem C20_weight_shift_invariance (m : Model1 EReal)
    (pairs : List (Sentence × Sentence × EReal)) (c : ℝ)
    (hvoc : ∀ k ∈ keys m.t_table_, 0 ≤ k.1 ∧ k.1 < (m.source_vocab_size_ : Int)) :
    (emIteration ideal m (shiftWeights c pairs)).t_table_ =
      (emIteration ideal m pairs).t_table_ ∧
    ∀ k ∈ keys m.t_table_,
      lookup ideal (eStepPass ideal m (shiftWeights c pairs)).expected_counts_ k.1 k.2 =
        lookup ideal (eStepPass ideal m pairs).expected_counts_ k.1 k.2 + (c : EReal) ∧
      lookup ideal (eStepPass ideal m (shiftWeights c pairs)).expected_counts_ k.1 0 =
        lookup ideal (eStepPass ideal m pairs).expected_counts_ k.1 0 + (c : EReal) := by
  have hshift : ∀ k ∈ keys m.t_table_,
      lookup ideal (eStepPass ideal m (shiftWeights c pairs)).expected_counts_ k.1 k.2 =
        lookup ideal (eStepPass ideal m pairs).expected_counts_ k.1 k.2 + (c : EReal) ∧
      lookup ideal (eStepPass ideal m (shiftWeights c pairs)).expected_counts_ k.1 0 =
        lookup ideal (eStepPass ideal m pairs).expected_counts_ k.1 0 + (c : EReal) := by
    intro k hk
    exact ⟨lookup_eStepPass_shift m pairs c k (Or.inl hk),
      lookup_eStepPass_shift m pairs c (k.1, 0)
        (Or.inr ⟨rfl, (hvoc k hk).1, (hvoc k hk).2⟩)⟩
  refine ⟨?_, hshift⟩
  rw [emIteration_t_table_eq_map, emIteration_t_table_eq_map]
  apply List.map_congr_left
  intro e he
  have hk : e.1 ∈ keys m.t_table_ := List.mem_map.2 ⟨e, he, rfl⟩
  obtain ⟨h1, h2⟩ := hshift e.1 hk
  have hval : lookup ideal (eStepPass ideal m (shiftWeights c pairs)).expected_counts_
        e.1.1 e.1.2
      - lookup ideal (eStepPass ideal m (shiftWeights c pairs)).expected_counts_ e.1.1 0 =
      lookup ideal (eStepPass ideal m pairs).expected_counts_ e.1.1 e.1.2
      - lookup ideal (eStepPass ideal m pairs).expected_counts_ e.1.1 0 := by
    apply EReal.exp_strictMono.injective
    rw [h1, h2]
    exact exp_sub_shift _ _ c
  rw [hval]

/-- C20 on the scenario, with the weight 0 shifted by `c = 1`. -/
theorem C20_weight_shift_invariance_witness :
    (emIteration ideal (⟨2, 2, [((0, 1), 0), ((1, 1), 0)], []⟩ : Model1 EReal)
        (shiftWeights 1 [([1], [1], 0)])).t_table_ =
      (emIteration ideal (⟨2, 2, [((0, 1), 0), ((1, 1), 0)], []⟩ : Model1 EReal)
        [([1], [1], 0)]).t_table_ :=
  (C20_weight_shift_invariance ⟨2, 2, [((0, 1), 0), ((1, 1), 0)], []⟩ [([1], [1], 0)] 1
    (by decide)).1

end Model1
